import Mathlib

/-!
JDFTx nonlinear PCM kernels: `fluid/PCM_internal.h`

A shallow embedding of the per-point constitutive kernels of namespace
`NonlinearPCMeval` (structs `Screening` and `Dielectric`) together with the
neutrality-constraint solve, and proofs about them.

Conventions of the embedding.

* `double` is idealised: every definition is polymorphic in a linearly ordered
  field `α`, and the theorems are stated at `α = ℝ`.  Decimal constants of the
  source (`0.5`, `1e-13`, `0.95`, ...) denote the corresponding rationals.
* The libm functions the source calls (`exp`, `log`, `sqrt`, `tanh`, `sinh`)
  are passed to the definitions as arguments; the theorems instantiate them
  with `Real.exp`, `Real.log`, `Real.sqrt`, `Real.tanh`, `Real.sinh`.
* Output reference parameters (`double& F`, ...) become fields of a returned
  structure; optional output pointers become fields that the caller may ignore.
* `while` loops become recursive functions (`scaleWhile`, `bisectWhile`) with a
  fuel argument that bounds the number of iterations of each loop; `none` means
  the fuel ran out.
* A `ScalarField` on a grid of `n` points is a function `Fin n → α`.
-/

open Finset

variable {α : Type} [LinearOrderedField α]

/-- Modelled from the spec: `integral` (declared in core/Operators.h, which is
not among the sources) is a sum over the grid points with one weight per
point (the volume element). -/
def integral {n : Nat} (w : Fin n → α) (f : Fin n → α) : α :=
  ∑ i, w i * f i

/-- The loop `while(cond(x)) x *= factor;` run for at most `fuel` iterations;
the result is the value of `x` on exit. -/
def scaleWhile (cond : α → Bool) (factor : α) : Nat → α → Option α
  | 0, _ => none
  | fuel + 1, x => if cond x then scaleWhile cond factor fuel (x * factor) else some x

/-- The bisection loop shared by `x_from_V` and `eps_from_x`,
`while(hi-lo > tol) { if(below(x)) lo = x; else hi = x; x = 0.5*(hi+lo); }`,
run for at most `fuel` iterations; the result is the state `(lo, hi, x)` on exit. -/
def bisectWhile (below : α → Bool) (tol : α) : Nat → α → α → α → Option (α × α × α)
  | 0, _, _, _ => none
  | fuel + 1, lo, hi, x =>
    if hi - lo > tol then
      if below x then bisectWhile below tol fuel x hi (0.5 * (hi + x))
      else bisectWhile below tol fuel lo x (0.5 * (x + lo))
    else some (lo, hi, x)

namespace NonlinearPCMeval

/-- Data members of `struct Screening`. -/
structure Screening (α : Type) where
  linear : Bool
  NT : α
  ZbyT : α
  NZ : α
  x0plus : α
  x0minus : α
  x0 : α

/-- Value and optional gradients returned by `Screening::neutralityConstraint`. -/
structure NeutralityOut (α : Type) (n : Nat) where
  mu0 : α
  mu0_muPlus : Fin n → α
  mu0_muMinus : Fin n → α
  mu0_shape : Fin n → α
  mu0_Qexp : α

/-- The locals `mu0`, `mu0_Qplus`, `mu0_Qminus` of the nonlinear branch of
`Screening::neutralityConstraint`. -/
structure Mu0Moments (α : Type) where
  mu0 : α
  mu0_Qplus : α
  mu0_Qminus : α

/-- Body of the `if(Qexp<0)` branch of `Screening::neutralityConstraint`. -/
def Screening.mu0BranchNeg (log : α → α) (Qplus Qminus Qexp disc : α) : Mu0Moments α :=
  { mu0 := log ((disc - Qexp) / (2. * Qplus))
    mu0_Qplus := -2. * Qminus / (disc * (disc - Qexp)) - 1. / Qplus
    mu0_Qminus := -2. * Qplus / (disc * (disc - Qexp)) }

/-- Body of the `else` branch (`Qexp >= 0`) of `Screening::neutralityConstraint`. -/
def Screening.mu0BranchPos (log : α → α) (Qplus Qminus Qexp disc : α) : Mu0Moments α :=
  { mu0 := log (-2. * Qminus / (disc + Qexp))
    mu0_Qplus := 2. * Qminus / (disc * (disc + Qexp))
    mu0_Qminus := 2. * Qplus / (disc * (disc + Qexp)) + 1. / Qminus }

/-- The discriminant `disc` of the nonlinear branch of `neutralityConstraint`. -/
def Screening.disc (sqrt : α → α) (Qplus Qminus Qexp : α) : α :=
  sqrt (Qexp * Qexp - 4. * Qplus * Qminus)

/-- Closed-form solve of the nonlinear branch of `neutralityConstraint` from the
moments `Qplus`, `Qminus`: discriminant and selection of the branch. -/
def Screening.mu0Nonlinear (log sqrt : α → α) (Qplus Qminus Qexp : α) : Mu0Moments α :=
  let disc := Screening.disc sqrt Qplus Qminus Qexp
  if Qexp < 0 then Screening.mu0BranchNeg log Qplus Qminus Qexp disc
  else Screening.mu0BranchPos log Qplus Qminus Qexp disc

/-- `Screening::neutralityConstraint`: the neutrality Lagrange multiplier `mu0`
and its derivatives. -/
def Screening.neutralityConstraint (exp log sqrt : α → α) (p : Screening α) {n : Nat}
    (w : Fin n → α) (muPlus muMinus shape : Fin n → α) (Qexp : α) : NeutralityOut α n :=
  if p.linear then
    let Qsum := p.NZ * 2. * integral w shape
    let Qdiff := p.NZ * integral w (fun i => shape i * (muPlus i + muMinus i))
    let mu0 := -(Qexp + Qdiff) / Qsum
    let mu0_Qdiff := -1. / Qsum
    let mu0_Qsum := (Qexp + Qdiff) / (Qsum * Qsum)
    { mu0 := mu0
      mu0_muPlus := fun i => (mu0_Qdiff * p.NZ) * shape i
      mu0_muMinus := fun i => (mu0_Qdiff * p.NZ) * shape i
      mu0_shape := fun i => p.NZ * (mu0_Qdiff * (muPlus i + muMinus i) + mu0_Qsum * 2.)
      mu0_Qexp := -1. / Qsum }
  else
    let etaPlus : Fin n → α := fun i => exp (muPlus i)
    let etaMinus : Fin n → α := fun i => exp (-muMinus i)
    let Qplus := p.NZ * integral w (fun i => shape i * etaPlus i)
    let Qminus := -p.NZ * integral w (fun i => shape i * etaMinus i)
    let m := Screening.mu0Nonlinear log sqrt Qplus Qminus Qexp
    { mu0 := m.mu0
      mu0_muPlus := fun i => (m.mu0_Qplus * p.NZ) * shape i * etaPlus i
      mu0_muMinus := fun i => (m.mu0_Qminus * p.NZ) * shape i * etaMinus i
      mu0_shape := fun i => p.NZ * (m.mu0_Qplus * etaPlus i - m.mu0_Qminus * etaMinus i)
      mu0_Qexp := -1. / Screening.disc sqrt Qplus Qminus Qexp }

/-- `Screening::fHS`: hard sphere free energy per particle (first component)
and the derivative `f_xIn` written through the reference (second component). -/
def Screening.fHS (p : Screening α) (xIn : α) : α × α :=
  let x := if xIn > 0.5 then 1. - 0.25 * (1. / xIn) else xIn
  let x_xIn := if xIn > 0.5 then 0.25 * (1. / xIn) * (1. / xIn) else 1.
  let den := 1. / (1 - x)
  let den0 := 1. / (1 - p.x0)
  let comb := (x - p.x0) * den * den0
  let comb_x := den * den
  let prefac := 2. / p.x0
  (prefac * comb * comb, prefac * 2. * comb * comb_x * x_xIn)

/-- The six outputs of `Screening::compute`. -/
structure ComputeOut (α : Type) where
  F : α
  F_muPlus : α
  F_muMinus : α
  Rho : α
  Rho_muPlus : α
  Rho_muMinus : α

/-- `Screening::compute`: free energy and charge density prior to scaling by
the shape function, with their derivatives. -/
def Screening.compute (exp : α → α) (p : Screening α) (muPlus muMinus : α) : ComputeOut α :=
  if p.linear then
    { F := p.NT * 0.5 * (muPlus * muPlus + muMinus * muMinus)
      F_muPlus := p.NT * muPlus
      F_muMinus := p.NT * muMinus
      Rho := p.NZ * (muPlus + muMinus)
      Rho_muPlus := p.NZ
      Rho_muMinus := p.NZ }
  else
    let etaPlus := exp muPlus
    let etaMinus := exp (-muMinus)
    let x := p.x0plus * etaPlus + p.x0minus * etaMinus
    let f := (p.fHS x).1
    let f_x := (p.fHS x).2
    { F := p.NT * (2. + etaPlus * (muPlus - 1.) + etaMinus * (-muMinus - 1.) + f)
      F_muPlus := p.NT * etaPlus * (muPlus + f_x * p.x0plus)
      F_muMinus := p.NT * etaMinus * (muMinus - f_x * p.x0minus)
      Rho := p.NZ * (etaPlus - etaMinus)
      Rho_muPlus := p.NZ * etaPlus
      Rho_muMinus := p.NZ * etaMinus }

/-- `Screening::rootFunc`: root function for the packing fraction `x` at the
dimensionless potential `V`. -/
def Screening.rootFunc (exp : α → α) (p : Screening α) (x V : α) : α :=
  let f_x := (p.fHS x).2
  x - (p.x0plus * exp (-V - f_x * p.x0plus) + p.x0minus * exp (V - f_x * p.x0minus))

/-- `Screening::x_from_V` with its final loop variables `(xLo, xHi, x)`; each of
the three loops may run at most `fuel` iterations. -/
def Screening.x_from_V_state (exp : α → α) (p : Screening α) (fuel : Nat) (V : α) :
    Option (α × α × α) :=
  -- double xLo = x0; while(rootFunc(xLo, V) > 0.) xLo *= 0.5;
  match scaleWhile (fun xLo => decide (p.rootFunc exp xLo V > 0.)) 0.5 fuel p.x0 with
  | none => none
  | some xLo =>
    -- double xHi = xLo; while(rootFunc(xHi, V) < 0.) xHi *= 2.;
    match scaleWhile (fun xHi => decide (p.rootFunc exp xHi V < 0.)) 2. fuel xLo with
    | none => none
    | some xHi =>
      let x := 0.5 * (xHi + xLo)
      let dx := x * 1e-13
      bisectWhile (fun x => decide (p.rootFunc exp x V < 0.)) dx fuel xLo xHi x

/-- `Screening::x_from_V`: self-consistent packing fraction at the potential `V`
by bracket expansion and bisection. -/
def Screening.x_from_V (exp : α → α) (p : Screening α) (fuel : Nat) (V : α) : Option α :=
  (Screening.x_from_V_state exp p fuel V).map (fun s => s.2.2)

/-- Data members of `struct Dielectric`. -/
structure Dielectric (α : Type) where
  linear : Bool
  Np : α
  pByT : α
  NT : α
  alpha : α
  X : α

/-- `Dielectric::calcFunctions`: the pair `(frac, logsinch)` written through the
two reference parameters. -/
def Dielectric.calcFunctions (tanh sinh log : α → α) (d : Dielectric α) (eps : α) : α × α :=
  let epsSq := eps * eps
  if d.linear then
    (1.0 / 3, epsSq * (1.0 / 6))
  else
    if eps < 1e-1 then
      (1.0 / 3 + epsSq * (-1.0 / 45 + epsSq * (2.0 / 945 + epsSq * (-1.0 / 4725))),
        epsSq * (1.0 / 6 + epsSq * (-1.0 / 180 + epsSq * (1.0 / 2835))))
    else
      ((eps / tanh eps - 1) / epsSq,
        if eps < 20. then log (sinh eps / eps) else eps - log (2. * eps))

/-- `Dielectric::x_from_eps`: `x = pMol E / T` given `eps`. -/
def Dielectric.x_from_eps (tanh sinh log : α → α) (d : Dielectric α) (eps : α) : α :=
  let frac := (d.calcFunctions tanh sinh log eps).1
  eps * (1. - d.alpha * frac)

/-- The three loops of `Dielectric::eps_from_x` (the part after the test
`if(!x) return 0.;`) with the final loop variables `(epsLo, epsHi, eps)`; each
loop may run at most `fuel` iterations. -/
def Dielectric.eps_from_x_state (tanh sinh log : α → α) (d : Dielectric α) (fuel : Nat)
    (x : α) : Option (α × α × α) :=
  -- double epsLo = x; while(x_from_eps(epsLo) > x) epsLo *= 0.95;
  match scaleWhile (fun epsLo => decide (d.x_from_eps tanh sinh log epsLo > x)) 0.95 fuel x with
  | none => none
  | some epsLo =>
    -- double epsHi = epsLo; while(x_from_eps(epsHi) < x) epsHi *= 1.05;
    match scaleWhile (fun epsHi => decide (d.x_from_eps tanh sinh log epsHi < x)) 1.05
        fuel epsLo with
    | none => none
    | some epsHi =>
      let eps := 0.5 * (epsHi + epsLo)
      let deps := eps * 1e-13
      bisectWhile (fun eps => decide (d.x_from_eps tanh sinh log eps < x)) deps
        fuel epsLo epsHi eps

/-- `Dielectric::eps_from_x`: inversion of `x_from_eps` by bracket expansion and
bisection. -/
def Dielectric.eps_from_x (tanh sinh log : α → α) (d : Dielectric α) (fuel : Nat) (x : α) :
    Option α :=
  if x = 0 then some 0.
  else (Dielectric.eps_from_x_state tanh sinh log d fuel x).map (fun s => s.2.2)

end NonlinearPCMeval

/-- A sample parameter set with `x0plus = x0minus = 1/8`, `x0 = 1/4` and unit
prefactors, for concrete evaluations. -/
def sampleScreening (α : Type) [LinearOrderedField α] (linear : Bool) :
    NonlinearPCMeval.Screening α :=
  { linear := linear, NT := 1, ZbyT := 1, NZ := 1, x0plus := 1 / 8, x0minus := 1 / 8, x0 := 1 / 4 }

/-- The rational closed form of the hard sphere free energy in the internal
variable `x`, as the specification writes it:
`(2/x0) ((x - x0) / ((1 - x)(1 - x0)))²`. -/
def hardSphereClosedForm (x0 x : α) : α :=
  2 / x0 * ((x - x0) / ((1 - x) * (1 - x0))) ^ 2

/-- The potential at which the root function of `sampleScreening` vanishes
exactly at `x = 2`: the positive solution `V` of `cosh V = 8 e^{160/3}`. -/
def rootAtTwoPotential (exp log sqrt : α → α) : α :=
  log (8 * exp (160 / 3) + sqrt (64 * exp (160 / 3) ^ 2 - 1))

/-- The truncated series that `Dielectric::calcFunctions` uses for `frac` when
`eps < 0.1`. -/
def fracSeries (eps : α) : α :=
  1 / 3 + eps * eps * (-1 / 45 + eps * eps * (2 / 945 + eps * eps * (-1 / 4725)))

/-- A sample dielectric parameter set with correlation factor `alpha = 1` and
unit prefactors, for concrete evaluations. -/
def sampleDielectric (α : Type) [LinearOrderedField α] (linear : Bool) :
    NonlinearPCMeval.Dielectric α :=
  { linear := linear, Np := 1, pByT := 1, NT := 1, alpha := 1, X := 0 }

/-! ## Grid-point kernels and shape functions -/

namespace NonlinearPCMeval

/-- The local `Qsum` of the linear branch of `Screening::neutralityConstraint`. -/
def Screening.Qsum (p : Screening α) {n : Nat} (w shape : Fin n → α) : α :=
  p.NZ * 2. * integral w shape

/-- The local `Qplus` of the nonlinear branch of `Screening::neutralityConstraint`. -/
def Screening.Qplus (exp : α → α) (p : Screening α) {n : Nat} (w muPlus shape : Fin n → α) : α :=
  p.NZ * integral w (fun i => shape i * exp (muPlus i))

/-- The local `Qminus` of the nonlinear branch of `Screening::neutralityConstraint`. -/
def Screening.Qminus (exp : α → α) (p : Screening α) {n : Nat} (w muMinus shape : Fin n → α) :
    α :=
  -p.NZ * integral w (fun i => shape i * exp (-muMinus i))

/-- The arrays that `Screening::freeEnergy_calc` writes. `rho` and `A` are
always written; each of the three derivative arrays is an optional pointer,
`none` standing for the null pointer. -/
structure FreeEnergyArrays (α : Type) where
  rho : Nat → α
  A : Nat → α
  A_muPlus : Option (Nat → α)
  A_muMinus : Option (Nat → α)
  A_s : Option (Nat → α)

/-- `Screening::freeEnergy_calc`: induced charge and free energy density at the
grid point `i`, with accumulation of the derivatives. -/
def Screening.freeEnergy_calc (exp : α → α) (p : Screening α) (i : Nat) (mu0 : α)
    (muPlus muMinus s : Nat → α) (out : FreeEnergyArrays α) : FreeEnergyArrays α :=
  let c := p.compute exp (muPlus i + mu0) (muMinus i + mu0)
  { rho := Function.update out.rho i (s i * c.Rho)
    A := Function.update out.A i (s i * c.F)
    A_muPlus := out.A_muPlus.map (fun a => Function.update a i (a i + s i * c.F_muPlus))
    A_muMinus := out.A_muMinus.map (fun a => Function.update a i (a i + s i * c.F_muMinus))
    A_s := out.A_s.map (fun a => Function.update a i (a i + c.F)) }

/-- The arrays that `Screening::convertDerivative_calc` accumulates to; only
`A_s` is an optional pointer. -/
structure ConvertDerivativeArrays (α : Type) where
  A_muPlus : Nat → α
  A_muMinus : Nat → α
  A_s : Option (Nat → α)

/-- `Screening::convertDerivative_calc`: propagate the derivative `A_rho` and
accumulate to `A_muPlus`, `A_muMinus` and `A_s` at the grid point `i`. -/
def Screening.convertDerivative_calc (exp : α → α) (p : Screening α) (i : Nat) (mu0 : α)
    (muPlus muMinus s A_rho : Nat → α) (out : ConvertDerivativeArrays α) :
    ConvertDerivativeArrays α :=
  let c := p.compute exp (muPlus i + mu0) (muMinus i + mu0)
  { A_muPlus := Function.update out.A_muPlus i (out.A_muPlus i + s i * c.Rho_muPlus * A_rho i)
    A_muMinus := Function.update out.A_muMinus i
      (out.A_muMinus i + s i * c.Rho_muMinus * A_rho i)
    A_s := out.A_s.map (fun a => Function.update a i (a i + c.Rho * A_rho i)) }

end NonlinearPCMeval

/-- Modelled from the spec: `vector3<>` of core/vector3.h, which is not among
the sources; a vector field has three components per grid point. -/
structure vector3 (α : Type) where
  x : α
  y : α
  z : α

/-- Modelled from the spec: `vector3<>::length_squared` of core/vector3.h, the
sum of the squares of the three components. -/
def vector3.length_squared (v : vector3 α) : α :=
  v.x * v.x + v.y * v.y + v.z * v.z

/-- Modelled from the spec: `vector3<>::length` of core/vector3.h, the square
root of `length_squared`. -/
def vector3.length (sqrt : α → α) (v : vector3 α) : α :=
  sqrt v.length_squared

/-- Modelled from the spec: `loadVector` of core/vector3.h, the vector of the
entries at index `i` of three component arrays. -/
def loadVector (a : vector3 (Nat → α)) (i : Nat) : vector3 α :=
  { x := a.x i, y := a.y i, z := a.z i }

/-- Modelled from the spec: `storeVector` of core/vector3.h, which writes the
components of `v` to the entries at index `i` of three component arrays. -/
def storeVector (v : vector3 α) (a : vector3 (Nat → α)) (i : Nat) : vector3 (Nat → α) :=
  { x := Function.update a.x i v.x, y := Function.update a.y i v.y,
    z := Function.update a.z i v.z }

namespace NonlinearPCMeval

/-- The part of `Dielectric::apply_calc` between the computation of the field
magnitude `E` and the two stores: the energy density written to `A[i]` and the
coefficient `A_E_by_E`. The lookup table `dielEnergyLookup` (a `RadialFunctionG`,
not among the sources) enters through its value and derivative functions. -/
def Dielectric.apply_energy (pi : α) (d : Dielectric α)
    (dielEnergyLookup dielEnergyLookup_deriv : α → α) (s_i E : α) : α × α :=
  let x := d.pByT * E
  let inv_x_plus_1 := 1.0 / (1 + x)
  let xMapped := x * inv_x_plus_1
  let energy_by_x_sq := dielEnergyLookup xMapped
  let energy := energy_by_x_sq * (x * x)
  let energy_E_by_E :=
    (dielEnergyLookup_deriv xMapped * xMapped * inv_x_plus_1 + 2.0 * energy_by_x_sq)
      * (d.pByT * d.pByT)
  let oneBy4pi := 1.0 / (4 * pi)
  ((oneBy4pi * 0.5) * (E * E) + s_i * energy, oneBy4pi + s_i * energy_E_by_E)

/-- `Dielectric::apply_calc`: apply the nonlinear susceptibility in place on
`Dphi` at the grid point `i` and return the energy density in `A[i]`; the result
is the pair of the updated `Dphi` and `A`. -/
def Dielectric.apply_calc (sqrt : α → α) (pi : α) (d : Dielectric α) (i : Nat)
    (dielEnergyLookup dielEnergyLookup_deriv : α → α) (s : Nat → α)
    (Dphi : vector3 (Nat → α)) (A : Nat → α) : vector3 (Nat → α) × (Nat → α) :=
  let Evec := loadVector Dphi i
  let E := Evec.length sqrt
  let r := d.apply_energy pi dielEnergyLookup dielEnergyLookup_deriv (s i) E
  let A_E_by_E := r.2
  (storeVector { x := A_E_by_E * Evec.x, y := A_E_by_E * Evec.y, z := A_E_by_E * Evec.z } Dphi i,
    Function.update A i r.1)

end NonlinearPCMeval

namespace ShapeFunction

/-- `ShapeFunction::compute_calc`: the shape function at the grid point `i`. -/
def compute_calc (erfc sqrt log : α → α) (i : Nat) (nCavity shape : Nat → α) (nc sigma : α) :
    Nat → α :=
  Function.update shape i (erfc (sqrt 0.5 * log (|nCavity i| / nc) / sigma) * 0.5)

/-- The amount that `ShapeFunction::propagateGradient_calc` adds to
`grad_nCavity[i]`. -/
def propagateGradient_increment (exp sqrt log : α → α) (pow : α → α → α) (pi : α)
    (n_i grad_shape_i nc sigma : α) : α :=
  (-1.0 / (nc * sigma * sqrt (2 * pi))) * grad_shape_i
    * exp (0.5 * (pow sigma 2 - pow (log (|n_i| / nc) / sigma + sigma) 2))

/-- `ShapeFunction::propagateGradient_calc`: accumulate the gradient with respect
to the cavity-determining density at the grid point `i`. -/
def propagateGradient_calc (exp sqrt log : α → α) (pow : α → α → α) (pi : α) (i : Nat)
    (nCavity grad_shape grad_nCavity : Nat → α) (nc sigma : α) : Nat → α :=
  Function.update grad_nCavity i (grad_nCavity i
    + propagateGradient_increment exp sqrt log pow pi (nCavity i) (grad_shape i) nc sigma)

end ShapeFunction

namespace ShapeFunctionSCCS

/-- The value that `ShapeFunctionSCCS::compute_calc` stores in `shape[i]` for the
density `rho = nCavity[i]`. -/
def compute_value (log sin : α → α) (pow : α → α → α) (pi : α)
    (rhoMin rhoMax epsBulk rho : α) : α :=
  if rho ≥ rhoMax then 0.
  else if rho ≤ rhoMin then 1.
  else
    let logDen := log (rhoMax / rhoMin)
    let f := log (rhoMax / rho) / logDen
    let t := f - sin (2 * pi * f) / (2 * pi)
    (pow epsBulk t - 1.) / (epsBulk - 1.)

/-- `ShapeFunctionSCCS::compute_calc`: the shape function at the grid point `i`. -/
def compute_calc (log sin : α → α) (pow : α → α → α) (pi : α) (i : Nat)
    (nCavity shape : Nat → α) (rhoMin rhoMax epsBulk : α) : Nat → α :=
  Function.update shape i (compute_value log sin pow pi rhoMin rhoMax epsBulk (nCavity i))

/-- `ShapeFunctionSCCS::propagateGradient_calc`: accumulate the gradient with
respect to the cavity-determining density at the grid point `i`; the two early
returns leave `grad_nCavity` as it is. -/
def propagateGradient_calc (log sin cos : α → α) (pow : α → α → α) (pi : α) (i : Nat)
    (nCavity grad_shape grad_nCavity : Nat → α) (rhoMin rhoMax epsBulk : α) : Nat → α :=
  let rho := nCavity i
  if rho ≥ rhoMax then grad_nCavity
  else if rho ≤ rhoMin then grad_nCavity
  else
    let logDen := log (rhoMax / rhoMin)
    let f := log (rhoMax / rho) / logDen
    let f_rho := -1. / (rho * logDen)
    let t := f - sin (2 * pi * f) / (2 * pi)
    let t_f := 1. - cos (2 * pi * f)
    let s_t := log epsBulk * pow epsBulk t / (epsBulk - 1.)
    Function.update grad_nCavity i (grad_nCavity i + grad_shape i * s_t * t_f * f_rho)

end ShapeFunctionSCCS

/-- A parameter set with bulk packing fraction above the remap boundary of
`fHS`: `x0plus = x0minus = 3/8`, `x0 = 3/4`, unit prefactors. -/
def denseScreening (α : Type) [LinearOrderedField α] (linear : Bool) :
    NonlinearPCMeval.Screening α :=
  { linear := linear, NT := 1, ZbyT := 1, NZ := 1, x0plus := 3 / 8, x0minus := 3 / 8, x0 := 3 / 4 }

/-- The C library function `copysign(x, y)` on exact reals: the magnitude of `x`
with the sign of `y`. The reals have no negative zero, so `y = 0` gives the
positive value, as `copysign` does for `+0.0`. -/
def copysign (x y : α) : α :=
  if y < 0 then -|x| else |x|

namespace NonlinearPCMeval

/-- The local `x` of `Screening::fHS`: the packing fraction after the remap of
`[0.5, infty)` on to `[0.5, 1)`. -/
def Screening.remap (xIn : α) : α :=
  if xIn > 0.5 then 1. - 0.25 * (1. / xIn) else xIn

/-- The local `x` of the nonlinear branch of `Screening::compute`: the packing
fraction formed from the state. -/
def Screening.packingFraction (exp : α → α) (p : Screening α) (muPlus muMinus : α) : α :=
  p.x0plus * exp muPlus + p.x0minus * exp (-muMinus)

/-- The local `V` of `Screening::phiToState_calc` after the guard
`if(!setState) { if(fabs(V) < 1e-7) V = copysign(1e-7, V); }`. -/
def Screening.phiToState_V (p : Screening α) (setState : Bool) (phi_i : α) : α :=
  let V := p.ZbyT * phi_i
  if !setState then
    if |V| < 1e-7 then copysign 1e-7 V else V
  else V

/-- The local `Vmapped` of `Screening::phiToState_calc`. -/
def Screening.phiToState_Vmapped (sqrt : α → α) (pow : α → α → α) (V : α) : α :=
  let twoCbrtV := 2. * pow |V| (1. / 3)
  copysign (twoCbrtV / (1. + sqrt (1. + twoCbrtV * twoCbrtV))) V

/-- The three arrays that `Screening::phiToState_calc` may write. -/
structure PhiToStateArrays (α : Type) where
  muPlus : Nat → α
  muMinus : Nat → α
  kappaSq : Nat → α

/-- `Screening::phiToState_calc`: from the shape function and `phi`, the state
`mu` at the grid point `i` if `setState`, the effective `kappaSq` otherwise. The
lookup table `xLookup` (a `RadialFunctionG`, not among the sources) enters
through its value function. -/
def Screening.phiToState_calc (exp sqrt : α → α) (pow : α → α → α) (pi : α) (p : Screening α)
    (i : Nat) (phi s : Nat → α) (xLookup : α → α) (setState : Bool)
    (out : PhiToStateArrays α) : PhiToStateArrays α :=
  let V := p.phiToState_V setState (phi i)
  let Vmapped := Screening.phiToState_Vmapped sqrt pow V
  let xMapped := xLookup (1. + Vmapped)
  let x := 1. / xMapped - 1.
  let f_x := (p.fHS x).2
  let logEtaPlus := -V - f_x * p.x0plus
  let logEtaMinus := V - f_x * p.x0minus
  if setState then
    { muPlus := Function.update out.muPlus i logEtaPlus
      muMinus := Function.update out.muMinus i (-logEtaMinus)
      kappaSq := out.kappaSq }
  else
    { muPlus := out.muPlus
      muMinus := out.muMinus
      kappaSq := Function.update out.kappaSq i
        ((4 * pi) * s i * (p.NZ * p.ZbyT) * (exp logEtaMinus - exp logEtaPlus) / V) }

end NonlinearPCMeval

/-! ## Double-precision arithmetic

The definitions above idealise `double` as an exact ordered field. The
definitions of this section evaluate the remap of `fHS`, `eps_from_x` and
`ShapeFunctionSCCS::compute_calc` in IEEE 754 binary64 arithmetic on finite
values: a double is a rational `m * 2^e` with `|m| < 2^53` and `e ≥ -1074`, and
every arithmetic operation returns the double nearest to its exact result, ties
to the even significand. Comparisons and unary minus are exact. Overflow,
infinities, NaN and the result of a division by zero are not modelled. -/

/-- Round a rational to the nearest integer, ties to the even integer. -/
def roundNearestEven (q : ℚ) : ℤ :=
  let f := ⌊q⌋
  let r := q - f
  if r < 1 / 2 then f else if 1 / 2 < r then f + 1 else if f % 2 = 0 then f else f + 1

/-- The double nearest to the rational `q`, ties to even, with gradual
underflow: the nearest multiple of `2^(e-52)` for `e = max(floor(log2 |q|), -1022)`. -/
def binary64 (q : ℚ) : ℚ :=
  if q = 0 then 0
  else
    let e := max (Int.log 2 |q|) (-1022)
    roundNearestEven (q / 2 ^ (e - 52)) * 2 ^ (e - 52)

/-- Double-precision `a - b`. -/
def sub64 (a b : ℚ) : ℚ := binary64 (a - b)

/-- Double-precision `a * b`. -/
def mul64 (a b : ℚ) : ℚ := binary64 (a * b)

/-- Double-precision `a / b` for a non-zero `b`. -/
def div64 (a b : ℚ) : ℚ := binary64 (a / b)

namespace NonlinearPCMeval

/-- The local `x` of `Screening::fHS` in double precision:
`xInInv = 1./xIn; x = 1.-0.25*xInInv;` on the branch `xIn > 0.5`. -/
def Screening.remap_binary64 (xIn : ℚ) : ℚ :=
  if xIn > 0.5 then
    let xInInv := div64 1. xIn
    sub64 1. (mul64 0.25 xInInv)
  else xIn

end NonlinearPCMeval

namespace NonlinearPCMeval

/-! ## Neutrality constraint -/

section Neutrality

theorem disc_sq {Qplus Qminus : ℝ} (hp : 0 < Qplus) (hm : Qminus < 0) (Qexp : ℝ) :
    Screening.disc Real.sqrt Qplus Qminus Qexp * Screening.disc Real.sqrt Qplus Qminus Qexp
      = Qexp * Qexp - 4 * Qplus * Qminus := by
  unfold Screening.disc
  have h : 0 ≤ Qexp * Qexp - 4. * Qplus * Qminus := by
    norm_num
    nlinarith [mul_self_nonneg Qexp, mul_pos hp (neg_pos.mpr hm)]
  rw [Real.mul_self_sqrt h]
  norm_num

theorem disc_gt_abs {Qplus Qminus : ℝ} (hp : 0 < Qplus) (hm : Qminus < 0) (Qexp : ℝ) :
    |Qexp| < Screening.disc Real.sqrt Qplus Qminus Qexp := by
  have hsq := disc_sq hp hm Qexp
  have hnn : 0 ≤ Screening.disc Real.sqrt Qplus Qminus Qexp := Real.sqrt_nonneg _
  have hpm : 0 < Qplus * -Qminus := mul_pos hp (neg_pos.mpr hm)
  exact abs_lt.mpr (abs_lt_of_sq_lt_sq' (by nlinarith) hnn)

/-- Both branches of the nonlinear solve take the logarithm of the same positive
number `u`, the positive root of `Qplus u² + Qexp u + Qminus = 0`. -/
theorem branch_arguments {Qplus Qminus : ℝ} (hp : 0 < Qplus) (hm : Qminus < 0) (Qexp : ℝ) :
    let disc := Screening.disc Real.sqrt Qplus Qminus Qexp
    0 < (disc - Qexp) / (2 * Qplus) ∧
    -2 * Qminus / (disc + Qexp) = (disc - Qexp) / (2 * Qplus) ∧
    Qplus * ((disc - Qexp) / (2 * Qplus)) + Qminus / ((disc - Qexp) / (2 * Qplus)) = -Qexp := by
  intro disc
  have hsq : disc * disc = Qexp * Qexp - 4 * Qplus * Qminus := disc_sq hp hm Qexp
  have habs : |Qexp| < disc := disc_gt_abs hp hm Qexp
  have h1 : 0 < disc - Qexp := by linarith [(abs_lt.mp habs).2]
  have h2 : 0 < disc + Qexp := by linarith [(abs_lt.mp habs).1]
  refine ⟨div_pos h1 (by linarith), ?_, ?_⟩
  · rw [div_eq_div_iff h2.ne' (by positivity)]
    nlinarith
  · field_simp
    nlinarith

theorem mu0Nonlinear_mu0 {Qplus Qminus : ℝ} (hp : 0 < Qplus) (hm : Qminus < 0) (Qexp : ℝ) :
    (Screening.mu0Nonlinear Real.log Real.sqrt Qplus Qminus Qexp).mu0
      = Real.log ((Screening.disc Real.sqrt Qplus Qminus Qexp - Qexp) / (2 * Qplus)) := by
  obtain ⟨-, h2, -⟩ := branch_arguments hp hm Qexp
  unfold Screening.mu0Nonlinear
  by_cases hq : Qexp < 0
  · simp only [hq, if_true, Screening.mu0BranchNeg]
    norm_num
  · simp only [hq, if_false, Screening.mu0BranchPos]
    norm_num at h2 ⊢
    rw [h2]

theorem integral_mul_left {n : Nat} (w f : Fin n → ℝ) (c : ℝ) :
    integral w (fun i => c * f i) = c * integral w f := by
  unfold integral
  rw [Finset.mul_sum]
  exact Finset.sum_congr rfl (fun i _ => by ring)

theorem integral_add {n : Nat} (w f g : Fin n → ℝ) :
    integral w (fun i => f i + g i) = integral w f + integral w g := by
  unfold integral
  rw [← Finset.sum_add_distrib]
  exact Finset.sum_congr rfl (fun i _ => by ring)

theorem integral_pos {n : Nat} (w f : Fin n → ℝ) (hw : ∀ i, 0 < w i) (hf : ∀ i, 0 ≤ f i)
    (hne : ∃ i, f i ≠ 0) : 0 < integral w f := by
  unfold integral
  obtain ⟨j, hj⟩ := hne
  apply Finset.sum_pos'
  · intro i _
    exact mul_nonneg (hw i).le (hf i)
  · exact ⟨j, Finset.mem_univ j, mul_pos (hw j) (lt_of_le_of_ne (hf j) (Ne.symm hj))⟩

end Neutrality

/-- Total induced charge after a uniform shift `mu0` of both potentials, in terms
of the two exponential moments of the nonlinear branch. -/
theorem shifted_charge_nonlinear (p : Screening ℝ) {n : Nat}
    (w muPlus muMinus shape : Fin n → ℝ) (mu0 : ℝ) (hlin : p.linear = false) :
    integral w (fun i => shape i *
      (p.compute Real.exp (muPlus i + mu0) (muMinus i + mu0)).Rho)
      = (p.NZ * integral w (fun i => shape i * Real.exp (muPlus i))) * Real.exp mu0
        + (-p.NZ * integral w (fun i => shape i * Real.exp (-muMinus i))) / Real.exp mu0 := by
  have hfun : (fun i => shape i * (p.compute Real.exp (muPlus i + mu0) (muMinus i + mu0)).Rho)
      = fun i => (p.NZ * Real.exp mu0) * (shape i * Real.exp (muPlus i))
          + (-p.NZ / Real.exp mu0) * (shape i * Real.exp (-muMinus i)) := by
    funext i
    simp only [Screening.compute, hlin, Bool.false_eq_true, if_false, neg_add, Real.exp_add]
    rw [Real.exp_neg mu0]
    field_simp
    ring
  rw [hfun, integral_add, integral_mul_left, integral_mul_left]
  ring

/-- C1: in the nonlinear regime, for `NZ > 0`, positive integration weights and
a shape field with values in `[0,1]` that is not identically zero, the `mu0`
returned by `neutralityConstraint` makes the total induced charge computed by
`Screening::compute` at the shifted potentials equal to `-Qexp`. -/
theorem neutralityConstraint_nonlinear_neutral (p : Screening ℝ) {n : Nat}
    (w muPlus muMinus shape : Fin n → ℝ) (Qexp : ℝ)
    (hlin : p.linear = false) (hNZ : 0 < p.NZ) (hw : ∀ i, 0 < w i)
    (hshape : ∀ i, 0 ≤ shape i ∧ shape i ≤ 1) (hne : ∃ i, shape i ≠ 0) :
    integral w (fun i => shape i *
      (p.compute Real.exp
        (muPlus i + (p.neutralityConstraint Real.exp Real.log Real.sqrt w muPlus muMinus shape Qexp).mu0)
        (muMinus i + (p.neutralityConstraint Real.exp Real.log Real.sqrt w muPlus muMinus shape Qexp).mu0)).Rho)
      = -Qexp := by
  have hIp : 0 < integral w (fun i => shape i * Real.exp (muPlus i)) :=
    integral_pos w _ hw (fun i => mul_nonneg (hshape i).1 (Real.exp_pos _).le)
      (hne.imp fun i hi => mul_ne_zero hi (Real.exp_pos _).ne')
  have hIm : 0 < integral w (fun i => shape i * Real.exp (-muMinus i)) :=
    integral_pos w _ hw (fun i => mul_nonneg (hshape i).1 (Real.exp_pos _).le)
      (hne.imp fun i hi => mul_ne_zero hi (Real.exp_pos _).ne')
  have hQp : 0 < p.NZ * integral w (fun i => shape i * Real.exp (muPlus i)) := mul_pos hNZ hIp
  have hQm : -p.NZ * integral w (fun i => shape i * Real.exp (-muMinus i)) < 0 := by
    nlinarith [mul_pos hNZ hIm]
  obtain ⟨hu, -, hroot⟩ := branch_arguments hQp hQm Qexp
  have hmu0 : (p.neutralityConstraint Real.exp Real.log Real.sqrt w muPlus muMinus shape Qexp).mu0
      = Real.log ((Screening.disc Real.sqrt
          (p.NZ * integral w (fun i => shape i * Real.exp (muPlus i)))
          (-p.NZ * integral w (fun i => shape i * Real.exp (-muMinus i))) Qexp - Qexp) /
          (2 * (p.NZ * integral w (fun i => shape i * Real.exp (muPlus i))))) := by
    simp only [Screening.neutralityConstraint, hlin]
    exact mu0Nonlinear_mu0 hQp hQm Qexp
  rw [shifted_charge_nonlinear p w muPlus muMinus shape _ hlin, hmu0, Real.exp_log hu]
  exact hroot


/-- C1 at a one-point grid with unit weight, `shape = 1`, zero potentials and
`Qexp = 0`. -/
theorem neutralityConstraint_nonlinear_neutral_witness :
    integral (fun _ : Fin 1 => (1 : ℝ)) (fun i => (fun _ : Fin 1 => (1 : ℝ)) i *
      ((sampleScreening ℝ false).compute Real.exp
        ((fun _ : Fin 1 => (0 : ℝ)) i + ((sampleScreening ℝ false).neutralityConstraint
          Real.exp Real.log Real.sqrt (fun _ : Fin 1 => (1 : ℝ)) (fun _ => 0) (fun _ => 0)
          (fun _ => 1) 0).mu0)
        ((fun _ : Fin 1 => (0 : ℝ)) i + ((sampleScreening ℝ false).neutralityConstraint
          Real.exp Real.log Real.sqrt (fun _ : Fin 1 => (1 : ℝ)) (fun _ => 0) (fun _ => 0)
          (fun _ => 1) 0).mu0)).Rho)
      = -0 :=
  neutralityConstraint_nonlinear_neutral (sampleScreening ℝ false) (fun _ => 1) (fun _ => 0)
    (fun _ => 0) (fun _ => 1) 0 rfl (by norm_num [sampleScreening]) (fun _ => by norm_num)
    (fun _ => by norm_num) ⟨0, by norm_num⟩

/-- Total induced charge of the linear branch after a uniform shift `mu0`. -/
theorem shifted_charge_linear (p : Screening ℝ) {n : Nat}
    (w muPlus muMinus shape : Fin n → ℝ) (mu0 : ℝ) (hlin : p.linear = true) :
    integral w (fun i => shape i *
      (p.compute Real.exp (muPlus i + mu0) (muMinus i + mu0)).Rho)
      = p.NZ * integral w (fun i => shape i * (muPlus i + muMinus i))
        + mu0 * (p.NZ * 2 * integral w shape) := by
  have hfun : (fun i => shape i * (p.compute Real.exp (muPlus i + mu0) (muMinus i + mu0)).Rho)
      = fun i => p.NZ * (shape i * (muPlus i + muMinus i)) + (mu0 * (p.NZ * 2)) * shape i := by
    funext i
    simp only [Screening.compute, hlin, if_true]
    ring
  rw [hfun, integral_add, integral_mul_left, integral_mul_left]
  ring

/-- C2: in the linear regime, for `NZ ≠ 0` and a shape field with positive
integral (in particular for positive weights and shape values in `[0,1]`), the
returned `mu0 = -(Qexp+Qdiff)/Qsum` makes the total induced charge computed by
the linear branch of `Screening::compute` at the shifted potentials equal to
`-Qexp`. -/
theorem neutralityConstraint_linear_neutral (p : Screening ℝ) {n : Nat}
    (w muPlus muMinus shape : Fin n → ℝ) (Qexp : ℝ)
    (hlin : p.linear = true) (hNZ : p.NZ ≠ 0) (hint : 0 < integral w shape) :
    (p.neutralityConstraint Real.exp Real.log Real.sqrt w muPlus muMinus shape Qexp).mu0
      = -(Qexp + p.NZ * integral w (fun i => shape i * (muPlus i + muMinus i)))
          / (p.NZ * 2 * integral w shape) ∧
    integral w (fun i => shape i *
      (p.compute Real.exp
        (muPlus i + (p.neutralityConstraint Real.exp Real.log Real.sqrt w muPlus muMinus shape Qexp).mu0)
        (muMinus i + (p.neutralityConstraint Real.exp Real.log Real.sqrt w muPlus muMinus shape Qexp).mu0)).Rho)
      = -Qexp := by
  have hmu0 : (p.neutralityConstraint Real.exp Real.log Real.sqrt w muPlus muMinus shape Qexp).mu0
      = -(Qexp + p.NZ * integral w (fun i => shape i * (muPlus i + muMinus i)))
          / (p.NZ * 2 * integral w shape) := by
    norm_num [Screening.neutralityConstraint, hlin]
  refine ⟨hmu0, ?_⟩
  rw [shifted_charge_linear p w muPlus muMinus shape _ hlin, hmu0]
  have hQsum : p.NZ * 2 * integral w shape ≠ 0 :=
    mul_ne_zero (mul_ne_zero hNZ two_ne_zero) hint.ne'
  field_simp

/-- C2 at a one-point grid with unit weight, `shape = 1`, zero potentials and
`Qexp = 3`. -/
theorem neutralityConstraint_linear_neutral_witness :
    integral (fun _ : Fin 1 => (1 : ℝ)) (fun i => (fun _ : Fin 1 => (1 : ℝ)) i *
      ((sampleScreening ℝ true).compute Real.exp
        ((fun _ : Fin 1 => (0 : ℝ)) i + ((sampleScreening ℝ true).neutralityConstraint
          Real.exp Real.log Real.sqrt (fun _ : Fin 1 => (1 : ℝ)) (fun _ => 0) (fun _ => 0)
          (fun _ => 1) 3).mu0)
        ((fun _ : Fin 1 => (0 : ℝ)) i + ((sampleScreening ℝ true).neutralityConstraint
          Real.exp Real.log Real.sqrt (fun _ : Fin 1 => (1 : ℝ)) (fun _ => 0) (fun _ => 0)
          (fun _ => 1) 3).mu0)).Rho)
      = -3 :=
  (neutralityConstraint_linear_neutral (sampleScreening ℝ true) (fun _ => 1) (fun _ => 0)
    (fun _ => 0) (fun _ => 1) 3 rfl (by norm_num [sampleScreening]) (by norm_num [integral])).2

/-- C3: for `Qplus > 0`, `Qminus < 0` and any `Qexp`, the two branches of the
nonlinear neutrality solve take the logarithm of the same number and return the
same triple `(mu0, mu0_Qplus, mu0_Qminus)`; hence the value selected by the sign
of `Qexp` equals either branch. -/
theorem mu0_branches_agree (Qplus Qminus Qexp : ℝ) (hp : 0 < Qplus) (hm : Qminus < 0) :
    Real.log ((Screening.disc Real.sqrt Qplus Qminus Qexp - Qexp) / (2 * Qplus))
      = Real.log (-2 * Qminus / (Screening.disc Real.sqrt Qplus Qminus Qexp + Qexp)) ∧
    Screening.mu0BranchNeg Real.log Qplus Qminus Qexp (Screening.disc Real.sqrt Qplus Qminus Qexp)
      = Screening.mu0BranchPos Real.log Qplus Qminus Qexp
          (Screening.disc Real.sqrt Qplus Qminus Qexp) ∧
    Screening.mu0Nonlinear Real.log Real.sqrt Qplus Qminus Qexp
      = Screening.mu0BranchNeg Real.log Qplus Qminus Qexp
          (Screening.disc Real.sqrt Qplus Qminus Qexp) ∧
    Screening.mu0Nonlinear Real.log Real.sqrt Qplus Qminus Qexp
      = Screening.mu0BranchPos Real.log Qplus Qminus Qexp
          (Screening.disc Real.sqrt Qplus Qminus Qexp) := by
  obtain ⟨-, harg, -⟩ := branch_arguments hp hm Qexp
  have hsq := disc_sq hp hm Qexp
  have habs := disc_gt_abs hp hm Qexp
  have hd : 0 < Screening.disc Real.sqrt Qplus Qminus Qexp := lt_of_le_of_lt (abs_nonneg _) habs
  have h1 : 0 < Screening.disc Real.sqrt Qplus Qminus Qexp - Qexp := by
    linarith [(abs_lt.mp habs).2]
  have h2 : 0 < Screening.disc Real.sqrt Qplus Qminus Qexp + Qexp := by
    linarith [(abs_lt.mp habs).1]
  have hbr : Screening.mu0BranchNeg Real.log Qplus Qminus Qexp
        (Screening.disc Real.sqrt Qplus Qminus Qexp)
      = Screening.mu0BranchPos Real.log Qplus Qminus Qexp
        (Screening.disc Real.sqrt Qplus Qminus Qexp) := by
    generalize Screening.disc Real.sqrt Qplus Qminus Qexp = d at *
    have hp' : Qplus ≠ 0 := hp.ne'
    have hm' : Qminus ≠ 0 := hm.ne
    simp only [Screening.mu0BranchNeg, Screening.mu0BranchPos, Mu0Moments.mk.injEq]
    norm_num
    refine ⟨by rw [← harg]; ring_nf, ?_, ?_⟩
    · field_simp
      linear_combination (-(d * d)) * hsq
    · field_simp
      linear_combination (-(d * d)) * hsq
  refine ⟨by rw [harg], hbr, ?_, ?_⟩
  · unfold Screening.mu0Nonlinear
    by_cases hq : Qexp < 0
    · simp only [hq, if_true]
    · simp only [hq, if_false]
      exact hbr.symm
  · unfold Screening.mu0Nonlinear
    by_cases hq : Qexp < 0
    · simp only [hq, if_true]
      exact hbr
    · simp only [hq, if_false]

/-- C3 at `Qplus = 1`, `Qminus = -1`, `Qexp = 0`. -/
theorem mu0_branches_agree_witness :
    Screening.mu0BranchNeg Real.log 1 (-1) 0 (Screening.disc Real.sqrt 1 (-1) 0)
      = Screening.mu0BranchPos Real.log 1 (-1) 0 (Screening.disc Real.sqrt 1 (-1) 0) :=
  (mu0_branches_agree 1 (-1) 0 (by norm_num) (by norm_num)).2.1

end NonlinearPCMeval
namespace NonlinearPCMeval

/-! ## Hard sphere free energy `Screening::fHS` -/

section HardSphere

open Filter Topology

theorem lit_one : (1. : ℝ) = 1 := by norm_num
theorem lit_two : (2. : ℝ) = 2 := by norm_num
theorem lit_half : (0.5 : ℝ) = 1 / 2 := by norm_num
theorem lit_quarter : (0.25 : ℝ) = 1 / 4 := by norm_num

/-- Value and derivative output of `fHS` on the unmapped branch `xIn ≤ 0.5`. -/
theorem fHS_of_le (p : Screening ℝ) {xIn : ℝ} (h : xIn ≤ 1 / 2) :
    p.fHS xIn = (2 / p.x0 * ((xIn - p.x0) * (1 / (1 - xIn)) * (1 / (1 - p.x0)))
        * ((xIn - p.x0) * (1 / (1 - xIn)) * (1 / (1 - p.x0))),
      2 / p.x0 * 2 * ((xIn - p.x0) * (1 / (1 - xIn)) * (1 / (1 - p.x0)))
        * (1 / (1 - xIn) * (1 / (1 - xIn))) * 1) := by
  have hn : ¬ (xIn > 0.5) := by rw [lit_half]; exact not_lt.mpr h
  simp only [Screening.fHS, hn, if_false, lit_one, lit_two]

/-- Value and derivative output of `fHS` on the remapped branch `xIn > 0.5`. -/
theorem fHS_of_gt (p : Screening ℝ) {xIn : ℝ} (h : 1 / 2 < xIn) :
    p.fHS xIn = (2 / p.x0 * (((1 - 1 / 4 * (1 / xIn)) - p.x0) * (1 / (1 - (1 - 1 / 4 * (1 / xIn))))
          * (1 / (1 - p.x0)))
        * (((1 - 1 / 4 * (1 / xIn)) - p.x0) * (1 / (1 - (1 - 1 / 4 * (1 / xIn)))) * (1 / (1 - p.x0))),
      2 / p.x0 * 2 * (((1 - 1 / 4 * (1 / xIn)) - p.x0) * (1 / (1 - (1 - 1 / 4 * (1 / xIn))))
          * (1 / (1 - p.x0)))
        * (1 / (1 - (1 - 1 / 4 * (1 / xIn))) * (1 / (1 - (1 - 1 / 4 * (1 / xIn)))))
        * (1 / 4 * (1 / xIn) * (1 / xIn))) := by
  have hn : xIn > 0.5 := by rw [lit_half]; exact h
  simp only [Screening.fHS, hn, if_true, lit_one, lit_two, lit_quarter]

/-- Derivative of the rational closed form in the internal variable `x`. -/
theorem hasDerivAt_hardSphere (c a d0 x : ℝ) (hd : d0 * (1 - a) = 1) (hx : x ≠ 1) :
    HasDerivAt (fun t : ℝ => c * ((t - a) * (1 / (1 - t)) * d0) * ((t - a) * (1 / (1 - t)) * d0))
      (c * 2 * ((x - a) * (1 / (1 - x)) * d0) * (1 / (1 - x) * (1 / (1 - x)))) x := by
  have h1 : (1 : ℝ) - x ≠ 0 := sub_ne_zero.mpr (Ne.symm hx)
  have hden : HasDerivAt (fun t : ℝ => 1 / (1 - t)) (1 / (1 - x) ^ 2) x := by
    have := ((hasDerivAt_const x (1 : ℝ)).sub (hasDerivAt_id' x)).inv h1
    simp only [one_div]
    convert this using 1
    field_simp
  have hcomb : HasDerivAt (fun t : ℝ => (t - a) * (1 / (1 - t)) * d0)
      (1 / (1 - x) * (1 / (1 - x))) x := by
    have := (((hasDerivAt_id' x).sub_const a).mul hden).mul_const d0
    convert this using 1
    calc 1 / (1 - x) * (1 / (1 - x)) = (d0 * (1 - a)) * (1 / (1 - x) * (1 / (1 - x))) := by
          rw [hd, one_mul]
      _ = (1 * (1 / (1 - x)) + (x - a) * (1 / (1 - x) ^ 2)) * d0 := by
          field_simp
          ring
  have := (hcomb.const_mul c).mul hcomb
  convert this using 1
  ring

/-- Derivative of the remap `x = 1 - 0.25/xIn`. -/
theorem hasDerivAt_remap (xIn : ℝ) (h : xIn ≠ 0) :
    HasDerivAt (fun t : ℝ => 1 - 1 / 4 * (1 / t)) (1 / 4 * (1 / xIn) * (1 / xIn)) xIn := by
  have := ((hasDerivAt_id' xIn).inv h).const_mul (1 / 4 : ℝ) |>.const_sub 1
  simp only [one_div]
  convert this using 1
  field_simp
  ring

/-- The remapped internal variable stays away from the pole `x = 1`. -/
theorem remap_ne_one {xIn : ℝ} (h : xIn ≠ 0) : 1 - 1 / 4 * (1 / xIn) ≠ 1 := by
  intro hc
  have : 1 / 4 * (1 / xIn) = 0 := by linarith
  have h4 : (1 / 4 : ℝ) * (1 / xIn) ≠ 0 := by positivity
  exact h4 this

/-- Derivative of the remapped branch as a function of `xIn` (chain rule). -/
theorem hasDerivAt_hardSphere_remap (c a d0 xIn : ℝ) (hd : d0 * (1 - a) = 1) (h : xIn ≠ 0) :
    HasDerivAt (fun t : ℝ => c * (((1 - 1 / 4 * (1 / t)) - a) * (1 / (1 - (1 - 1 / 4 * (1 / t)))) * d0)
        * (((1 - 1 / 4 * (1 / t)) - a) * (1 / (1 - (1 - 1 / 4 * (1 / t)))) * d0))
      (c * 2 * (((1 - 1 / 4 * (1 / xIn)) - a) * (1 / (1 - (1 - 1 / 4 * (1 / xIn)))) * d0)
        * (1 / (1 - (1 - 1 / 4 * (1 / xIn))) * (1 / (1 - (1 - 1 / 4 * (1 / xIn)))))
        * (1 / 4 * (1 / xIn) * (1 / xIn))) xIn :=
  HasDerivAt.comp xIn (hasDerivAt_hardSphere c a d0 _ hd (remap_ne_one h)) (hasDerivAt_remap xIn h)

/-- The two branches of `fHS` give the same value and the same derivative output
at the boundary `xIn = 0.5`. -/
theorem branches_match_at_half (c a d0 : ℝ) :
    c * (((1 - 1 / 4 * (1 / (1 / 2 : ℝ))) - a) * (1 / (1 - (1 - 1 / 4 * (1 / (1 / 2 : ℝ))))) * d0)
        * (((1 - 1 / 4 * (1 / (1 / 2 : ℝ))) - a) * (1 / (1 - (1 - 1 / 4 * (1 / (1 / 2 : ℝ))))) * d0)
      = c * (((1 / 2 : ℝ) - a) * (1 / (1 - 1 / 2)) * d0) * (((1 / 2 : ℝ) - a) * (1 / (1 - 1 / 2)) * d0) ∧
    c * 2 * (((1 - 1 / 4 * (1 / (1 / 2 : ℝ))) - a) * (1 / (1 - (1 - 1 / 4 * (1 / (1 / 2 : ℝ))))) * d0)
        * (1 / (1 - (1 - 1 / 4 * (1 / (1 / 2 : ℝ)))) * (1 / (1 - (1 - 1 / 4 * (1 / (1 / 2 : ℝ))))))
        * (1 / 4 * (1 / (1 / 2 : ℝ)) * (1 / (1 / 2 : ℝ)))
      = c * 2 * (((1 / 2 : ℝ) - a) * (1 / (1 - 1 / 2)) * d0)
        * (1 / (1 - 1 / 2) * (1 / (1 - 1 / 2))) * 1 := by
  constructor <;> norm_num

/-- The derivative output `f_xIn` of `fHS` is the derivative of its value, at
every `xIn`, as soon as `x0 ≠ 1`. -/
theorem fHS_hasDerivAt (p : Screening ℝ) (hx0 : p.x0 ≠ 1) (xIn : ℝ) :
    HasDerivAt (fun t => (p.fHS t).1) (p.fHS xIn).2 xIn := by
  have hd : 1 / (1 - p.x0) * (1 - p.x0) = 1 :=
    div_mul_cancel₀ 1 (sub_ne_zero.mpr (Ne.symm hx0))
  rcases lt_trichotomy xIn (1 / 2) with hlt | heq | hgt
  · rw [fHS_of_le p hlt.le]
    simp only [mul_one]
    refine (hasDerivAt_hardSphere (2 / p.x0) p.x0 _ xIn hd (by linarith)).congr_of_eventuallyEq ?_
    filter_upwards [Iio_mem_nhds hlt] with t ht
    rw [fHS_of_le p (le_of_lt ht)]
  · subst heq
    rw [← hasDerivWithinAt_univ, ← Set.Iic_union_Ici (a := (1 / 2 : ℝ))]
    apply HasDerivWithinAt.union
    · rw [fHS_of_le p le_rfl]
      simp only [mul_one]
      refine ((hasDerivAt_hardSphere (2 / p.x0) p.x0 _ (1 / 2) hd
        (by norm_num)).hasDerivWithinAt).congr ?_ ?_
      · intro t ht
        rw [fHS_of_le p ht]
      · rw [fHS_of_le p le_rfl]
    · rw [fHS_of_le p le_rfl, ← (branches_match_at_half (2 / p.x0) p.x0 (1 / (1 - p.x0))).2]
      refine ((hasDerivAt_hardSphere_remap (2 / p.x0) p.x0 _ (1 / 2) hd
        (by norm_num)).hasDerivWithinAt).congr ?_ ?_
      · intro t ht
        rcases eq_or_lt_of_le (Set.mem_Ici.mp ht) with he | hl
        · rw [← he, fHS_of_le p le_rfl]
          exact ((branches_match_at_half (2 / p.x0) p.x0 (1 / (1 - p.x0))).1).symm
        · rw [fHS_of_gt p hl]
      · rw [fHS_of_le p le_rfl]
        exact ((branches_match_at_half (2 / p.x0) p.x0 (1 / (1 - p.x0))).1).symm
  · rw [fHS_of_gt p hgt]
    refine (hasDerivAt_hardSphere_remap (2 / p.x0) p.x0 _ xIn hd
      (by linarith)).congr_of_eventuallyEq ?_
    filter_upwards [Ioi_mem_nhds hgt] with t ht
    rw [fHS_of_gt p ht]

/-- On the remapped branch both outputs of `fHS` are polynomials in `xIn`. -/
theorem fHS_of_gt_poly (p : Screening ℝ) {xIn : ℝ} (h : 1 / 2 < xIn) :
    p.fHS xIn = (2 / p.x0 * ((4 * xIn * (1 - p.x0) - 1) * (1 / (1 - p.x0))) ^ 2,
      2 / p.x0 * 8 * (1 / (1 - p.x0)) * (4 * xIn * (1 - p.x0) - 1)) := by
  have hx : xIn ≠ 0 := by linarith
  rw [fHS_of_gt p h]
  generalize 2 / p.x0 = c
  generalize 1 / (1 - p.x0) = d0
  rw [Prod.mk.injEq]
  constructor
  · field_simp
    ring
  · field_simp
    ring

/-- The code shape of the unmapped value is the closed form of the specification. -/
theorem hardSphereClosedForm_eq (x0 x : ℝ) :
    hardSphereClosedForm x0 x
      = 2 / x0 * ((x - x0) * (1 / (1 - x)) * (1 / (1 - x0)))
          * ((x - x0) * (1 / (1 - x)) * (1 / (1 - x0))) := by
  unfold hardSphereClosedForm
  rw [div_eq_mul_inv (x - x0), mul_inv]
  ring

end HardSphere

section RemapBoundary

open Filter Topology

/-- C4: the value of `fHS` and its derivative output `f_xIn` are continuous
across the remap boundary: as `xIn → 0.5` from above (remapped branch) both tend
to the outputs at `xIn = 0.5` (unmapped branch), and likewise from below. -/
theorem fHS_continuous_across_remap (p : Screening ℝ) :
    Tendsto (fun t => (p.fHS t).1) (𝓝[>] (1 / 2)) (𝓝 (p.fHS (1 / 2)).1) ∧
    Tendsto (fun t => (p.fHS t).2) (𝓝[>] (1 / 2)) (𝓝 (p.fHS (1 / 2)).2) ∧
    Tendsto (fun t => (p.fHS t).1) (𝓝[<] (1 / 2)) (𝓝 (p.fHS (1 / 2)).1) ∧
    Tendsto (fun t => (p.fHS t).2) (𝓝[<] (1 / 2)) (𝓝 (p.fHS (1 / 2)).2) := by
  have hhalf := fHS_of_le p (le_refl (1 / 2 : ℝ))
  refine ⟨?_, ?_, ?_, ?_⟩
  · have hc : ContinuousAt (fun t : ℝ =>
        2 / p.x0 * ((4 * t * (1 - p.x0) - 1) * (1 / (1 - p.x0))) ^ 2) (1 / 2) := by
      fun_prop
    have ht := (hc.tendsto).mono_left (nhdsWithin_le_nhds (s := Set.Ioi (1 / 2 : ℝ)))
    have hv : 2 / p.x0 * ((4 * (1 / 2 : ℝ) * (1 - p.x0) - 1) * (1 / (1 - p.x0))) ^ 2
        = (p.fHS (1 / 2)).1 := by
      rw [hhalf]
      norm_num
      ring
    rw [← hv]
    refine ht.congr' ?_
    filter_upwards [self_mem_nhdsWithin] with t ht
    rw [fHS_of_gt_poly p ht]
  · have hc : ContinuousAt (fun t : ℝ =>
        2 / p.x0 * 8 * (1 / (1 - p.x0)) * (4 * t * (1 - p.x0) - 1)) (1 / 2) := by
      fun_prop
    have ht := (hc.tendsto).mono_left (nhdsWithin_le_nhds (s := Set.Ioi (1 / 2 : ℝ)))
    have hv : 2 / p.x0 * 8 * (1 / (1 - p.x0)) * (4 * (1 / 2 : ℝ) * (1 - p.x0) - 1)
        = (p.fHS (1 / 2)).2 := by
      rw [hhalf]
      norm_num
      ring
    rw [← hv]
    refine ht.congr' ?_
    filter_upwards [self_mem_nhdsWithin] with t ht
    rw [fHS_of_gt_poly p ht]
  · have hc : ContinuousAt (fun t : ℝ =>
        2 / p.x0 * ((t - p.x0) * (1 / (1 - t)) * (1 / (1 - p.x0)))
          * ((t - p.x0) * (1 / (1 - t)) * (1 / (1 - p.x0)))) (1 / 2) := by
      have h1 : ContinuousAt (fun t : ℝ => 1 / (1 - t)) (1 / 2) :=
        ContinuousAt.div continuousAt_const (by fun_prop) (by norm_num)
      fun_prop
    have ht := (hc.tendsto).mono_left (nhdsWithin_le_nhds (s := Set.Iio (1 / 2 : ℝ)))
    rw [hhalf]
    refine ht.congr' ?_
    filter_upwards [self_mem_nhdsWithin] with t ht
    rw [fHS_of_le p (le_of_lt ht)]
  · have hc : ContinuousAt (fun t : ℝ =>
        2 / p.x0 * 2 * ((t - p.x0) * (1 / (1 - t)) * (1 / (1 - p.x0)))
          * (1 / (1 - t) * (1 / (1 - t))) * 1) (1 / 2) := by
      have h1 : ContinuousAt (fun t : ℝ => 1 / (1 - t)) (1 / 2) :=
        ContinuousAt.div continuousAt_const (by fun_prop) (by norm_num)
      fun_prop
    have ht := (hc.tendsto).mono_left (nhdsWithin_le_nhds (s := Set.Iio (1 / 2 : ℝ)))
    rw [hhalf]
    refine ht.congr' ?_
    filter_upwards [self_mem_nhdsWithin] with t ht
    rw [fHS_of_le p (le_of_lt ht)]

end RemapBoundary

/-- C5: for `x0` in `(0,1)` and every `xIn`, the output `f_xIn` of `fHS` is the
derivative in `xIn` of the returned value; for `xIn ≤ 0.5` it is the derivative
of the closed form `(2/x0) ((x-x0)/((1-x)(1-x0)))²` at `x = xIn`, and for
`xIn > 0.5` it is the derivative of that closed form at `x = 1 - 1/(4 xIn)`
times the remap derivative `1/(4 xIn²)`. -/
theorem fHS_derivative_output (p : Screening ℝ) (_h0 : 0 < p.x0) (h1 : p.x0 < 1) (xIn : ℝ) :
    HasDerivAt (fun t => (p.fHS t).1) (p.fHS xIn).2 xIn ∧
    (xIn ≤ 1 / 2 → (p.fHS xIn).1 = hardSphereClosedForm p.x0 xIn ∧
      HasDerivAt (hardSphereClosedForm p.x0) (p.fHS xIn).2 xIn) ∧
    (1 / 2 < xIn → (p.fHS xIn).1 = hardSphereClosedForm p.x0 (1 - 1 / (4 * xIn)) ∧
      ∃ g, HasDerivAt (hardSphereClosedForm p.x0) g (1 - 1 / (4 * xIn)) ∧
        (p.fHS xIn).2 = g * (1 / (4 * xIn ^ 2))) := by
  have hx0 : p.x0 ≠ 1 := h1.ne
  have hd : 1 / (1 - p.x0) * (1 - p.x0) = 1 :=
    div_mul_cancel₀ 1 (sub_ne_zero.mpr (Ne.symm hx0))
  have hfun : hardSphereClosedForm p.x0 = fun t : ℝ =>
      2 / p.x0 * ((t - p.x0) * (1 / (1 - t)) * (1 / (1 - p.x0)))
        * ((t - p.x0) * (1 / (1 - t)) * (1 / (1 - p.x0))) :=
    funext (hardSphereClosedForm_eq p.x0)
  refine ⟨fHS_hasDerivAt p hx0 xIn, ?_, ?_⟩
  · intro hle
    rw [fHS_of_le p hle, hfun]
    simp only [mul_one]
    exact ⟨trivial, hasDerivAt_hardSphere (2 / p.x0) p.x0 _ xIn hd (by linarith)⟩
  · intro hgt
    have hx : xIn ≠ 0 := by linarith
    have he : (1 : ℝ) - 1 / (4 * xIn) = 1 - 1 / 4 * (1 / xIn) := by
      field_simp
    rw [fHS_of_gt p hgt, hfun, he]
    refine ⟨rfl, _, hasDerivAt_hardSphere (2 / p.x0) p.x0 _ _ hd (remap_ne_one hx), ?_⟩
    field_simp
    ring

/-- C5 at `x0 = 1/4` and `xIn = 1`. -/
theorem fHS_derivative_output_witness :
    HasDerivAt (fun t => ((sampleScreening ℝ false).fHS t).1)
      ((sampleScreening ℝ false).fHS 1).2 1 :=
  (fHS_derivative_output (sampleScreening ℝ false) (by norm_num [sampleScreening])
    (by norm_num [sampleScreening]) 1).1

end NonlinearPCMeval

namespace NonlinearPCMeval

/-! ## The local kernel `Screening::compute` -/

/-- C6: in the linear regime `compute` returns the quadratic free energy
`NT (muPlus² + muMinus²)/2` and the linear charge `NZ (muPlus + muMinus)`, and
for every step `h ≠ 0` the central finite differences of `F` and `Rho` in each
argument equal the reported derivatives exactly; `Rho_muPlus = Rho_muMinus = NZ`. -/
theorem compute_linear_central_difference (p : Screening ℝ) (muPlus muMinus h : ℝ)
    (hlin : p.linear = true) (hh : h ≠ 0) :
    (p.compute Real.exp muPlus muMinus).F
      = p.NT * (muPlus ^ 2 + muMinus ^ 2) / 2 ∧
    (p.compute Real.exp muPlus muMinus).Rho = p.NZ * (muPlus + muMinus) ∧
    ((p.compute Real.exp (muPlus + h) muMinus).F - (p.compute Real.exp (muPlus - h) muMinus).F)
      / (2 * h) = (p.compute Real.exp muPlus muMinus).F_muPlus ∧
    ((p.compute Real.exp muPlus (muMinus + h)).F - (p.compute Real.exp muPlus (muMinus - h)).F)
      / (2 * h) = (p.compute Real.exp muPlus muMinus).F_muMinus ∧
    ((p.compute Real.exp (muPlus + h) muMinus).Rho
        - (p.compute Real.exp (muPlus - h) muMinus).Rho)
      / (2 * h) = (p.compute Real.exp muPlus muMinus).Rho_muPlus ∧
    ((p.compute Real.exp muPlus (muMinus + h)).Rho
        - (p.compute Real.exp muPlus (muMinus - h)).Rho)
      / (2 * h) = (p.compute Real.exp muPlus muMinus).Rho_muMinus ∧
    (p.compute Real.exp muPlus muMinus).Rho_muPlus = p.NZ ∧
    (p.compute Real.exp muPlus muMinus).Rho_muMinus = p.NZ := by
  simp only [Screening.compute, hlin, if_true]
  refine ⟨?_, trivial, ?_, ?_, ?_, ?_, trivial, trivial⟩
  · norm_num
    ring
  all_goals
    field_simp
    ring

/-- C6 at `muPlus = 1`, `muMinus = 2` with step `h = 1/2`. -/
theorem compute_linear_central_difference_witness :
    (((sampleScreening ℝ true).compute Real.exp (1 + 1 / 2) 2).F
        - ((sampleScreening ℝ true).compute Real.exp (1 - 1 / 2) 2).F) / (2 * (1 / 2))
      = ((sampleScreening ℝ true).compute Real.exp 1 2).F_muPlus :=
  (compute_linear_central_difference (sampleScreening ℝ true) 1 2 (1 / 2) rfl
    (by norm_num)).2.2.1

end NonlinearPCMeval
namespace NonlinearPCMeval

/-- C7: in the nonlinear regime, for `x0` in `(0,1)` and `x0plus, x0minus > 0`,
the value outputs of `compute` are
`F = NT (2 + e^{muPlus}(muPlus-1) + e^{-muMinus}(-muMinus-1) + fHS(x0plus e^{muPlus} + x0minus e^{-muMinus}))`
and `Rho = NZ (e^{muPlus} - e^{-muMinus})`, and the four derivative outputs are
the partial derivatives of `F` and `Rho` in `muPlus` and `muMinus`. -/
theorem compute_nonlinear_derivatives (p : Screening ℝ) (muPlus muMinus : ℝ)
    (hlin : p.linear = false) (_h0 : 0 < p.x0) (h1 : p.x0 < 1)
    (_hplus : 0 < p.x0plus) (_hminus : 0 < p.x0minus) :
    (p.compute Real.exp muPlus muMinus).F
      = p.NT * (2 + Real.exp muPlus * (muPlus - 1) + Real.exp (-muMinus) * (-muMinus - 1)
          + (p.fHS (p.x0plus * Real.exp muPlus + p.x0minus * Real.exp (-muMinus))).1) ∧
    (p.compute Real.exp muPlus muMinus).Rho
      = p.NZ * (Real.exp muPlus - Real.exp (-muMinus)) ∧
    HasDerivAt (fun a => (p.compute Real.exp a muMinus).F)
      (p.compute Real.exp muPlus muMinus).F_muPlus muPlus ∧
    HasDerivAt (fun b => (p.compute Real.exp muPlus b).F)
      (p.compute Real.exp muPlus muMinus).F_muMinus muMinus ∧
    HasDerivAt (fun a => (p.compute Real.exp a muMinus).Rho)
      (p.compute Real.exp muPlus muMinus).Rho_muPlus muPlus ∧
    HasDerivAt (fun b => (p.compute Real.exp muPlus b).Rho)
      (p.compute Real.exp muPlus muMinus).Rho_muMinus muMinus := by
  have hx0 : p.x0 ≠ 1 := h1.ne
  have hexpm : HasDerivAt (fun b : ℝ => Real.exp (-b)) (-Real.exp (-muMinus)) muMinus := by
    have := (Real.hasDerivAt_exp (-muMinus)).comp muMinus (hasDerivAt_neg muMinus)
    simpa using this
  have hxp : HasDerivAt (fun a : ℝ => p.x0plus * Real.exp a + p.x0minus * Real.exp (-muMinus))
      (p.x0plus * Real.exp muPlus) muPlus :=
    ((Real.hasDerivAt_exp muPlus).const_mul p.x0plus).add_const _
  have hxm : HasDerivAt (fun b : ℝ => p.x0plus * Real.exp muPlus + p.x0minus * Real.exp (-b))
      (p.x0minus * -Real.exp (-muMinus)) muMinus :=
    (hexpm.const_mul p.x0minus).const_add _
  have hfp := HasDerivAt.comp muPlus (fHS_hasDerivAt p hx0 _) hxp
  have hfm := HasDerivAt.comp muMinus (fHS_hasDerivAt p hx0 _) hxm
  simp only [Screening.compute, hlin, Bool.false_eq_true, if_false, lit_one, lit_two]
  refine ⟨trivial, trivial, ?_, ?_, ?_, ?_⟩
  · have := ((((hasDerivAt_const muPlus (2 : ℝ)).add
      ((Real.hasDerivAt_exp muPlus).mul ((hasDerivAt_id' muPlus).sub_const 1))).add_const
      (Real.exp (-muMinus) * (-muMinus - 1))).add hfp).const_mul p.NT
    convert this using 1
    ring
  · have := ((((hasDerivAt_const muMinus (2 + Real.exp muPlus * (muPlus - 1))).add
      (hexpm.mul ((hasDerivAt_neg muMinus).sub_const 1)))).add hfm).const_mul p.NT
    convert this using 1
    ring
  · have := ((Real.hasDerivAt_exp muPlus).sub_const (Real.exp (-muMinus))).const_mul p.NZ
    exact this
  · have := (hexpm.const_sub (Real.exp muPlus)).const_mul p.NZ
    convert this using 1
    ring

/-- C7 at `muPlus = 0`, `muMinus = 0` for the sample parameters. -/
theorem compute_nonlinear_derivatives_witness :
    HasDerivAt (fun a => ((sampleScreening ℝ false).compute Real.exp a 0).F)
      ((sampleScreening ℝ false).compute Real.exp 0 0).F_muPlus 0 :=
  (compute_nonlinear_derivatives (sampleScreening ℝ false) 0 0 rfl
    (by norm_num [sampleScreening]) (by norm_num [sampleScreening])
    (by norm_num [sampleScreening]) (by norm_num [sampleScreening])).2.2.1

end NonlinearPCMeval

/-! ## The loops of the monotone inversions -/

section Loops

theorem scaleWhile_stop (cond : ℝ → Bool) (c : ℝ) (n : Nat) (x : ℝ) (h : cond x = false) :
    scaleWhile cond c (n + 1) x = some x := by
  unfold scaleWhile
  simp [h]

theorem scaleWhile_step (cond : ℝ → Bool) (c : ℝ) (n : Nat) (x : ℝ) (h : cond x = true) :
    scaleWhile cond c (n + 1) x = scaleWhile cond c n (x * c) := by
  conv_lhs => unfold scaleWhile
  simp [h]

theorem bisectWhile_stop (below : ℝ → Bool) (tol : ℝ) (n : Nat) (lo hi x : ℝ)
    (h : hi - lo ≤ tol) : bisectWhile below tol (n + 1) lo hi x = some (lo, hi, x) := by
  unfold bisectWhile
  rw [if_neg (not_lt.mpr h)]

theorem scaleWhile_some (cond : ℝ → Bool) (c : ℝ) :
    ∀ (fuel : Nat) (x y : ℝ), scaleWhile cond c fuel x = some y →
      ∃ k, k < fuel ∧ y = x * c ^ k ∧ cond y = false ∧ ∀ j, j < k → cond (x * c ^ j) = true := by
  intro fuel
  induction fuel with
  | zero => intro x y h; simp [scaleWhile] at h
  | succ n ih =>
    intro x y h
    unfold scaleWhile at h
    by_cases hc : cond x = true
    · rw [if_pos hc] at h
      obtain ⟨k, hk, hy, hcy, hall⟩ := ih _ _ h
      refine ⟨k + 1, by omega, by rw [hy, pow_succ]; ring, hcy, ?_⟩
      intro j hj
      cases j with
      | zero => simpa using hc
      | succ i =>
        have := hall i (by omega)
        rw [pow_succ]
        rw [show x * (c ^ i * c) = x * c * c ^ i by ring]
        exact this
    · rw [if_neg hc] at h
      have hxy : x = y := Option.some.inj h
      subst hxy
      exact ⟨0, by omega, by simp, by simpa using hc, fun j hj => absurd hj (by omega)⟩

theorem scaleWhile_terminates (cond : ℝ → Bool) (c : ℝ) :
    ∀ (k fuel : Nat) (x : ℝ), cond (x * c ^ k) = false → k < fuel →
      ∃ y, scaleWhile cond c fuel x = some y := by
  intro k
  induction k with
  | zero =>
    intro fuel x h hk
    obtain ⟨n, rfl⟩ : ∃ n, fuel = n + 1 := ⟨fuel - 1, by omega⟩
    simp only [pow_zero, mul_one] at h
    exact ⟨x, by simp [scaleWhile, h]⟩
  | succ k ih =>
    intro fuel x h hk
    obtain ⟨n, rfl⟩ : ∃ n, fuel = n + 1 := ⟨fuel - 1, by omega⟩
    unfold scaleWhile
    by_cases hc : cond x = true
    · rw [if_pos hc]
      apply ih n (x * c) _ (by omega)
      rw [← h, pow_succ]
      congr 1
      ring
    · rw [if_neg hc]
      exact ⟨x, rfl⟩

/-- Invariants of the bisection loop: the final bracket lies inside the initial
one, its width is at most `tol`, the third component is its midpoint, and each
end is either the initial one or a point at which the test went the right way. -/
theorem bisectWhile_some (below : ℝ → Bool) (tol : ℝ) :
    ∀ (fuel : Nat) (lo hi x : ℝ) (s : ℝ × ℝ × ℝ), lo ≤ hi → x = 0.5 * (hi + lo) →
      bisectWhile below tol fuel lo hi x = some s →
      lo ≤ s.1 ∧ s.1 ≤ s.2.1 ∧ s.2.1 ≤ hi ∧ s.2.2 = 0.5 * (s.2.1 + s.1) ∧ s.2.1 - s.1 ≤ tol ∧
        (s.1 = lo ∨ below s.1 = true) ∧ (s.2.1 = hi ∨ below s.2.1 = false) := by
  intro fuel
  induction fuel with
  | zero => intro lo hi x s _ _ h; simp [bisectWhile] at h
  | succ n ih =>
    intro lo hi x s hle hx h
    have hxlo : lo ≤ x := by rw [hx]; norm_num; linarith
    have hxhi : x ≤ hi := by rw [hx]; norm_num; linarith
    unfold bisectWhile at h
    by_cases hw : hi - lo > tol
    · rw [if_pos hw] at h
      by_cases hb : below x = true
      · rw [if_pos hb] at h
        obtain ⟨h1, h2, h3, h4, h5, h6, h7⟩ := ih x hi _ s hxhi rfl h
        refine ⟨hxlo.trans h1, h2, h3, h4, h5, ?_, h7⟩
        rcases h6 with h6 | h6
        · right; rw [h6]; exact hb
        · right; exact h6
      · rw [if_neg hb] at h
        obtain ⟨h1, h2, h3, h4, h5, h6, h7⟩ := ih lo x _ s hxlo rfl h
        refine ⟨h1, h2, h3.trans hxhi, h4, h5, h6, ?_⟩
        rcases h7 with h7 | h7
        · right; rw [h7]; simpa using hb
        · right; exact h7
    · rw [if_neg hw] at h
      have hs := Option.some.inj h
      subst hs
      exact ⟨le_rfl, hle, le_rfl, hx, not_lt.mp hw, Or.inl rfl, Or.inl rfl⟩

theorem bisectWhile_terminates (below : ℝ → Bool) (tol : ℝ) :
    ∀ (n fuel : Nat) (lo hi x : ℝ), x = 0.5 * (hi + lo) → hi - lo ≤ tol * 2 ^ n → n < fuel →
      ∃ s, bisectWhile below tol fuel lo hi x = some s := by
  intro n
  induction n with
  | zero =>
    intro fuel lo hi x _ hw hk
    obtain ⟨m, rfl⟩ : ∃ m, fuel = m + 1 := ⟨fuel - 1, by omega⟩
    simp only [pow_zero, mul_one] at hw
    unfold bisectWhile
    rw [if_neg (not_lt.mpr hw)]
    exact ⟨_, rfl⟩
  | succ n ih =>
    intro fuel lo hi x hx hw hk
    obtain ⟨m, rfl⟩ : ∃ m, fuel = m + 1 := ⟨fuel - 1, by omega⟩
    unfold bisectWhile
    by_cases hgt : hi - lo > tol
    · rw [if_pos hgt]
      rw [pow_succ] at hw
      by_cases hb : below x = true
      · rw [if_pos hb]
        apply ih m x hi _ rfl _ (by omega)
        rw [hx]; norm_num; linarith
      · rw [if_neg hb]
        apply ih m lo x _ rfl _ (by omega)
        rw [hx]; norm_num; linarith
    · rw [if_neg hgt]
      exact ⟨_, rfl⟩

theorem scaleWhile_mono (cond : ℝ → Bool) (c : ℝ) :
    ∀ (fuel fuel2 : Nat) (x y : ℝ), scaleWhile cond c fuel x = some y → fuel ≤ fuel2 →
      scaleWhile cond c fuel2 x = some y := by
  intro fuel
  induction fuel with
  | zero => intro _ x y h; simp [scaleWhile] at h
  | succ n ih =>
    intro fuel2 x y h hle
    obtain ⟨m, rfl⟩ : ∃ m, fuel2 = m + 1 := ⟨fuel2 - 1, by omega⟩
    unfold scaleWhile at h ⊢
    by_cases hc : cond x = true
    · rw [if_pos hc] at h ⊢
      exact ih m _ _ h (by omega)
    · rw [if_neg hc] at h ⊢
      exact h

theorem bisectWhile_mono (below : ℝ → Bool) (tol : ℝ) :
    ∀ (fuel fuel2 : Nat) (lo hi x : ℝ) (s : ℝ × ℝ × ℝ),
      bisectWhile below tol fuel lo hi x = some s → fuel ≤ fuel2 →
      bisectWhile below tol fuel2 lo hi x = some s := by
  intro fuel
  induction fuel with
  | zero => intro _ lo hi x s h; simp [bisectWhile] at h
  | succ n ih =>
    intro fuel2 lo hi x s h hle
    obtain ⟨m, rfl⟩ : ∃ m, fuel2 = m + 1 := ⟨fuel2 - 1, by omega⟩
    unfold bisectWhile at h ⊢
    by_cases hw : hi - lo > tol
    · rw [if_pos hw] at h ⊢
      by_cases hb : below x = true
      · rw [if_pos hb] at h ⊢
        exact ih m _ _ _ s h (by omega)
      · rw [if_neg hb] at h ⊢
        exact ih m _ _ _ s h (by omega)
    · rw [if_neg hw] at h ⊢
      exact h

/-- With a relative tolerance of `1e-13` of the first midpoint, 46 iterations of
the bisection loop always suffice on a bracket of non-negative numbers. -/
theorem bisectWhile_terminates_rel (below : ℝ → Bool) (lo hi : ℝ) (hlo : 0 ≤ lo) (hle : lo ≤ hi)
    (fuel : Nat) (hfuel : 46 ≤ fuel) :
    ∃ s, bisectWhile below (0.5 * (hi + lo) * 1e-13) fuel lo hi (0.5 * (hi + lo)) = some s := by
  apply bisectWhile_terminates below _ 45 fuel lo hi _ rfl _ (by omega)
  norm_num
  linarith

/-- When the test succeeds at every point between the first midpoint and `hi`,
the bisection only ever moves `lo`, and the number of iterations is fixed by the
widths. -/
theorem bisectWhile_all_right (below : ℝ → Bool) (tol hi : ℝ) :
    ∀ (n fuel : Nat) (lo : ℝ), lo < hi →
      (∀ y, 0.5 * (hi + lo) ≤ y → y < hi → below y = true) →
      (hi - lo) / 2 ^ n ≤ tol → (∀ j, j < n → tol < (hi - lo) / 2 ^ j) → n < fuel →
      bisectWhile below tol fuel lo hi (0.5 * (hi + lo))
        = some (hi - (hi - lo) / 2 ^ n, hi, hi - (hi - lo) / 2 ^ (n + 1)) := by
  intro n
  induction n with
  | zero =>
    intro fuel lo _ _ hw _ hk
    obtain ⟨m, rfl⟩ : ∃ m, fuel = m + 1 := ⟨fuel - 1, by omega⟩
    simp only [pow_zero, div_one] at hw
    unfold bisectWhile
    rw [if_neg (not_lt.mpr hw)]
    norm_num
    ring
  | succ n ih =>
    intro fuel lo hlt hbelow hw hall hk
    obtain ⟨m, rfl⟩ : ∃ m, fuel = m + 1 := ⟨fuel - 1, by omega⟩
    have h0 := hall 0 (by omega)
    simp only [pow_zero, div_one] at h0
    have hmid : 0.5 * (hi + lo) < hi := by norm_num; linarith
    unfold bisectWhile
    rw [if_pos h0, if_pos (hbelow _ le_rfl hmid)]
    have hwidth : hi - 0.5 * (hi + lo) = (hi - lo) / 2 := by norm_num; ring
    rw [ih m (0.5 * (hi + lo)) hmid ?_ ?_ ?_ (by omega)]
    · rw [hwidth]
      simp only [pow_succ]
      congr 2
      · field_simp
        ring
      · congr 1
        field_simp
        ring
    · intro y hy hyhi
      apply hbelow y _ hyhi
      have : 0.5 * (hi + lo) ≤ 0.5 * (hi + 0.5 * (hi + lo)) := by norm_num; linarith
      exact this.trans hy
    · rw [hwidth, div_div, ← pow_succ']
      exact hw
    · intro j hj
      rw [hwidth, div_div, ← pow_succ']
      exact hall (j + 1) (by omega)

end Loops

namespace NonlinearPCMeval

/-! ## The inversion `Screening::x_from_V` -/

section XFromV

theorem lit_zero : (0. : ℝ) = 0 := by norm_num

/-- The constant part of the root function: `x0plus e^{-V} + x0minus e^{V}`. -/
theorem rootFunc_le_of_small (p : Screening ℝ) (hplus : 0 < p.x0plus) (hminus : 0 < p.x0minus)
    (h0 : 0 < p.x0) (h1 : p.x0 < 1) (V : ℝ) {x : ℝ} (hx0 : x ≤ p.x0) (hhalf : x ≤ 1 / 2) :
    p.rootFunc Real.exp x V
      ≤ x - (p.x0plus * Real.exp (-V) + p.x0minus * Real.exp V) := by
  have hfx : (p.fHS x).2 ≤ 0 := by
    rw [fHS_of_le p hhalf]
    have ha : 0 < 1 / (1 - x) := by apply div_pos one_pos; linarith
    have hb : 0 < 1 / (1 - p.x0) := by apply div_pos one_pos; linarith
    have hc : 0 < 2 / p.x0 := div_pos two_pos h0
    have : (x - p.x0) * (1 / (1 - x)) * (1 / (1 - p.x0)) ≤ 0 :=
      mul_nonpos_of_nonpos_of_nonneg
        (mul_nonpos_of_nonpos_of_nonneg (by linarith) ha.le) hb.le
    have h3 : 0 ≤ 2 / p.x0 * 2 * (1 / (1 - x) * (1 / (1 - x))) := by positivity
    nlinarith
  unfold Screening.rootFunc
  have e1 : Real.exp (-V) ≤ Real.exp (-V - (p.fHS x).2 * p.x0plus) :=
    Real.exp_le_exp.mpr (by nlinarith)
  have e2 : Real.exp V ≤ Real.exp (V - (p.fHS x).2 * p.x0minus) :=
    Real.exp_le_exp.mpr (by nlinarith)
  have := mul_le_mul_of_nonneg_left e1 hplus.le
  have := mul_le_mul_of_nonneg_left e2 hminus.le
  simp only
  linarith

theorem rootFunc_ge_of_large (p : Screening ℝ) (hplus : 0 < p.x0plus) (hminus : 0 < p.x0minus)
    (h0 : 0 < p.x0) (h1 : p.x0 < 1) (V : ℝ) {x : ℝ} (hhalf : 1 / 2 < x)
    (hx : 1 ≤ 4 * x * (1 - p.x0)) :
    x - (p.x0plus * Real.exp (-V) + p.x0minus * Real.exp V) ≤ p.rootFunc Real.exp x V := by
  have hfx : 0 ≤ (p.fHS x).2 := by
    rw [fHS_of_gt_poly p hhalf]
    have hb : 0 < 1 / (1 - p.x0) := by apply div_pos one_pos; linarith
    have hc : 0 < 2 / p.x0 := div_pos two_pos h0
    have : 0 ≤ 4 * x * (1 - p.x0) - 1 := by linarith
    positivity
  unfold Screening.rootFunc
  have e1 : Real.exp (-V - (p.fHS x).2 * p.x0plus) ≤ Real.exp (-V) :=
    Real.exp_le_exp.mpr (by nlinarith)
  have e2 : Real.exp (V - (p.fHS x).2 * p.x0minus) ≤ Real.exp V :=
    Real.exp_le_exp.mpr (by nlinarith)
  have := mul_le_mul_of_nonneg_left e1 hplus.le
  have := mul_le_mul_of_nonneg_left e2 hminus.le
  simp only
  linarith

/-- Total correctness of the three loops of `x_from_V`: with enough fuel the
function returns, and the final loop variables form a sign-change bracket of
the root function with the returned `x` as midpoint, of width at most the
tolerance `dx` computed from the expanded bracket. -/
theorem x_from_V_state_spec (p : Screening ℝ) (hplus : 0 < p.x0plus) (hminus : 0 < p.x0minus)
    (h0 : 0 < p.x0) (h1 : p.x0 < 1) (V : ℝ) :
    ∃ N : Nat, ∀ fuel, N ≤ fuel → ∃ (xLo0 xHi0 : ℝ) (s : ℝ × ℝ × ℝ),
      scaleWhile (fun xLo => decide (p.rootFunc Real.exp xLo V > 0.)) 0.5 fuel p.x0 = some xLo0 ∧
      scaleWhile (fun xHi => decide (p.rootFunc Real.exp xHi V < 0.)) 2. fuel xLo0 = some xHi0 ∧
      p.x_from_V_state Real.exp fuel V = some s ∧
      0 < xLo0 ∧ xLo0 ≤ s.1 ∧ s.1 ≤ s.2.2 ∧ s.2.2 ≤ s.2.1 ∧ s.2.1 ≤ xHi0 ∧
      s.2.2 = 0.5 * (s.2.1 + s.1) ∧
      p.rootFunc Real.exp s.1 V ≤ 0 ∧ 0 ≤ p.rootFunc Real.exp s.2.1 V ∧
      s.2.1 - s.1 ≤ 0.5 * (xHi0 + xLo0) * 1e-13 := by
  set c := p.x0plus * Real.exp (-V) + p.x0minus * Real.exp V with hc
  have hcpos : 0 < c := by positivity
  -- the halving loop stops
  obtain ⟨k, hk⟩ : ∃ k : Nat, (1 / 2 : ℝ) ^ k < min c (1 / 2) / p.x0 :=
    exists_pow_lt_of_lt_one (div_pos (lt_min hcpos (by norm_num)) h0) (by norm_num)
  have hk' : p.x0 * (1 / 2 : ℝ) ^ k < min c (1 / 2) := by
    rw [lt_div_iff₀ h0] at hk
    linarith
  have hlow : (fun xLo => decide (p.rootFunc Real.exp xLo V > 0.)) (p.x0 * (0.5 : ℝ) ^ k)
      = false := by
    have hx0 : p.x0 * (1 / 2 : ℝ) ^ k ≤ p.x0 := by
      have : (1 / 2 : ℝ) ^ k ≤ 1 := pow_le_one₀ (by norm_num) (by norm_num)
      nlinarith
    have := rootFunc_le_of_small p hplus hminus h0 h1 V hx0
      ((hk'.trans_le (min_le_right _ _)).le)
    have h2 := hk'.trans_le (min_le_left _ _)
    simp only [lit_half, lit_zero, decide_eq_false_iff_not, not_lt, gt_iff_lt]
    linarith
  -- the doubling loop stops
  have hupper : ∀ xLo0 : ℝ, 0 < xLo0 → ∃ m : Nat,
      (fun xHi => decide (p.rootFunc Real.exp xHi V < 0.)) (xLo0 * (2. : ℝ) ^ m) = false := by
    intro xLo0 hpos
    obtain ⟨m, hm⟩ := pow_unbounded_of_one_lt
      (max (max c 1) (1 / (4 * (1 - p.x0))) / xLo0) (by norm_num : (1 : ℝ) < 2)
    refine ⟨m, ?_⟩
    rw [div_lt_iff₀ hpos] at hm
    have hm' : max (max c 1) (1 / (4 * (1 - p.x0))) < xLo0 * 2 ^ m := by linarith
    have hA : c < xLo0 * 2 ^ m := lt_of_le_of_lt ((le_max_left _ _).trans (le_max_left _ _)) hm'
    have hB : 1 < xLo0 * 2 ^ m := lt_of_le_of_lt ((le_max_right _ _).trans (le_max_left _ _)) hm'
    have hC : 1 / (4 * (1 - p.x0)) < xLo0 * 2 ^ m := lt_of_le_of_lt (le_max_right _ _) hm'
    have hD : 1 ≤ 4 * (xLo0 * 2 ^ m) * (1 - p.x0) := by
      rw [div_lt_iff₀ (by linarith)] at hC
      linarith
    have := rootFunc_ge_of_large p hplus hminus h0 h1 V (by linarith) hD
    simp only [lit_two, lit_zero, decide_eq_false_iff_not, not_lt]
    linarith
  obtain ⟨xLo0, hLo⟩ := scaleWhile_terminates
    (fun xLo => decide (p.rootFunc Real.exp xLo V > 0.)) 0.5 k (k + 1) p.x0 hlow (by omega)
  obtain ⟨k1, -, hLoEq, hLoCond, -⟩ := scaleWhile_some _ _ _ _ _ hLo
  have hLoPos : 0 < xLo0 := by rw [hLoEq]; positivity
  obtain ⟨m, hm⟩ := hupper xLo0 hLoPos
  obtain ⟨xHi0, hHi⟩ := scaleWhile_terminates
    (fun xHi => decide (p.rootFunc Real.exp xHi V < 0.)) 2. m (m + 1) xLo0 hm (by omega)
  obtain ⟨m1, -, hHiEq, hHiCond, -⟩ := scaleWhile_some _ _ _ _ _ hHi
  have hLoHi : xLo0 ≤ xHi0 := by
    rw [hHiEq]
    have : (1 : ℝ) ≤ (2. : ℝ) ^ m1 := one_le_pow₀ (by norm_num)
    nlinarith
  refine ⟨max (k + 1) (max (m + 1) 46), fun fuel hfuel => ?_⟩
  have hLo2 := scaleWhile_mono _ _ _ fuel _ _ hLo (by omega)
  have hHi2 := scaleWhile_mono _ _ _ fuel _ _ hHi (by omega)
  obtain ⟨s, hs⟩ := bisectWhile_terminates_rel
    (fun x => decide (p.rootFunc Real.exp x V < 0.)) xLo0 xHi0 hLoPos.le hLoHi fuel (by omega)
  obtain ⟨b1, b2, b3, b4, b5, b6, b7⟩ := bisectWhile_some _ _ _ _ _ _ s hLoHi rfl hs
  have hstate : p.x_from_V_state Real.exp fuel V = some s := by
    unfold Screening.x_from_V_state
    rw [hLo2]
    simp only
    rw [hHi2]
    simp only
    exact hs
  refine ⟨xLo0, xHi0, s, hLo2, hHi2, hstate, hLoPos, b1, ?_, ?_, b3, b4, ?_, ?_, b5⟩
  · rw [b4]; norm_num; linarith
  · rw [b4]; norm_num; linarith
  · rcases b6 with h | h
    · rw [h]
      simpa [lit_zero] using hLoCond
    · have : p.rootFunc Real.exp s.1 V < 0 := by simpa [lit_zero] using h
      exact this.le
  · rcases b7 with h | h
    · rw [h]
      simpa [lit_zero] using hHiCond
    · simpa [lit_zero] using h

end XFromV

end NonlinearPCMeval

namespace NonlinearPCMeval

/-! ## `x_from_V` at the sample parameters -/

section Sample

theorem sample_rootFunc_quarter (l : Bool) (V : ℝ) :
    (sampleScreening ℝ l).rootFunc Real.exp (1 / 4) V
      = 1 / 4 - 1 / 8 * (Real.exp (-V) + Real.exp V) := by
  unfold Screening.rootFunc
  rw [fHS_of_le _ (by norm_num)]
  norm_num [sampleScreening]
  ring

theorem sample_rootFunc_half (l : Bool) (V : ℝ) :
    (sampleScreening ℝ l).rootFunc Real.exp (1 / 2) V
      = 1 / 2 - 1 / 8 * (Real.exp (-V - 16 / 3) + Real.exp (V - 16 / 3)) := by
  unfold Screening.rootFunc
  rw [fHS_of_le _ le_rfl]
  norm_num [sampleScreening]
  ring

theorem sample_rootFunc_of_gt (l : Bool) (V : ℝ) {x : ℝ} (h : 1 / 2 < x) :
    (sampleScreening ℝ l).rootFunc Real.exp x V
      = x - 1 / 8 * (Real.exp (-V - (32 * x - 32 / 3)) + Real.exp (V - (32 * x - 32 / 3))) := by
  unfold Screening.rootFunc
  rw [fHS_of_gt_poly _ h]
  have e : (2 / (sampleScreening ℝ l).x0 * 8 * (1 / (1 - (sampleScreening ℝ l).x0))
      * (4 * x * (1 - (sampleScreening ℝ l).x0) - 1)) * (1 / 8) = 32 * x - 32 / 3 := by
    norm_num [sampleScreening]
    ring
  simp only [sampleScreening] at e ⊢
  rw [e]
  ring

/-- For `0 < |V| ≤ 16/3` the initial guess lies below the root and one doubling
brackets it: the expanded bracket is `[1/4, 1/2]`. -/
theorem sample_bracket (l : Bool) {V : ℝ} (hV : V ≠ 0) (habs : |V| ≤ 16 / 3) :
    scaleWhile (fun xLo => decide ((sampleScreening ℝ l).rootFunc Real.exp xLo V > 0.))
      0.5 64 (sampleScreening ℝ l).x0 = some (1 / 4) ∧
    scaleWhile (fun xHi => decide ((sampleScreening ℝ l).rootFunc Real.exp xHi V < 0.))
      2. 64 (1 / 4) = some (1 / 2) := by
  have hq : (sampleScreening ℝ l).rootFunc Real.exp (1 / 4) V < 0 := by
    rw [sample_rootFunc_quarter]
    have h1 := Real.add_one_lt_exp hV
    have h2 := Real.add_one_lt_exp (neg_ne_zero.mpr hV)
    linarith
  have hh : 0 ≤ (sampleScreening ℝ l).rootFunc Real.exp (1 / 2) V := by
    rw [sample_rootFunc_half]
    have h1 : Real.exp (-V - 16 / 3) ≤ 1 :=
      Real.exp_le_one_iff.mpr (by linarith [neg_abs_le V])
    have h2 : Real.exp (V - 16 / 3) ≤ 1 :=
      Real.exp_le_one_iff.mpr (by linarith [le_abs_self V])
    linarith
  have hx0 : (sampleScreening ℝ l).x0 = 1 / 4 := rfl
  have hdbl : (1 / 4 : ℝ) * 2. = 1 / 2 := by norm_num
  constructor
  · rw [hx0]
    exact scaleWhile_stop _ _ 63 _
      (by simp only [lit_zero, gt_iff_lt, decide_eq_false_iff_not]; linarith)
  · rw [scaleWhile_step _ _ 63 _ (by simp only [lit_zero, decide_eq_true_eq]; exact hq), hdbl]
    exact scaleWhile_stop _ _ 62 _
      (by simp only [lit_zero, decide_eq_false_iff_not]; linarith)

end Sample

end NonlinearPCMeval

namespace NonlinearPCMeval

section RootAtTwo

/-- The defining property of `rootAtTwoPotential`: `e^{V} + e^{-V} = 16 e^{160/3}`. -/
theorem rootAtTwoPotential_spec :
    Real.exp (rootAtTwoPotential Real.exp Real.log Real.sqrt)
      + Real.exp (-rootAtTwoPotential Real.exp Real.log Real.sqrt)
      = 16 * Real.exp (160 / 3) := by
  unfold rootAtTwoPotential
  have hE : (1 : ℝ) ≤ Real.exp (160 / 3) := Real.one_le_exp (by norm_num)
  have hnn : (0 : ℝ) ≤ 64 * Real.exp (160 / 3) ^ 2 - 1 := by nlinarith
  have hs := Real.sq_sqrt hnn
  have hs0 := Real.sqrt_nonneg (64 * Real.exp (160 / 3) ^ 2 - 1)
  have hu : 0 < 8 * Real.exp (160 / 3) + Real.sqrt (64 * Real.exp (160 / 3) ^ 2 - 1) := by
    linarith
  rw [Real.exp_neg, Real.exp_log hu]
  field_simp
  nlinarith

/-- Right of the remap boundary the root function of the sample parameters at
`rootAtTwoPotential` is `x - 2 e^{64 - 32 x}`; it vanishes at `x = 2`. -/
theorem rootAtTwo_rootFunc_of_gt (l : Bool) {x : ℝ} (h : 1 / 2 < x) :
    (sampleScreening ℝ l).rootFunc Real.exp x (rootAtTwoPotential Real.exp Real.log Real.sqrt)
      = x - 2 * Real.exp (64 - 32 * x) := by
  rw [sample_rootFunc_of_gt l _ h]
  have e1 : ∀ V : ℝ, Real.exp (-V - (32 * x - 32 / 3)) + Real.exp (V - (32 * x - 32 / 3))
      = (Real.exp V + Real.exp (-V)) * Real.exp (-(32 * x - 32 / 3)) := by
    intro V
    rw [add_mul, ← Real.exp_add, ← Real.exp_add]
    ring_nf
  rw [e1, rootAtTwoPotential_spec]
  have e2 : Real.exp (64 - 32 * x) = Real.exp (160 / 3) * Real.exp (-(32 * x - 32 / 3)) := by
    rw [← Real.exp_add]
    ring_nf
  rw [e2]
  ring

theorem rootAtTwo_rootFunc_quarter (l : Bool) :
    (sampleScreening ℝ l).rootFunc Real.exp (1 / 4)
      (rootAtTwoPotential Real.exp Real.log Real.sqrt) < 0 := by
  rw [sample_rootFunc_quarter, add_comm, rootAtTwoPotential_spec]
  have hE : (1 : ℝ) ≤ Real.exp (160 / 3) := Real.one_le_exp (by norm_num)
  linarith

theorem rootAtTwo_rootFunc_half (l : Bool) :
    (sampleScreening ℝ l).rootFunc Real.exp (1 / 2)
      (rootAtTwoPotential Real.exp Real.log Real.sqrt) < 0 := by
  rw [sample_rootFunc_half]
  have e1 : ∀ V : ℝ, Real.exp (-V - 16 / 3) + Real.exp (V - 16 / 3)
      = (Real.exp V + Real.exp (-V)) * Real.exp (-(16 / 3)) := by
    intro V
    rw [add_mul, ← Real.exp_add, ← Real.exp_add]
    ring_nf
  rw [e1, rootAtTwoPotential_spec, mul_assoc, ← Real.exp_add]
  have hE : (1 : ℝ) ≤ Real.exp (160 / 3 + -(16 / 3)) := Real.one_le_exp (by norm_num)
  linarith

theorem rootAtTwo_rootFunc_neg (l : Bool) {x : ℝ} (h : 1 / 2 < x) (h2 : x < 2) :
    (sampleScreening ℝ l).rootFunc Real.exp x
      (rootAtTwoPotential Real.exp Real.log Real.sqrt) < 0 := by
  rw [rootAtTwo_rootFunc_of_gt l h]
  have hE : (1 : ℝ) ≤ Real.exp (64 - 32 * x) := Real.one_le_exp (by linarith)
  linarith

/-- The run of `x_from_V` at `rootAtTwoPotential`: the bracket is expanded to
`[1/4, 2]`, the root sits at its upper end, and 44 bisection steps move only
`xLo`. -/
theorem rootAtTwo_x_from_V (l : Bool) :
    (sampleScreening ℝ l).x_from_V Real.exp 64 (rootAtTwoPotential Real.exp Real.log Real.sqrt)
      = some (2 - 7 / 4 / 2 ^ 45) := by
  have hx0 : (sampleScreening ℝ l).x0 = 1 / 4 := rfl
  have d1 : (1 / 4 : ℝ) * 2. = 1 / 2 := by norm_num
  have d2 : (1 / 2 : ℝ) * 2. = 1 := by norm_num
  have d3 : (1 : ℝ) * 2. = 2 := by norm_num
  have h2 : (sampleScreening ℝ l).rootFunc Real.exp 2
      (rootAtTwoPotential Real.exp Real.log Real.sqrt) = 0 := by
    rw [rootAtTwo_rootFunc_of_gt l (by norm_num)]
    norm_num
  have hl : scaleWhile (fun xLo => decide ((sampleScreening ℝ l).rootFunc Real.exp xLo
      (rootAtTwoPotential Real.exp Real.log Real.sqrt) > 0.)) 0.5 64 (1 / 4) = some (1 / 4) :=
    scaleWhile_stop _ _ 63 _
      (by simp only [lit_zero, gt_iff_lt, decide_eq_false_iff_not]
          exact not_lt.mpr (rootAtTwo_rootFunc_quarter l).le)
  have hu : scaleWhile (fun xHi => decide ((sampleScreening ℝ l).rootFunc Real.exp xHi
      (rootAtTwoPotential Real.exp Real.log Real.sqrt) < 0.)) 2. 64 (1 / 4) = some 2 := by
    rw [scaleWhile_step _ _ 63 _
      (by simp only [lit_zero, decide_eq_true_eq]; exact rootAtTwo_rootFunc_quarter l), d1,
      scaleWhile_step _ _ 62 _
      (by simp only [lit_zero, decide_eq_true_eq]; exact rootAtTwo_rootFunc_half l), d2,
      scaleWhile_step _ _ 61 _
      (by simp only [lit_zero, decide_eq_true_eq]
          exact rootAtTwo_rootFunc_neg l (by norm_num) (by norm_num)), d3]
    exact scaleWhile_stop _ _ 60 _ (by simp only [lit_zero, decide_eq_false_iff_not, h2]; norm_num)
  have hb := bisectWhile_all_right
    (fun x => decide ((sampleScreening ℝ l).rootFunc Real.exp x
      (rootAtTwoPotential Real.exp Real.log Real.sqrt) < 0.))
    (0.5 * (2 + 1 / 4) * 1e-13) 2 44 64 (1 / 4) (by norm_num)
    (by
      intro y hy hy2
      simp only [lit_zero, decide_eq_true_eq]
      exact rootAtTwo_rootFunc_neg l (by norm_num at hy; linarith) hy2)
    (by norm_num)
    (by
      intro j hj
      have hp : (2 : ℝ) ^ j ≤ 2 ^ 43 := pow_le_pow_right₀ (by norm_num) (by omega)
      have hpos : (0 : ℝ) < 2 ^ j := by positivity
      rw [lt_div_iff₀ hpos]
      calc 0.5 * (2 + 1 / 4) * 1e-13 * (2 : ℝ) ^ j
          ≤ 0.5 * (2 + 1 / 4) * 1e-13 * 2 ^ 43 := by
            apply mul_le_mul_of_nonneg_left hp
            norm_num
        _ < 2 - 1 / 4 := by norm_num)
    (by norm_num)
  unfold Screening.x_from_V Screening.x_from_V_state
  rw [hx0, hl]
  simp only
  rw [hu]
  simp only
  rw [hb]
  simp only [Option.map_some']
  norm_num

/-- The residual at the returned value exceeds `1e-12` in absolute value. -/
theorem rootAtTwo_residual (l : Bool) :
    (sampleScreening ℝ l).rootFunc Real.exp (2 - 7 / 4 / 2 ^ 45)
      (rootAtTwoPotential Real.exp Real.log Real.sqrt) < -1e-12 := by
  rw [rootAtTwo_rootFunc_of_gt l (by norm_num)]
  have h := Real.add_one_le_exp (64 - 32 * (2 - 7 / 4 / 2 ^ 45 : ℝ))
  have e : (64 - 32 * (2 - 7 / 4 / 2 ^ 45 : ℝ)) = 56 / 2 ^ 45 := by ring
  rw [e] at h ⊢
  have : (2 : ℝ) - 7 / 4 / 2 ^ 45 - 2 * (56 / 2 ^ 45 + 1) < -1e-12 := by norm_num
  linarith

end RootAtTwo

/-- C8, counterexample: for the sample parameters (`x0plus = x0minus = 1/8`,
`x0 = 1/4 < 1`) and the potential `V` with `cosh V = 8 e^{160/3}`, `x_from_V`
returns `x = 2 - 7/2^47` and the residual `rootFunc(x, V)` is below `-1e-12`. -/
theorem x_from_V_residual_exceeds_tolerance :
    (0 : ℝ) < (sampleScreening ℝ false).x0plus ∧ (0 : ℝ) < (sampleScreening ℝ false).x0minus ∧
    (sampleScreening ℝ false).x0
      = (sampleScreening ℝ false).x0plus + (sampleScreening ℝ false).x0minus ∧
    (sampleScreening ℝ false).x0 < 1 ∧
    (sampleScreening ℝ false).x_from_V Real.exp 64
        (rootAtTwoPotential Real.exp Real.log Real.sqrt) = some (2 - 7 / 4 / 2 ^ 45) ∧
    ¬ (|(sampleScreening ℝ false).rootFunc Real.exp (2 - 7 / 4 / 2 ^ 45)
        (rootAtTwoPotential Real.exp Real.log Real.sqrt)| ≤ 1e-12) := by
  refine ⟨by norm_num [sampleScreening], by norm_num [sampleScreening],
    by norm_num [sampleScreening], by norm_num [sampleScreening], rootAtTwo_x_from_V false, ?_⟩
  have h := rootAtTwo_residual false
  rw [not_le, abs_of_neg (lt_trans h (by norm_num))]
  linarith

/-- C8, amended: for `x0plus, x0minus > 0`, `x0 = x0plus + x0minus < 1` and
every real `V`, `x_from_V` returns once the fuel covers the finitely many
iterations, and the returned `x` is the midpoint of the final bracket
`[xLo, xHi]`, which satisfies `rootFunc(xLo, V) ≤ 0 ≤ rootFunc(xHi, V)` and
`xHi - xLo ≤ 1e-13 x̄`, where `x̄` is the midpoint of the expanded bracket
`[xLo0, xHi0]` from which the bisection starts. -/
theorem x_from_V_returns_sign_change_bracket (p : Screening ℝ) (V : ℝ)
    (hplus : 0 < p.x0plus) (hminus : 0 < p.x0minus) (hx0 : p.x0 = p.x0plus + p.x0minus)
    (h1 : p.x0 < 1) :
    ∃ N : Nat, ∀ fuel, N ≤ fuel → ∃ xLo0 xHi0 xLo xHi x : ℝ,
      scaleWhile (fun xLo => decide (p.rootFunc Real.exp xLo V > 0.)) 0.5 fuel p.x0 = some xLo0 ∧
      scaleWhile (fun xHi => decide (p.rootFunc Real.exp xHi V < 0.)) 2. fuel xLo0 = some xHi0 ∧
      p.x_from_V_state Real.exp fuel V = some (xLo, xHi, x) ∧
      p.x_from_V Real.exp fuel V = some x ∧
      xLo0 ≤ xLo ∧ xLo ≤ x ∧ x ≤ xHi ∧ xHi ≤ xHi0 ∧ x = 0.5 * (xHi + xLo) ∧
      p.rootFunc Real.exp xLo V ≤ 0 ∧ 0 ≤ p.rootFunc Real.exp xHi V ∧
      xHi - xLo ≤ 0.5 * (xHi0 + xLo0) * 1e-13 := by
  have h0 : 0 < p.x0 := by rw [hx0]; linarith
  obtain ⟨N, hN⟩ := x_from_V_state_spec p hplus hminus h0 h1 V
  refine ⟨N, fun fuel hfuel => ?_⟩
  obtain ⟨xLo0, xHi0, s, a1, a2, a3, -, a5, a6, a7, a8, a9, a10, a11, a12⟩ := hN fuel hfuel
  refine ⟨xLo0, xHi0, s.1, s.2.1, s.2.2, a1, a2, a3, ?_, a5, a6, a7, a8, a9, a10, a11, a12⟩
  unfold Screening.x_from_V
  rw [a3]
  rfl

/-- C8, amended, at the sample parameters and `V = 0`: `x_from_V` returns. -/
theorem x_from_V_returns_sign_change_bracket_witness :
    ∃ N : Nat, ∀ fuel, N ≤ fuel →
      ∃ x : ℝ, (sampleScreening ℝ false).x_from_V Real.exp fuel 0 = some x := by
  obtain ⟨N, hN⟩ := x_from_V_returns_sign_change_bracket (sampleScreening ℝ false) 0
    (by norm_num [sampleScreening]) (by norm_num [sampleScreening])
    (by norm_num [sampleScreening]) (by norm_num [sampleScreening])
  refine ⟨N, fun fuel hfuel => ?_⟩
  obtain ⟨-, -, -, -, x, -, -, -, hx, -⟩ := hN fuel hfuel
  exact ⟨x, hx⟩

end NonlinearPCMeval

namespace NonlinearPCMeval

section Monotone

end Monotone

end NonlinearPCMeval

/-! ## The inversion `Dielectric::eps_from_x` for an abstract forward map -/

section Inversion

end Inversion

/-! ## Inequalities for hyperbolic functions -/

section Hyperbolic

open Real

/-- A function vanishing at `0` with non-negative derivative on `[0, ∞)` is
non-negative there. -/
theorem nonneg_of_deriv_nonneg (G G' : ℝ → ℝ) (h0 : G 0 = 0)
    (hd : ∀ e, 0 ≤ e → HasDerivAt G (G' e) e) (hpos : ∀ e, 0 ≤ e → 0 ≤ G' e) :
    ∀ e, 0 ≤ e → 0 ≤ G e := by
  have hmono : MonotoneOn G (Set.Ici 0) := by
    apply monotoneOn_of_deriv_nonneg (convex_Ici 0)
    · intro x hx
      exact (hd x hx).continuousAt.continuousWithinAt
    · intro x hx
      rw [interior_Ici] at hx
      exact (hd x (le_of_lt hx)).differentiableAt.differentiableWithinAt
    · intro x hx
      rw [interior_Ici] at hx
      rw [(hd x (le_of_lt hx)).deriv]
      exact hpos x (le_of_lt hx)
  intro e he
  have := hmono (Set.left_mem_Ici) he he
  rwa [h0] at this

theorem sinh_le_mul_cosh {e : ℝ} (he : 0 ≤ e) : sinh e ≤ e * cosh e := by
  have := nonneg_of_deriv_nonneg (fun t => t * cosh t - sinh t) (fun t => t * sinh t)
    (by simp)
    (fun t _ => by
      have := ((hasDerivAt_id' t).mul (hasDerivAt_cosh t)).sub (hasDerivAt_sinh t)
      convert this using 1
      ring)
    (fun t ht => mul_nonneg ht (sinh_nonneg_iff.mpr ht)) e he
  simp only at this
  linarith

theorem hyp_g3_nonneg {e : ℝ} (he : 0 ≤ e) :
    0 ≤ 4 * e * (cosh e * cosh e + sinh e * sinh e) - 4 * (sinh e * cosh e) := by
  have h1 := sinh_le_mul_cosh he
  have hc := cosh_pos e
  have hs : 0 ≤ sinh e := sinh_nonneg_iff.mpr he
  have : 0 ≤ (e * cosh e - sinh e) * cosh e := mul_nonneg (by linarith) hc.le
  have : 0 ≤ e * (sinh e * sinh e) := mul_nonneg he (mul_self_nonneg _)
  nlinarith

theorem hyp_g2_nonneg {e : ℝ} (he : 0 ≤ e) :
    0 ≤ 2 + 4 * e * (sinh e * cosh e) - 2 * (cosh e * cosh e + sinh e * sinh e) := by
  have := nonneg_of_deriv_nonneg
    (fun t => 2 + 4 * t * (sinh t * cosh t) - 2 * (cosh t * cosh t + sinh t * sinh t))
    (fun t => 4 * t * (cosh t * cosh t + sinh t * sinh t) - 4 * (sinh t * cosh t))
    (by simp)
    (fun t _ => by
      have hsc := (hasDerivAt_sinh t).mul (hasDerivAt_cosh t)
      have hcc := (hasDerivAt_cosh t).mul (hasDerivAt_cosh t)
      have hss := (hasDerivAt_sinh t).mul (hasDerivAt_sinh t)
      have := (((((hasDerivAt_id' t).const_mul (4 : ℝ)).mul hsc).const_add 2).sub
        ((hcc.add hss).const_mul 2))
      convert this using 1
      ring)
    (fun t ht => hyp_g3_nonneg ht) e he
  simpa using this

theorem hyp_g1_nonneg {e : ℝ} (he : 0 ≤ e) :
    0 ≤ 2 * e + e * (cosh e * cosh e + sinh e * sinh e) - 3 * (sinh e * cosh e) := by
  have := nonneg_of_deriv_nonneg
    (fun t => 2 * t + t * (cosh t * cosh t + sinh t * sinh t) - 3 * (sinh t * cosh t))
    (fun t => 2 + 4 * t * (sinh t * cosh t) - 2 * (cosh t * cosh t + sinh t * sinh t))
    (by simp)
    (fun t _ => by
      have hsc := (hasDerivAt_sinh t).mul (hasDerivAt_cosh t)
      have hcc := (hasDerivAt_cosh t).mul (hasDerivAt_cosh t)
      have hss := (hasDerivAt_sinh t).mul (hasDerivAt_sinh t)
      have := ((((hasDerivAt_id' t).const_mul (2 : ℝ)).add
        ((hasDerivAt_id' t).mul (hcc.add hss))).sub (hsc.const_mul 3))
      convert this using 1
      ring)
    (fun t ht => hyp_g2_nonneg ht) e he
  simpa using this

theorem hyp_g_nonneg {e : ℝ} (he : 0 ≤ e) :
    0 ≤ e * e + e * (sinh e * cosh e) - 2 * (sinh e * sinh e) := by
  have := nonneg_of_deriv_nonneg
    (fun t => t * t + t * (sinh t * cosh t) - 2 * (sinh t * sinh t))
    (fun t => 2 * t + t * (cosh t * cosh t + sinh t * sinh t) - 3 * (sinh t * cosh t))
    (by simp)
    (fun t _ => by
      have hsc := (hasDerivAt_sinh t).mul (hasDerivAt_cosh t)
      have hss := (hasDerivAt_sinh t).mul (hasDerivAt_sinh t)
      have := ((((hasDerivAt_id' t).mul (hasDerivAt_id' t)).add
        ((hasDerivAt_id' t).mul hsc)).sub (hss.const_mul 2))
      convert this using 1
      ring)
    (fun t ht => hyp_g1_nonneg ht) e he
  simpa using this

/-- The closed form of `frac` in terms of `sinh` and `cosh`. -/
theorem fracClosed_eq {e : ℝ} (he : 0 < e) :
    (e / tanh e - 1) / (e * e) = (e * cosh e - sinh e) / (e * e * sinh e) := by
  have hs : 0 < sinh e := sinh_pos_iff.mpr he
  have hc := cosh_pos e
  rw [tanh_eq_sinh_div_cosh]
  field_simp
  left
  ring

/-- The closed form of `frac` is non-negative. -/
theorem fracClosed_nonneg {e : ℝ} (he : 0 < e) : 0 ≤ (e / tanh e - 1) / (e * e) := by
  rw [fracClosed_eq he]
  have hs : 0 < sinh e := sinh_pos_iff.mpr he
  have := sinh_le_mul_cosh he.le
  apply div_nonneg (by linarith) (by positivity)

/-- The closed form of `frac` is non-increasing on `(0, ∞)`. -/
theorem fracClosed_antitone {a b : ℝ} (ha : 0 < a) (hab : a ≤ b) :
    (b / tanh b - 1) / (b * b) ≤ (a / tanh a - 1) / (a * a) := by
  rw [fracClosed_eq ha, fracClosed_eq (lt_of_lt_of_le ha hab)]
  have hd : ∀ t : ℝ, 0 < t → HasDerivAt (fun t => (t * cosh t - sinh t) / (t * t * sinh t))
      ((t * sinh t * (t * t * sinh t)
        - (t * cosh t - sinh t) * ((1 * t + t * 1) * sinh t + t * t * cosh t))
        / (t * t * sinh t) ^ 2) t := by
    intro t ht
    have hs : 0 < sinh t := sinh_pos_iff.mpr ht
    have hN : HasDerivAt (fun t => t * cosh t - sinh t) (t * sinh t) t := by
      have := ((hasDerivAt_id' t).mul (hasDerivAt_cosh t)).sub (hasDerivAt_sinh t)
      convert this using 1
      ring
    have hD := ((hasDerivAt_id' t).mul (hasDerivAt_id' t)).mul (hasDerivAt_sinh t)
    exact hN.div hD (by positivity)
  have hanti : AntitoneOn (fun t => (t * cosh t - sinh t) / (t * t * sinh t)) (Set.Ioi 0) := by
    apply antitoneOn_of_deriv_nonpos (convex_Ioi 0)
    · intro x hx
      exact (hd x hx).continuousAt.continuousWithinAt
    · intro x hx
      rw [interior_Ioi] at hx
      exact (hd x hx).differentiableAt.differentiableWithinAt
    · intro x hx
      rw [interior_Ioi] at hx
      rw [(hd x hx).deriv]
      apply div_nonpos_of_nonpos_of_nonneg _ (sq_nonneg _)
      have hg := hyp_g_nonneg (le_of_lt hx)
      have hsq := cosh_sq x
      have hx0 : 0 < x := hx
      have key : x * sinh x * (x * x * sinh x)
          - (x * cosh x - sinh x) * ((1 * x + x * 1) * sinh x + x * x * cosh x)
          = -(x * (x * x + x * (sinh x * cosh x) - 2 * (sinh x * sinh x)))
            + x * x * x * (1 + sinh x ^ 2 - cosh x ^ 2) := by ring
      rw [key, hsq]
      have : 0 ≤ x * (x * x + x * (sinh x * cosh x) - 2 * (sinh x * sinh x)) :=
        mul_nonneg hx0.le hg
      nlinarith
  exact hanti ha (lt_of_lt_of_le ha hab) hab

theorem exp_fifth_le :
    exp (1 / 5) ≤ 1714025025595120333 / 1403325000000000000 := by
  have h := Real.exp_bound' (x := 1 / 5) (by norm_num) (by norm_num) (n := 12) (by norm_num)
  have e : (∑ m ∈ Finset.range 12, (1 / 5 : ℝ) ^ m / (m.factorial : ℝ))
      + (1 / 5 : ℝ) ^ 12 * ((12 : ℕ) + 1) / ((Nat.factorial 12 : ℕ) * (12 : ℕ))
      ≤ 1714025025595120333 / 1403325000000000000 := by
    simp only [Finset.sum_range_succ, Finset.sum_range_zero, Nat.factorial]
    norm_num
  exact h.trans e

theorem le_exp_fifth : (1221402758 / 1000000000 : ℝ) ≤ exp (1 / 5) := by
  have h := Real.sum_le_exp_of_nonneg (x := 1 / 5) (by norm_num) 9
  have e : (1221402758 / 1000000000 : ℝ) ≤ ∑ m ∈ Finset.range 9, (1 / 5 : ℝ) ^ m / (m.factorial : ℝ) := by
    simp only [Finset.sum_range_succ, Finset.sum_range_zero, Nat.factorial]
    norm_num
  exact e.trans h

/-- At `eps = 0.1` the closed form of `frac` is not below the truncated series
(the next term of the series is positive), and exceeds it by less than `1e-7`. -/
theorem fracClosed_at_tenth :
    fracSeries (1 / 10 : ℝ) ≤ ((1 / 10 : ℝ) / tanh (1 / 10) - 1) / (1 / 10 * (1 / 10)) ∧
    ((1 / 10 : ℝ) / tanh (1 / 10) - 1) / (1 / 10 * (1 / 10))
      ≤ fracSeries (1 / 10 : ℝ) + 1 / 10 ^ 7 := by
  have hS : fracSeries (1 / 10 : ℝ) = 524650333 / 1575000000 := by
    unfold fracSeries
    norm_num
  have hE : exp (1 / 10) * exp (1 / 10) = exp (1 / 5) := by
    rw [← exp_add]
    norm_num
  have hI : exp (1 / 10) * exp (-(1 / 10)) = 1 := by
    rw [← exp_add]
    simp
  have hEpos := exp_pos (1 / 10 : ℝ)
  have hIpos := exp_pos (-(1 / 10) : ℝ)
  have hU := exp_fifth_le
  have hL := le_exp_fifth
  have hs : 0 < sinh (1 / 10 : ℝ) := sinh_pos_iff.mpr (by norm_num)
  rw [fracClosed_eq (by norm_num : (0 : ℝ) < 1 / 10), hS]
  rw [le_div_iff₀ (by positivity), div_le_iff₀ (by positivity)]
  rw [sinh_eq, cosh_eq]
  rw [← hE] at hU hL
  generalize exp (1 / 10 : ℝ) = E at *
  generalize exp (-(1 / 10) : ℝ) = I at *
  constructor
  · have h1 : 0 ≤ I * (1714025025595120333 / 1403325000000000000 - E * E) :=
      mul_nonneg hIpos.le (by linarith)
    have h2 : I * (E * E) = E := by
      calc I * (E * E) = (E * I) * E := by ring
        _ = E := by rw [hI, one_mul]
    nlinarith
  · have h1 : 0 ≤ I * (E * E - 1221402758 / 1000000000) :=
      mul_nonneg hIpos.le (by linarith)
    have h2 : I * (E * E) = E := by
      calc I * (E * E) = (E * I) * E := by ring
        _ = E := by rw [hI, one_mul]
    nlinarith

end Hyperbolic

/-! ## The truncated series of `frac` on `[0, 0.1]` -/

section Series

theorem fracSeries_bounds {e : ℝ} (h0 : 0 ≤ e) (h1 : e ≤ 1 / 10) :
    0 ≤ fracSeries e ∧ fracSeries e ≤ 1 / 3 ∧ e * e / 46 ≤ 1 / 3 - fracSeries e := by
  have hA : 0 ≤ e * e := mul_nonneg h0 h0
  have hB : e * e ≤ 1 / 100 := by nlinarith
  have hC : 0 ≤ e * e * (e * e) := mul_nonneg hA hA
  have hD : 0 ≤ e * e * (e * e) * (e * e) := mul_nonneg hC hA
  have hE : e * e * (e * e) ≤ 1 / 100 * (e * e) := mul_le_mul_of_nonneg_right hB hA
  have hF : e * e * (e * e) * (e * e) ≤ 1 / 100 * (e * e) * (e * e) :=
    mul_le_mul_of_nonneg_right hE hA
  unfold fracSeries
  refine ⟨?_, ?_, ?_⟩ <;> nlinarith

end Series

namespace NonlinearPCMeval

/-! ## `Dielectric::calcFunctions`, `x_from_eps` and `eps_from_x` -/

section DielectricInverse

open Real

theorem frac_linear (d : Dielectric ℝ) (h : d.linear = true) (e : ℝ) :
    (d.calcFunctions tanh sinh log e).1 = 1 / 3 := by
  simp only [Dielectric.calcFunctions, h, if_true]
  norm_num

theorem frac_series (d : Dielectric ℝ) (h : d.linear = false) {e : ℝ} (he : e < 1 / 10) :
    (d.calcFunctions tanh sinh log e).1 = fracSeries e := by
  have hlt : e < (1e-1 : ℝ) := by norm_num; linarith
  simp only [Dielectric.calcFunctions, h, Bool.false_eq_true, if_false, hlt, if_true, fracSeries]
  norm_num

theorem frac_closed (d : Dielectric ℝ) (h : d.linear = false) {e : ℝ} (he : 1 / 10 ≤ e) :
    (d.calcFunctions tanh sinh log e).1 = (e / tanh e - 1) / (e * e) := by
  have hlt : ¬ e < (1e-1 : ℝ) := by norm_num; linarith
  simp only [Dielectric.calcFunctions, h, Bool.false_eq_true, if_false, hlt]

theorem x_from_eps_eq (d : Dielectric ℝ) (e : ℝ) :
    d.x_from_eps tanh sinh log e = e * (1 - d.alpha * (d.calcFunctions tanh sinh log e).1) := by
  simp only [Dielectric.x_from_eps]
  norm_num

/-- On the closed-form branch `frac` stays below `1/3 - 1/4800`. -/
theorem fracClosed_le {e : ℝ} (he : 1 / 10 ≤ e) :
    (e / tanh e - 1) / (e * e) ≤ 1 / 3 - 1 / 4800 := by
  have h1 := fracClosed_antitone (by norm_num : (0 : ℝ) < 1 / 10) he
  have h2 := fracClosed_at_tenth.2
  have hS : fracSeries (1 / 10 : ℝ) = 524650333 / 1575000000 := by
    unfold fracSeries
    norm_num
  rw [hS] at h2
  exact h1.trans (h2.trans (by norm_num))

/-- `0 ≤ frac ≤ 1/3` at every positive `eps`, in both regimes. -/
theorem frac_bounds (d : Dielectric ℝ) {e : ℝ} (he : 0 < e) :
    0 ≤ (d.calcFunctions tanh sinh log e).1 ∧ (d.calcFunctions tanh sinh log e).1 ≤ 1 / 3 := by
  cases hlin : d.linear with
  | true =>
    rw [frac_linear d hlin]
    norm_num
  | false =>
    by_cases hs : e < 1 / 10
    · rw [frac_series d hlin hs]
      obtain ⟨h1, h2, -⟩ := fracSeries_bounds he.le hs.le
      exact ⟨h1, h2⟩
    · rw [frac_closed d hlin (not_lt.mp hs)]
      have := fracClosed_le (not_lt.mp hs)
      exact ⟨fracClosed_nonneg he, by linarith⟩

end DielectricInverse

end NonlinearPCMeval

namespace NonlinearPCMeval

end NonlinearPCMeval

/-! ## A bisection run of `x_from_V` at the sample parameters -/

section LoopWidth

theorem bisectWhile_step_right (below : ℝ → Bool) (tol : ℝ) (n : Nat) (lo hi x : ℝ)
    (hw : tol < hi - lo) (hb : below x = false) :
    bisectWhile below tol (n + 1) lo hi x = bisectWhile below tol n lo x (0.5 * (x + lo)) := by
  conv_lhs => unfold bisectWhile
  rw [if_pos hw]
  simp [hb]

/-- The bisection loop halves the bracket until its width is at most `tol` for
the first time: the final width is the initial one divided by `2 ^ n`, where
every earlier width exceeds `tol`. -/
theorem bisectWhile_width (below : ℝ → Bool) (tol : ℝ) :
    ∀ (fuel : Nat) (lo hi x : ℝ) (s : ℝ × ℝ × ℝ), x = 0.5 * (hi + lo) →
      bisectWhile below tol fuel lo hi x = some s →
      ∃ n : Nat, (s.2.1 - s.1) * 2 ^ n = hi - lo ∧ ∀ j, j < n → tol < (hi - lo) / 2 ^ j := by
  intro fuel
  induction fuel with
  | zero => intro lo hi x s _ h; simp [bisectWhile] at h
  | succ m ih =>
    intro lo hi x s hx h
    unfold bisectWhile at h
    by_cases hw : hi - lo > tol
    · rw [if_pos hw] at h
      have key : ∀ lo1 hi1 : ℝ, hi1 - lo1 = (hi - lo) / 2 →
          bisectWhile below tol m lo1 hi1 (0.5 * (hi1 + lo1)) = some s →
          ∃ n : Nat, (s.2.1 - s.1) * 2 ^ n = hi - lo ∧
            ∀ j, j < n → tol < (hi - lo) / 2 ^ j := by
        intro lo1 hi1 hw1 h1
        obtain ⟨n, hn, hall⟩ := ih lo1 hi1 _ s rfl h1
        refine ⟨n + 1, ?_, ?_⟩
        · rw [pow_succ, ← mul_assoc, hn, hw1]
          ring
        · intro j hj
          cases j with
          | zero => simpa using hw
          | succ i =>
            have := hall i (by omega)
            rw [hw1, div_div, ← pow_succ'] at this
            exact this
      by_cases hb : below x = true
      · rw [if_pos hb] at h
        exact key x hi (by rw [hx]; norm_num; ring) h
      · rw [if_neg hb] at h
        exact key lo x (by rw [hx]; norm_num; ring) h
    · rw [if_neg hw] at h
      have hs := Option.some.inj h
      subst hs
      exact ⟨0, by simp, fun j hj => absurd hj (by omega)⟩

end LoopWidth

namespace NonlinearPCMeval

/-- The root function of the sample parameters on the branch of `fHS` that is
not remapped. -/
theorem sample_rootFunc_of_le (l : Bool) (V : ℝ) {x : ℝ} (h : x ≤ 1 / 2) :
    (sampleScreening ℝ l).rootFunc Real.exp x V
      = x - 1 / 8 * (Real.exp (-V - 8 / 3 * (x - 1 / 4) * (1 / (1 - x)) ^ 3)
          + Real.exp (V - 8 / 3 * (x - 1 / 4) * (1 / (1 - x)) ^ 3)) := by
  unfold Screening.rootFunc
  rw [fHS_of_le _ h]
  have e : 2 / (sampleScreening ℝ l).x0 * 2
      * ((x - (sampleScreening ℝ l).x0) * (1 / (1 - x)) * (1 / (1 - (sampleScreening ℝ l).x0)))
      * (1 / (1 - x) * (1 / (1 - x))) * 1 * (1 / 8) = 8 / 3 * (x - 1 / 4) * (1 / (1 - x)) ^ 3 := by
    generalize 1 / (1 - x) = r
    norm_num [sampleScreening]
    ring
  simp only [sampleScreening] at e ⊢
  rw [e]
  ring

/-- The root function of the sample parameters is positive at a point
`1/4 < x ≤ 1/2` where the hard-sphere term outweighs the potential. -/
theorem sample_rootFunc_pos (l : Bool) {V x : ℝ} (h : x ≤ 1 / 2) (hq : 1 / 4 < x)
    (hV : |V| ≤ 8 / 3 * (x - 1 / 4) * (1 / (1 - x)) ^ 3) :
    0 < (sampleScreening ℝ l).rootFunc Real.exp x V := by
  rw [sample_rootFunc_of_le l V h]
  have h1 : Real.exp (-V - 8 / 3 * (x - 1 / 4) * (1 / (1 - x)) ^ 3) ≤ 1 :=
    Real.exp_le_one_iff.mpr (by linarith [neg_abs_le V])
  have h2 : Real.exp (V - 8 / 3 * (x - 1 / 4) * (1 / (1 - x)) ^ 3) ≤ 1 :=
    Real.exp_le_one_iff.mpr (by linarith [le_abs_self V])
  linarith

/-- At the sample parameters and `V = 1/10` the bracket `[1/4, 1/2]` is bisected
with the fixed tolerance `3.75e-14`; the first three midpoints lie above the
root, so the returned bracket lies in `[1/4, 9/32]`, and its width is at least
`2 ^ (-45)`. -/
theorem sample_x_from_V_tenth (l : Bool) :
    ∃ s : ℝ × ℝ × ℝ, (sampleScreening ℝ l).x_from_V_state Real.exp 64 (1 / 10) = some s ∧
      s.2.2 ≤ 9 / 32 ∧ 1 / 32 / 2 ^ 40 ≤ s.2.1 - s.1 := by
  obtain ⟨hl, hu⟩ := sample_bracket l (V := 1 / 10) (by norm_num)
    (by rw [abs_of_pos (by norm_num)]; norm_num)
  have habs : |(1 / 10 : ℝ)| = 1 / 10 := abs_of_pos (by norm_num)
  have hb : ∀ x : ℝ, x ≤ 1 / 2 → 1 / 4 < x →
      1 / 10 ≤ 8 / 3 * (x - 1 / 4) * (1 / (1 - x)) ^ 3 →
      (fun x => decide ((sampleScreening ℝ l).rootFunc Real.exp x (1 / 10) < 0.)) x = false := by
    intro x h1 h2 h3
    have := sample_rootFunc_pos l (V := 1 / 10) h1 h2 (by rw [habs]; exact h3)
    simp only [lit_zero, decide_eq_false_iff_not, not_lt]
    exact this.le
  have m1 : (0.5 : ℝ) * (1 / 2 + 1 / 4) = 3 / 8 := by norm_num
  have m2 : (0.5 : ℝ) * (3 / 8 + 1 / 4) = 5 / 16 := by norm_num
  have m3 : (0.5 : ℝ) * (5 / 16 + 1 / 4) = 9 / 32 := by norm_num
  have hrun : ∀ tol : ℝ, tol < 1 / 32 →
      bisectWhile (fun x => decide ((sampleScreening ℝ l).rootFunc Real.exp x (1 / 10) < 0.))
        tol 64 (1 / 4) (1 / 2) (3 / 8)
      = bisectWhile (fun x => decide ((sampleScreening ℝ l).rootFunc Real.exp x (1 / 10) < 0.))
        tol 61 (1 / 4) (9 / 32) (0.5 * (9 / 32 + 1 / 4)) := by
    intro tol htol
    rw [bisectWhile_step_right _ _ 63 _ _ _ (by linarith)
      (hb _ (by norm_num) (by norm_num) (by norm_num)), m2]
    rw [bisectWhile_step_right _ _ 62 _ _ _ (by linarith)
      (hb _ (by norm_num) (by norm_num) (by norm_num)), m3]
    rw [bisectWhile_step_right _ _ 61 _ _ _ (by linarith)
      (hb _ (by norm_num) (by norm_num) (by norm_num))]
  have htolv : (0.5 : ℝ) * (1 / 2 + 1 / 4) * 1e-13 < 1 / 32 := by norm_num
  obtain ⟨s, hs⟩ := bisectWhile_terminates
    (fun x => decide ((sampleScreening ℝ l).rootFunc Real.exp x (1 / 10) < 0.))
    (0.5 * (1 / 2 + 1 / 4) * 1e-13) 40 61 (1 / 4) (9 / 32) _ rfl (by norm_num) (by omega)
  obtain ⟨-, -, b3, b4, -⟩ := bisectWhile_some _ _ _ _ _ _ s (by norm_num) rfl hs
  obtain ⟨n, hn, hall⟩ := bisectWhile_width _ _ _ _ _ _ s rfl hs
  have hn40 : n ≤ 40 := by
    by_contra hcon
    have := hall 40 (by omega)
    norm_num at this
  refine ⟨s, ?_, ?_, ?_⟩
  · unfold Screening.x_from_V_state
    rw [hl]
    simp only
    rw [hu]
    simp only
    have := hrun _ htolv
    rw [← m1] at this
    rw [this]
    exact hs
  · have b2 := (bisectWhile_some _ _ _ _ _ _ s (by norm_num) rfl hs).2.1
    rw [b4]
    norm_num
    linarith
  · have hpow : (2 : ℝ) ^ n ≤ 2 ^ 40 := pow_le_pow_right₀ (by norm_num) hn40
    have hpos : (0 : ℝ) < 2 ^ n := by positivity
    have hw : s.2.1 - s.1 = (9 / 32 - 1 / 4) / 2 ^ n := by
      rw [eq_div_iff hpos.ne']
      exact hn
    rw [hw]
    rw [show (9 / 32 - 1 / 4 : ℝ) = 1 / 32 by norm_num]
    exact div_le_div_of_nonneg_left (by norm_num) hpos hpow

end NonlinearPCMeval

/-! ## The bracket held by `x_from_V` whenever it returns -/

namespace NonlinearPCMeval

/-- Partial correctness of `x_from_V` for any iteration budget: if the function
returns, both expansion loops have stopped at a point where their test fails
and the bisection has kept a sign-change bracket inside the expanded one. -/
theorem x_from_V_state_some (p : Screening ℝ) (h0 : 0 ≤ p.x0) (fuel : Nat) (V : ℝ)
    (s : ℝ × ℝ × ℝ) (hs : p.x_from_V_state Real.exp fuel V = some s) :
    ∃ xLo0 xHi0 : ℝ,
      scaleWhile (fun xLo => decide (p.rootFunc Real.exp xLo V > 0.)) 0.5 fuel p.x0 = some xLo0 ∧
      scaleWhile (fun xHi => decide (p.rootFunc Real.exp xHi V < 0.)) 2. fuel xLo0 = some xHi0 ∧
      0 ≤ xLo0 ∧ xLo0 ≤ xHi0 ∧
      p.rootFunc Real.exp xLo0 V ≤ 0 ∧ 0 ≤ p.rootFunc Real.exp xHi0 V ∧
      xLo0 ≤ s.1 ∧ s.1 ≤ s.2.2 ∧ s.2.2 ≤ s.2.1 ∧ s.2.1 ≤ xHi0 ∧
      s.2.2 = 0.5 * (s.2.1 + s.1) ∧
      p.rootFunc Real.exp s.1 V ≤ 0 ∧ 0 ≤ p.rootFunc Real.exp s.2.1 V ∧
      s.2.1 - s.1 ≤ 0.5 * (xHi0 + xLo0) * 1e-13 := by
  unfold Screening.x_from_V_state at hs
  cases hLo : scaleWhile (fun xLo => decide (p.rootFunc Real.exp xLo V > 0.)) 0.5 fuel p.x0 with
  | none => rw [hLo] at hs; simp at hs
  | some xLo0 =>
    rw [hLo] at hs
    simp only at hs
    cases hHi : scaleWhile (fun xHi => decide (p.rootFunc Real.exp xHi V < 0.)) 2. fuel xLo0 with
    | none => rw [hHi] at hs; simp at hs
    | some xHi0 =>
      rw [hHi] at hs
      simp only at hs
      obtain ⟨k1, -, hLoEq, hLoCond, -⟩ := scaleWhile_some _ _ _ _ _ hLo
      obtain ⟨k2, -, hHiEq, hHiCond, -⟩ := scaleWhile_some _ _ _ _ _ hHi
      have hLoNonneg : 0 ≤ xLo0 := by rw [hLoEq]; positivity
      have hle : xLo0 ≤ xHi0 := by
        rw [hHiEq]
        have : (1 : ℝ) ≤ 2. ^ k2 := one_le_pow₀ (by norm_num)
        nlinarith
      have hLoRoot : p.rootFunc Real.exp xLo0 V ≤ 0 := by
        simpa only [lit_zero, gt_iff_lt, decide_eq_false_iff_not, not_lt] using hLoCond
      have hHiRoot : 0 ≤ p.rootFunc Real.exp xHi0 V := by
        simpa only [lit_zero, decide_eq_false_iff_not, not_lt] using hHiCond
      obtain ⟨b1, b2, b3, b4, b5, b6, b7⟩ := bisectWhile_some _ _ _ _ _ _ s hle rfl hs
      refine ⟨xLo0, xHi0, rfl, hHi, hLoNonneg, hle, hLoRoot, hHiRoot, b1, ?_, ?_, b3, b4, ?_, ?_, b5⟩
      · rw [b4]; norm_num; linarith
      · rw [b4]; norm_num; linarith
      · rcases b6 with h | h
        · rw [h]; exact hLoRoot
        · simp only [lit_zero, decide_eq_true_eq] at h
          exact h.le
      · rcases b7 with h | h
        · rw [h]; exact hHiRoot
        · simpa only [lit_zero, decide_eq_false_iff_not, not_lt] using h

/-- At `V = 0` the three loops of `x_from_V` stop at once with the degenerate
bracket `[1/4, 1/4]`. -/
theorem sample_x_from_V_state_zero (l : Bool) :
    (sampleScreening ℝ l).x_from_V_state Real.exp 64 0 = some (1 / 4, 1 / 4, 1 / 4) := by
  have h0 : (sampleScreening ℝ l).rootFunc Real.exp (1 / 4) 0 = 0 := by
    rw [sample_rootFunc_quarter]; norm_num
  have hx0 : (sampleScreening ℝ l).x0 = 1 / 4 := rfl
  unfold Screening.x_from_V_state
  rw [hx0]
  have hl : scaleWhile (fun xLo => decide ((sampleScreening ℝ l).rootFunc Real.exp xLo 0 > 0.))
      0.5 64 (1 / 4) = some (1 / 4) :=
    scaleWhile_stop _ _ 63 _ (by simp only [h0]; norm_num)
  have hu : scaleWhile (fun xHi => decide ((sampleScreening ℝ l).rootFunc Real.exp xHi 0 < 0.))
      2. 64 (1 / 4) = some (1 / 4) :=
    scaleWhile_stop _ _ 63 _ (by simp only [h0]; norm_num)
  rw [hl]
  simp only
  rw [hu]
  simp only
  rw [bisectWhile_stop _ _ 63 _ _ _ (by norm_num)]
  norm_num

/-- C11: whenever `x_from_V` returns (for a packing fraction `x0 ≥ 0`), the
returned `x` is the midpoint of the final bracket `[xLo, xHi]` with
`xLo ≤ x ≤ xHi` and `rootFunc(xLo, V) ≤ 0 ≤ rootFunc(xHi, V)`; the sign change
holds for the bracket `[xLo0, xHi0]` left by the two expansion loops, and any
run of the bisection loop started from a sign-change bracket ends in one. -/
theorem x_from_V_bracket_invariant (p : Screening ℝ) (fuel : Nat) (V xLo xHi x : ℝ)
    (h0 : 0 ≤ p.x0) (hret : p.x_from_V_state Real.exp fuel V = some (xLo, xHi, x)) :
    p.x_from_V Real.exp fuel V = some x ∧
    xLo ≤ x ∧ x ≤ xHi ∧ x = 0.5 * (xHi + xLo) ∧
    p.rootFunc Real.exp xLo V ≤ 0 ∧ 0 ≤ p.rootFunc Real.exp xHi V ∧
    (∃ xLo0 xHi0 : ℝ,
      scaleWhile (fun xLo => decide (p.rootFunc Real.exp xLo V > 0.)) 0.5 fuel p.x0 = some xLo0 ∧
      scaleWhile (fun xHi => decide (p.rootFunc Real.exp xHi V < 0.)) 2. fuel xLo0 = some xHi0 ∧
      p.rootFunc Real.exp xLo0 V ≤ 0 ∧ 0 ≤ p.rootFunc Real.exp xHi0 V ∧
      xLo0 ≤ xLo ∧ xHi ≤ xHi0) ∧
    (∀ (n : Nat) (lo hi tol : ℝ) (s : ℝ × ℝ × ℝ), lo ≤ hi →
      p.rootFunc Real.exp lo V ≤ 0 → 0 ≤ p.rootFunc Real.exp hi V →
      bisectWhile (fun x => decide (p.rootFunc Real.exp x V < 0.)) tol n lo hi (0.5 * (hi + lo))
        = some s →
      s.1 ≤ s.2.2 ∧ s.2.2 ≤ s.2.1 ∧
        p.rootFunc Real.exp s.1 V ≤ 0 ∧ 0 ≤ p.rootFunc Real.exp s.2.1 V) := by
  obtain ⟨xLo0, xHi0, a1, a2, -, -, a5, a6, a7, a8, a9, a10, a11, a12, a13, -⟩ :=
    x_from_V_state_some p h0 fuel V _ hret
  refine ⟨?_, a8, a9, a11, a12, a13, ⟨xLo0, xHi0, a1, a2, a5, a6, a7, a10⟩, ?_⟩
  · unfold Screening.x_from_V
    rw [hret]
    rfl
  · intro n lo hi tol s hle hlo hhi hs
    obtain ⟨b1, b2, b3, b4, -, b6, b7⟩ := bisectWhile_some _ _ _ _ _ _ s hle rfl hs
    refine ⟨?_, ?_, ?_, ?_⟩
    · rw [b4]; norm_num; linarith
    · rw [b4]; norm_num; linarith
    · rcases b6 with h | h
      · rw [h]; exact hlo
      · simp only [lit_zero, decide_eq_true_eq] at h
        exact h.le
    · rcases b7 with h | h
      · rw [h]; exact hhi
      · simpa only [lit_zero, decide_eq_false_iff_not, not_lt] using h

/-- C11 at the sample parameters and `V = 1/10`: the expansion gives
`[1/4, 1/2]`, the bisection runs, and the returned `x` lies in a bracket of
positive width at whose ends the root function changes sign. -/
theorem x_from_V_bracket_invariant_witness :
    ∃ xLo xHi x : ℝ,
      (sampleScreening ℝ false).x_from_V_state Real.exp 64 (1 / 10) = some (xLo, xHi, x) ∧
      (sampleScreening ℝ false).x_from_V Real.exp 64 (1 / 10) = some x ∧
      xLo < xHi ∧ xLo ≤ x ∧ x ≤ xHi ∧
      (sampleScreening ℝ false).rootFunc Real.exp xLo (1 / 10) ≤ 0 ∧
      0 ≤ (sampleScreening ℝ false).rootFunc Real.exp xHi (1 / 10) := by
  obtain ⟨s, hs, -, hw⟩ := sample_x_from_V_tenth false
  obtain ⟨h1, h2, h3, -, h5, h6, -⟩ := x_from_V_bracket_invariant (sampleScreening ℝ false) 64
    (1 / 10) s.1 s.2.1 s.2.2 (by norm_num [sampleScreening]) hs
  have hpos : (0 : ℝ) < 1 / 32 / 2 ^ 40 := by positivity
  exact ⟨s.1, s.2.1, s.2.2, hs, h1, by linarith, h2, h3, h5, h6⟩

end NonlinearPCMeval
/-! ## The width of the bracket returned by `x_from_V` -/

namespace NonlinearPCMeval

/-- C12, counterexample: at the sample parameters and `V = 1/10` the function
returns `x ≤ 9/32` with a final bracket wider than `1e-13 x`. -/
theorem x_from_V_width_exceeds_relative_tolerance :
    ∃ xLo xHi x : ℝ,
      (sampleScreening ℝ false).x_from_V_state Real.exp 64 (1 / 10) = some (xLo, xHi, x) ∧
      (sampleScreening ℝ false).x_from_V Real.exp 64 (1 / 10) = some x ∧
      1e-13 * x < xHi - xLo := by
  obtain ⟨s, hs, hx, hw⟩ := sample_x_from_V_tenth false
  refine ⟨s.1, s.2.1, s.2.2, hs, ?_, ?_⟩
  · unfold Screening.x_from_V
    rw [hs]
    rfl
  · have : (1e-13 : ℝ) * s.2.2 ≤ 1e-13 * (9 / 32) := by
      apply mul_le_mul_of_nonneg_left hx (by norm_num)
    have h2 : (1e-13 : ℝ) * (9 / 32) < 1 / 32 / 2 ^ 40 := by norm_num
    linarith

/-- C12, amended: whenever `x_from_V` returns (for `x0 ≥ 0`), the width of the
final bracket is at most `1e-13` times the midpoint `x̄` of the bracket
`[xLo0, xHi0]` left by the expansion loops, the tolerance being computed once
before the bisection; `x̄ ≤ xHi0`, and the returned `x` lies in the bracket. -/
theorem x_from_V_width_bound (p : Screening ℝ) (fuel : Nat) (V xLo xHi x : ℝ)
    (h0 : 0 ≤ p.x0) (hret : p.x_from_V_state Real.exp fuel V = some (xLo, xHi, x)) :
    ∃ xLo0 xHi0 : ℝ,
      scaleWhile (fun xLo => decide (p.rootFunc Real.exp xLo V > 0.)) 0.5 fuel p.x0 = some xLo0 ∧
      scaleWhile (fun xHi => decide (p.rootFunc Real.exp xHi V < 0.)) 2. fuel xLo0 = some xHi0 ∧
      xHi - xLo ≤ 0.5 * (xHi0 + xLo0) * 1e-13 ∧
      0.5 * (xHi0 + xLo0) ≤ xHi0 ∧
      xLo0 ≤ xLo ∧ xLo ≤ x ∧ x ≤ xHi ∧ xHi ≤ xHi0 := by
  obtain ⟨xLo0, xHi0, a1, a2, -, a4, -, -, a7, a8, a9, a10, -, -, -, a14⟩ :=
    x_from_V_state_some p h0 fuel V _ hret
  refine ⟨xLo0, xHi0, a1, a2, a14, ?_, a7, a8, a9, a10⟩
  norm_num
  linarith

/-- C12, amended, at the sample parameters and `V = 1/10`: the expanded bracket
is `[1/4, 1/2]`, the bisection runs, and the returned bracket has a positive
width of at most `0.5 * (1/2 + 1/4) * 1e-13 = 3.75e-14`. -/
theorem x_from_V_width_bound_witness :
    ∃ xLo xHi x : ℝ,
      (sampleScreening ℝ false).x_from_V_state Real.exp 64 (1 / 10) = some (xLo, xHi, x) ∧
      0 < xHi - xLo ∧ xHi - xLo ≤ 0.5 * (1 / 2 + 1 / 4) * 1e-13 ∧
      1 / 4 ≤ xLo ∧ xLo ≤ x ∧ x ≤ xHi ∧ xHi ≤ 1 / 2 := by
  obtain ⟨s, hs, -, hw⟩ := sample_x_from_V_tenth false
  obtain ⟨hl, hu⟩ := sample_bracket false (V := 1 / 10) (by norm_num)
    (by rw [abs_of_pos (by norm_num)]; norm_num)
  obtain ⟨xLo0, xHi0, a1, a2, a3, -, a5, a6, a7, a8⟩ :=
    x_from_V_width_bound (sampleScreening ℝ false) 64 (1 / 10) s.1 s.2.1 s.2.2
      (by norm_num [sampleScreening]) hs
  rw [hl] at a1
  have e1 : xLo0 = 1 / 4 := (Option.some.inj a1).symm
  subst e1
  rw [hu] at a2
  have e2 : xHi0 = 1 / 2 := (Option.some.inj a2).symm
  subst e2
  have hpos : (0 : ℝ) < 1 / 32 / 2 ^ 40 := by positivity
  exact ⟨s.1, s.2.1, s.2.2, hs, by linarith, a3, a5, a6, a7, a8⟩

end NonlinearPCMeval

/-! ## The divisors of the neutrality constraint -/

namespace NonlinearPCMeval

/-- The divisors of `neutralityConstraint` are the locals `Qsum` (linear regime)
and `disc` of `Qplus`, `Qminus` (nonlinear regime). -/
theorem neutralityConstraint_divisors (p : Screening ℝ) {n : Nat}
    (w muPlus muMinus shape : Fin n → ℝ) (Qexp : ℝ) :
    (p.linear = true →
      (p.neutralityConstraint Real.exp Real.log Real.sqrt w muPlus muMinus shape Qexp).mu0
        = -(Qexp + p.NZ * integral w (fun i => shape i * (muPlus i + muMinus i)))
            / p.Qsum w shape ∧
      (p.neutralityConstraint Real.exp Real.log Real.sqrt w muPlus muMinus shape Qexp).mu0_Qexp
        = -1. / p.Qsum w shape) ∧
    (p.linear = false →
      (p.neutralityConstraint Real.exp Real.log Real.sqrt w muPlus muMinus shape Qexp).mu0
        = (Screening.mu0Nonlinear Real.log Real.sqrt (p.Qplus Real.exp w muPlus shape)
            (p.Qminus Real.exp w muMinus shape) Qexp).mu0 ∧
      (p.neutralityConstraint Real.exp Real.log Real.sqrt w muPlus muMinus shape Qexp).mu0_Qexp
        = -1. / Screening.disc Real.sqrt (p.Qplus Real.exp w muPlus shape)
            (p.Qminus Real.exp w muMinus shape) Qexp) := by
  constructor
  · intro h
    refine ⟨?_, ?_⟩ <;>
      simp only [Screening.neutralityConstraint, h, if_true, Screening.Qsum]
  · intro h
    refine ⟨?_, ?_⟩ <;>
      simp only [Screening.neutralityConstraint, h, Bool.false_eq_true, if_false,
        Screening.Qplus, Screening.Qminus]

theorem disc_gt_abs_of_mul_neg {Qplus Qminus : ℝ} (h : Qplus * Qminus < 0) (Qexp : ℝ) :
    |Qexp| < Screening.disc Real.sqrt Qplus Qminus Qexp := by
  unfold Screening.disc
  rw [← Real.sqrt_sq_eq_abs]
  apply Real.sqrt_lt_sqrt (sq_nonneg _)
  norm_num
  nlinarith

/-- C14, counterexample: for the identically-zero shape field on one grid
point the divisor `Qsum` of the linear regime is zero, and in the nonlinear
regime `Qplus`, `Qminus` and, at `Qexp = 0`, `disc`, `disc - Qexp` and
`disc + Qexp` are all zero; `mu0_Qexp` is `-1/Qsum`, respectively `-1/disc`.
With the unit shape field, an exponential that returns `0` at `-800`, as the
library function on doubles does, gives `Qplus = 0` at `muPlus = -800`. -/
theorem neutralityConstraint_zero_shape_divisors :
    (sampleScreening ℝ true).Qsum (fun _ : Fin 1 => 1) (fun _ => 0) = 0 ∧
    ((sampleScreening ℝ true).neutralityConstraint Real.exp Real.log Real.sqrt
        (fun _ : Fin 1 => 1) (fun _ => 0) (fun _ => 0) (fun _ => 0) 0).mu0_Qexp
      = -1. / (sampleScreening ℝ true).Qsum (fun _ : Fin 1 => 1) (fun _ => 0) ∧
    (sampleScreening ℝ false).Qplus Real.exp (fun _ : Fin 1 => 1) (fun _ => 0) (fun _ => 0) = 0 ∧
    (sampleScreening ℝ false).Qminus Real.exp (fun _ : Fin 1 => 1) (fun _ => 0) (fun _ => 0) = 0 ∧
    Screening.disc Real.sqrt
      ((sampleScreening ℝ false).Qplus Real.exp (fun _ : Fin 1 => 1) (fun _ => 0) (fun _ => 0))
      ((sampleScreening ℝ false).Qminus Real.exp (fun _ : Fin 1 => 1) (fun _ => 0) (fun _ => 0))
      0 = 0 ∧
    ((sampleScreening ℝ false).neutralityConstraint Real.exp Real.log Real.sqrt
        (fun _ : Fin 1 => 1) (fun _ => 0) (fun _ => 0) (fun _ => 0) 0).mu0_Qexp
      = -1. / Screening.disc Real.sqrt
          ((sampleScreening ℝ false).Qplus Real.exp (fun _ : Fin 1 => 1) (fun _ => 0)
            (fun _ => 0))
          ((sampleScreening ℝ false).Qminus Real.exp (fun _ : Fin 1 => 1) (fun _ => 0)
            (fun _ => 0)) 0 ∧
    ∀ exp : ℝ → ℝ, exp (-800) = 0 →
      (sampleScreening ℝ false).Qplus exp (fun _ : Fin 1 => 1) (fun _ => -800) (fun _ => 1)
        = 0 := by
  have hp : (sampleScreening ℝ false).Qplus Real.exp (fun _ : Fin 1 => 1) (fun _ => 0)
      (fun _ => 0) = 0 := by
    simp [Screening.Qplus, integral]
  have hm : (sampleScreening ℝ false).Qminus Real.exp (fun _ : Fin 1 => 1) (fun _ => 0)
      (fun _ => 0) = 0 := by
    simp [Screening.Qminus, integral]
  refine ⟨by simp [Screening.Qsum, integral], ?_, hp, hm, ?_, ?_, ?_⟩
  · exact ((neutralityConstraint_divisors (sampleScreening ℝ true) _ _ _ _ _).1 rfl).2
  · rw [hp, hm]
    simp [Screening.disc]
  · exact ((neutralityConstraint_divisors (sampleScreening ℝ false) _ _ _ _ _).2 rfl).2
  · intro exp hexp
    simp [Screening.Qplus, integral, hexp]

/-- C14, amended: in exact real arithmetic, for `NZ ≠ 0`, positive integration
weights and a shape field with values in `[0,1]` that is not identically zero,
every divisor of `neutralityConstraint` is non-zero: `Qsum` and `Qsum*Qsum` in the linear
regime; `Qplus`, `Qminus`, `2 Qplus`, `disc`, `disc - Qexp`, `disc + Qexp` and
the two products with `disc` in the nonlinear regime. The identically-zero
field is not guarded. -/
theorem neutralityConstraint_divisors_nonzero (p : Screening ℝ) {n : Nat}
    (w muPlus muMinus shape : Fin n → ℝ) (Qexp : ℝ)
    (hNZ : p.NZ ≠ 0) (hw : ∀ i, 0 < w i)
    (hshape : ∀ i, 0 ≤ shape i ∧ shape i ≤ 1) (hne : ∃ i, shape i ≠ 0) :
    p.Qsum w shape ≠ 0 ∧ p.Qsum w shape * p.Qsum w shape ≠ 0 ∧
    p.Qplus Real.exp w muPlus shape ≠ 0 ∧ p.Qminus Real.exp w muMinus shape ≠ 0 ∧
    2. * p.Qplus Real.exp w muPlus shape ≠ 0 ∧
    Screening.disc Real.sqrt (p.Qplus Real.exp w muPlus shape)
      (p.Qminus Real.exp w muMinus shape) Qexp ≠ 0 ∧
    Screening.disc Real.sqrt (p.Qplus Real.exp w muPlus shape)
      (p.Qminus Real.exp w muMinus shape) Qexp - Qexp ≠ 0 ∧
    Screening.disc Real.sqrt (p.Qplus Real.exp w muPlus shape)
      (p.Qminus Real.exp w muMinus shape) Qexp + Qexp ≠ 0 ∧
    Screening.disc Real.sqrt (p.Qplus Real.exp w muPlus shape)
      (p.Qminus Real.exp w muMinus shape) Qexp
      * (Screening.disc Real.sqrt (p.Qplus Real.exp w muPlus shape)
      (p.Qminus Real.exp w muMinus shape) Qexp - Qexp) ≠ 0 ∧
    Screening.disc Real.sqrt (p.Qplus Real.exp w muPlus shape)
      (p.Qminus Real.exp w muMinus shape) Qexp
      * (Screening.disc Real.sqrt (p.Qplus Real.exp w muPlus shape)
      (p.Qminus Real.exp w muMinus shape) Qexp + Qexp) ≠ 0 := by
  have hI : 0 < integral w shape := integral_pos w shape hw (fun i => (hshape i).1) hne
  have hIp : 0 < integral w (fun i => shape i * Real.exp (muPlus i)) := by
    obtain ⟨j, hj⟩ := hne
    exact integral_pos w _ hw (fun i => mul_nonneg (hshape i).1 (Real.exp_pos _).le)
      ⟨j, mul_ne_zero hj (Real.exp_pos _).ne'⟩
  have hIm : 0 < integral w (fun i => shape i * Real.exp (-muMinus i)) := by
    obtain ⟨j, hj⟩ := hne
    exact integral_pos w _ hw (fun i => mul_nonneg (hshape i).1 (Real.exp_pos _).le)
      ⟨j, mul_ne_zero hj (Real.exp_pos _).ne'⟩
  have hsum : p.Qsum w shape ≠ 0 := by
    unfold Screening.Qsum
    exact mul_ne_zero (mul_ne_zero hNZ (by norm_num)) hI.ne'
  have hplus : p.Qplus Real.exp w muPlus shape ≠ 0 := by
    unfold Screening.Qplus
    exact mul_ne_zero hNZ hIp.ne'
  have hminus : p.Qminus Real.exp w muMinus shape ≠ 0 := by
    unfold Screening.Qminus
    exact mul_ne_zero (neg_ne_zero.mpr hNZ) hIm.ne'
  have hprod : p.Qplus Real.exp w muPlus shape * p.Qminus Real.exp w muMinus shape < 0 := by
    unfold Screening.Qplus Screening.Qminus
    have hsq : 0 < p.NZ * p.NZ := mul_self_pos.mpr hNZ
    have := mul_pos hsq (mul_pos hIp hIm)
    nlinarith
  have habs := disc_gt_abs_of_mul_neg hprod Qexp
  have h1 := neg_abs_le Qexp
  have h2 := le_abs_self Qexp
  have hd : Screening.disc Real.sqrt (p.Qplus Real.exp w muPlus shape)
      (p.Qminus Real.exp w muMinus shape) Qexp ≠ 0 := by
    have := abs_nonneg Qexp
    intro h0
    linarith
  have hdm : Screening.disc Real.sqrt (p.Qplus Real.exp w muPlus shape)
      (p.Qminus Real.exp w muMinus shape) Qexp - Qexp ≠ 0 := by
    intro h0
    linarith
  have hdp : Screening.disc Real.sqrt (p.Qplus Real.exp w muPlus shape)
      (p.Qminus Real.exp w muMinus shape) Qexp + Qexp ≠ 0 := by
    intro h0
    linarith
  exact ⟨hsum, mul_ne_zero hsum hsum, hplus, hminus, mul_ne_zero (by norm_num) hplus, hd, hdm,
    hdp, mul_ne_zero hd hdm, mul_ne_zero hd hdp⟩

/-- C14, amended, on one grid point with unit weight and unit shape. -/
theorem neutralityConstraint_divisors_nonzero_witness :
    (sampleScreening ℝ true).Qsum (fun _ : Fin 1 => 1) (fun _ => 1) ≠ 0 ∧
    (sampleScreening ℝ false).Qplus Real.exp (fun _ : Fin 1 => 1) (fun _ => 0) (fun _ => 1) ≠ 0 :=
  ⟨(neutralityConstraint_divisors_nonzero (sampleScreening ℝ true) (fun _ : Fin 1 => 1)
      (fun _ => 0) (fun _ => 0) (fun _ => 1) 0 (by norm_num [sampleScreening])
      (fun _ => by norm_num) (fun _ => by norm_num) ⟨0, by norm_num⟩).1,
    (neutralityConstraint_divisors_nonzero (sampleScreening ℝ false) (fun _ : Fin 1 => 1)
      (fun _ => 0) (fun _ => 0) (fun _ => 1) 0 (by norm_num [sampleScreening])
      (fun _ => by norm_num) (fun _ => by norm_num) ⟨0, by norm_num⟩).2.2.1⟩

end NonlinearPCMeval

/-! ## The dielectric kernel `apply_calc` -/

namespace NonlinearPCMeval

section ApplyCalc

open Filter Topology

/-- The two outputs of the scalar part of `apply_calc` in closed form. -/
theorem apply_energy_eq (d : Dielectric ℝ) (L Lderiv : ℝ → ℝ) (s_i E : ℝ) :
    d.apply_energy Real.pi L Lderiv s_i E
      = (1 / (4 * Real.pi) * (1 / 2) * (E * E)
          + s_i * (L (d.pByT * E * (1 / (1 + d.pByT * E))) * (d.pByT * E * (d.pByT * E))),
        1 / (4 * Real.pi)
          + s_i * ((Lderiv (d.pByT * E * (1 / (1 + d.pByT * E)))
              * (d.pByT * E * (1 / (1 + d.pByT * E))) * (1 / (1 + d.pByT * E))
            + 2 * L (d.pByT * E * (1 / (1 + d.pByT * E)))) * (d.pByT * d.pByT))) := by
  simp only [Dielectric.apply_energy]
  norm_num

/-- The energy density of `apply_calc` as a function of the field magnitude has
the derivative `A_E_by_E * E`. -/
theorem apply_energy_hasDerivAt (d : Dielectric ℝ) (L Lderiv : ℝ → ℝ) (s_i E : ℝ)
    (hL : ∀ y, HasDerivAt L (Lderiv y) y) (h1 : 1 + d.pByT * E ≠ 0) :
    HasDerivAt (fun E => (d.apply_energy Real.pi L Lderiv s_i E).1)
      ((d.apply_energy Real.pi L Lderiv s_i E).2 * E) E := by
  simp only [apply_energy_eq]
  have hx : HasDerivAt (fun E : ℝ => d.pByT * E) (d.pByT * 1) E :=
    (hasDerivAt_id' E).const_mul d.pByT
  have hinv : HasDerivAt (fun E : ℝ => 1 / (1 + d.pByT * E))
      ((0 * (1 + d.pByT * E) - 1 * (d.pByT * 1)) / (1 + d.pByT * E) ^ 2) E :=
    (hasDerivAt_const E (1 : ℝ)).div (hx.const_add 1) h1
  have hxm := hx.mul hinv
  have hLc := (hL (d.pByT * E * (1 / (1 + d.pByT * E)))).comp E hxm
  have hen := (hLc.mul (hx.mul hx)).const_mul s_i
  have hfield := ((hasDerivAt_id' E).mul (hasDerivAt_id' E)).const_mul (1 / (4 * Real.pi) * (1 / 2))
  have htot := hfield.add hen
  convert htot using 1
  simp only [Function.comp]
  field_simp
  ring

/-- A function with derivative zero at the origin keeps it when composed with
the absolute value. -/
theorem hasDerivAt_comp_abs_zero (g : ℝ → ℝ) (hg : HasDerivAt g 0 0) :
    HasDerivAt (fun t => g |t|) 0 0 := by
  rw [hasDerivAt_iff_isLittleO_nhds_zero] at hg ⊢
  simp only [zero_add, smul_zero, sub_zero, abs_zero] at hg ⊢
  have habs : Tendsto (fun t : ℝ => |t|) (𝓝 0) (𝓝 0) := by
    have := (continuous_abs : Continuous (fun t : ℝ => |t|)).tendsto 0
    rwa [abs_zero] at this
  have := hg.comp_tendsto habs
  exact Asymptotics.isLittleO_abs_right.mp this

/-- Chain rule through the length of the field vector: if `g` has derivative
`coef * E` at the magnitude `E = sqrt(a*a + r)`, then as a function of the one
component `a` it has derivative `coef * a`; this includes the zero vector. -/
theorem hasDerivAt_through_length (g : ℝ → ℝ) (coef r a : ℝ) (hr : 0 ≤ r)
    (hg : HasDerivAt g (coef * Real.sqrt (a * a + r)) (Real.sqrt (a * a + r))) :
    HasDerivAt (fun t => g (Real.sqrt (t * t + r))) (coef * a) a := by
  by_cases hq : a * a + r = 0
  · have ha : a = 0 := by
      have := mul_self_nonneg a
      have h0 : a * a = 0 := by linarith
      exact mul_self_eq_zero.mp h0
    have hr0 : r = 0 := by rw [ha] at hq; linarith
    subst ha
    subst hr0
    simp only [mul_zero, add_zero, Real.sqrt_zero] at hg ⊢
    have := hasDerivAt_comp_abs_zero g hg
    simpa only [Real.sqrt_mul_self_eq_abs] using this
  · have hq1 : HasDerivAt (fun t : ℝ => t * t + r) (1 * a + a * 1) a :=
      ((hasDerivAt_id' a).mul (hasDerivAt_id' a)).add_const r
    have hsq := hq1.sqrt hq
    have hcomp := hg.comp a hsq
    have hE : Real.sqrt (a * a + r) ≠ 0 := by
      rw [Real.sqrt_ne_zero (by nlinarith [mul_self_nonneg a])]
      exact hq
    convert hcomp using 1
    field_simp
    ring

/-- The entries written by `apply_calc` at the grid point `i`, in terms of the
scalar part evaluated at the length of the input vector. -/
theorem apply_calc_entries (d : Dielectric ℝ) (L Lderiv : ℝ → ℝ) (i : Nat) (s : Nat → ℝ)
    (Dphi : vector3 (Nat → ℝ)) (A : Nat → ℝ) :
    (d.apply_calc Real.sqrt Real.pi i L Lderiv s Dphi A).2 i
      = (d.apply_energy Real.pi L Lderiv (s i)
          (Real.sqrt (Dphi.x i * Dphi.x i + Dphi.y i * Dphi.y i + Dphi.z i * Dphi.z i))).1 ∧
    (d.apply_calc Real.sqrt Real.pi i L Lderiv s Dphi A).1.x i
      = (d.apply_energy Real.pi L Lderiv (s i)
          (Real.sqrt (Dphi.x i * Dphi.x i + Dphi.y i * Dphi.y i + Dphi.z i * Dphi.z i))).2
        * Dphi.x i ∧
    (d.apply_calc Real.sqrt Real.pi i L Lderiv s Dphi A).1.y i
      = (d.apply_energy Real.pi L Lderiv (s i)
          (Real.sqrt (Dphi.x i * Dphi.x i + Dphi.y i * Dphi.y i + Dphi.z i * Dphi.z i))).2
        * Dphi.y i ∧
    (d.apply_calc Real.sqrt Real.pi i L Lderiv s Dphi A).1.z i
      = (d.apply_energy Real.pi L Lderiv (s i)
          (Real.sqrt (Dphi.x i * Dphi.x i + Dphi.y i * Dphi.y i + Dphi.z i * Dphi.z i))).2
        * Dphi.z i := by
  simp only [Dielectric.apply_calc, storeVector, loadVector, vector3.length,
    vector3.length_squared, Function.update_same, and_self]

/-- C15: for a lookup function `L` with derivative `L'` and `pByT > 0`, the
energy density written by `apply_calc` is `A(E) = E^2/(8 pi) + s L(x/(1+x)) x^2`
with `x = pByT E` at the length `E` of the input vector; for every `E ≥ 0` the
coefficient `A_E_by_E` satisfies `dA/dE = A_E_by_E * E`; the vector written back
is `A_E_by_E` times the input vector, and each of its components is the partial
derivative of `A[i]` with respect to the same component of the input vector. -/
theorem apply_calc_exact_derivative (d : Dielectric ℝ) (L Lderiv : ℝ → ℝ) (i : Nat)
    (s : Nat → ℝ) (Dphi : vector3 (Nat → ℝ)) (A : Nat → ℝ)
    (hL : ∀ y, HasDerivAt L (Lderiv y) y) (hp : 0 < d.pByT) :
    (d.apply_calc Real.sqrt Real.pi i L Lderiv s Dphi A).2 i
      = (d.apply_energy Real.pi L Lderiv (s i) ((loadVector Dphi i).length Real.sqrt)).1 ∧
    (∀ E : ℝ, 0 ≤ E →
      (d.apply_energy Real.pi L Lderiv (s i) E).1
        = E ^ 2 / (8 * Real.pi)
          + s i * L (d.pByT * E / (1 + d.pByT * E)) * (d.pByT * E) ^ 2 ∧
      HasDerivAt (fun E => (d.apply_energy Real.pi L Lderiv (s i) E).1)
        ((d.apply_energy Real.pi L Lderiv (s i) E).2 * E) E) ∧
    ((d.apply_calc Real.sqrt Real.pi i L Lderiv s Dphi A).1.x i
        = (d.apply_energy Real.pi L Lderiv (s i) ((loadVector Dphi i).length Real.sqrt)).2
          * Dphi.x i ∧
      (d.apply_calc Real.sqrt Real.pi i L Lderiv s Dphi A).1.y i
        = (d.apply_energy Real.pi L Lderiv (s i) ((loadVector Dphi i).length Real.sqrt)).2
          * Dphi.y i ∧
      (d.apply_calc Real.sqrt Real.pi i L Lderiv s Dphi A).1.z i
        = (d.apply_energy Real.pi L Lderiv (s i) ((loadVector Dphi i).length Real.sqrt)).2
          * Dphi.z i) ∧
    HasDerivAt
      (fun t => (d.apply_calc Real.sqrt Real.pi i L Lderiv s
        { x := Function.update Dphi.x i t, y := Dphi.y, z := Dphi.z } A).2 i)
      ((d.apply_calc Real.sqrt Real.pi i L Lderiv s Dphi A).1.x i) (Dphi.x i) ∧
    HasDerivAt
      (fun t => (d.apply_calc Real.sqrt Real.pi i L Lderiv s
        { x := Dphi.x, y := Function.update Dphi.y i t, z := Dphi.z } A).2 i)
      ((d.apply_calc Real.sqrt Real.pi i L Lderiv s Dphi A).1.y i) (Dphi.y i) ∧
    HasDerivAt
      (fun t => (d.apply_calc Real.sqrt Real.pi i L Lderiv s
        { x := Dphi.x, y := Dphi.y, z := Function.update Dphi.z i t } A).2 i)
      ((d.apply_calc Real.sqrt Real.pi i L Lderiv s Dphi A).1.z i) (Dphi.z i) := by
  obtain ⟨e0, e1, e2, e3⟩ := apply_calc_entries d L Lderiv i s Dphi A
  have hscalar : ∀ E : ℝ, 0 ≤ E →
      HasDerivAt (fun E => (d.apply_energy Real.pi L Lderiv (s i) E).1)
        ((d.apply_energy Real.pi L Lderiv (s i) E).2 * E) E := by
    intro E hE
    apply apply_energy_hasDerivAt d L Lderiv (s i) E hL
    have := mul_nonneg hp.le hE
    linarith
  have hcomp : ∀ r a : ℝ, 0 ≤ r →
      HasDerivAt (fun t => (d.apply_energy Real.pi L Lderiv (s i) (Real.sqrt (t * t + r))).1)
        ((d.apply_energy Real.pi L Lderiv (s i) (Real.sqrt (a * a + r))).2 * a) a := by
    intro r a hr
    exact hasDerivAt_through_length
      (fun E => (d.apply_energy Real.pi L Lderiv (s i) E).1) _ r a hr
      (hscalar _ (Real.sqrt_nonneg _))
  refine ⟨e0, fun E hE => ⟨?_, hscalar E hE⟩, ⟨e1, e2, e3⟩, ?_, ?_, ?_⟩
  · rw [apply_energy_eq]
    simp only
    have h1 : 1 + d.pByT * E ≠ 0 := by
      have := mul_nonneg hp.le hE
      linarith
    rw [show d.pByT * E * (1 / (1 + d.pByT * E)) = d.pByT * E / (1 + d.pByT * E) by ring]
    ring
  · rw [e1]
    have hfun : (fun t => (d.apply_calc Real.sqrt Real.pi i L Lderiv s
        { x := Function.update Dphi.x i t, y := Dphi.y, z := Dphi.z } A).2 i)
        = fun t => (d.apply_energy Real.pi L Lderiv (s i)
          (Real.sqrt (t * t + (Dphi.y i * Dphi.y i + Dphi.z i * Dphi.z i)))).1 := by
      funext t
      rw [(apply_calc_entries d L Lderiv i s _ A).1]
      simp only [Function.update_same, add_assoc]
    rw [hfun, add_assoc]
    exact hcomp _ _ (add_nonneg (mul_self_nonneg _) (mul_self_nonneg _))
  · rw [e2]
    have hfun : (fun t => (d.apply_calc Real.sqrt Real.pi i L Lderiv s
        { x := Dphi.x, y := Function.update Dphi.y i t, z := Dphi.z } A).2 i)
        = fun t => (d.apply_energy Real.pi L Lderiv (s i)
          (Real.sqrt (t * t + (Dphi.x i * Dphi.x i + Dphi.z i * Dphi.z i)))).1 := by
      funext t
      rw [(apply_calc_entries d L Lderiv i s _ A).1]
      simp only [Function.update_same]
      rw [show Dphi.x i * Dphi.x i + t * t + Dphi.z i * Dphi.z i
        = t * t + (Dphi.x i * Dphi.x i + Dphi.z i * Dphi.z i) by ring]
    rw [hfun, show Dphi.x i * Dphi.x i + Dphi.y i * Dphi.y i + Dphi.z i * Dphi.z i
      = Dphi.y i * Dphi.y i + (Dphi.x i * Dphi.x i + Dphi.z i * Dphi.z i) by ring]
    exact hcomp _ _ (add_nonneg (mul_self_nonneg _) (mul_self_nonneg _))
  · rw [e3]
    have hfun : (fun t => (d.apply_calc Real.sqrt Real.pi i L Lderiv s
        { x := Dphi.x, y := Dphi.y, z := Function.update Dphi.z i t } A).2 i)
        = fun t => (d.apply_energy Real.pi L Lderiv (s i)
          (Real.sqrt (t * t + (Dphi.x i * Dphi.x i + Dphi.y i * Dphi.y i)))).1 := by
      funext t
      rw [(apply_calc_entries d L Lderiv i s _ A).1]
      simp only [Function.update_same]
      rw [show Dphi.x i * Dphi.x i + Dphi.y i * Dphi.y i + t * t
        = t * t + (Dphi.x i * Dphi.x i + Dphi.y i * Dphi.y i) by ring]
    rw [hfun, show Dphi.x i * Dphi.x i + Dphi.y i * Dphi.y i + Dphi.z i * Dphi.z i
      = Dphi.z i * Dphi.z i + (Dphi.x i * Dphi.x i + Dphi.y i * Dphi.y i) by ring]
    exact hcomp _ _ (add_nonneg (mul_self_nonneg _) (mul_self_nonneg _))

/-- C15 with the lookup function `L(y) = y`, unit parameters and the field
magnitude `E = 1`. -/
theorem apply_calc_exact_derivative_witness :
    HasDerivAt
      (fun E => ((sampleDielectric ℝ false).apply_energy Real.pi (fun y => y) (fun _ => 1) 1 E).1)
      (((sampleDielectric ℝ false).apply_energy Real.pi (fun y => y) (fun _ => 1) 1 1).2 * 1) 1 :=
  ((apply_calc_exact_derivative (sampleDielectric ℝ false) (fun y => y) (fun _ => 1) 0
    (fun _ => 1) { x := fun _ => 1, y := fun _ => 0, z := fun _ => 0 } (fun _ => 0)
    (fun y => hasDerivAt_id' y) (by norm_num [sampleDielectric])).2.1 1 (by norm_num)).2

end ApplyCalc

end NonlinearPCMeval

/-! ## Accumulation and frame of the ionic grid-point kernels -/

namespace NonlinearPCMeval

/-- An accumulating store through an optional pointer: a null pointer stays
null, and otherwise the entry at `i` grows by `v` and no other entry changes. -/
theorem accumulate_optional (o : Option (Nat → ℝ)) (i : Nat) (v : ℝ) :
    (o = none → o.map (fun a => Function.update a i (a i + v)) = none) ∧
    (∀ a, o = some a → ∃ b, o.map (fun a => Function.update a i (a i + v)) = some b ∧
      b i = a i + v ∧ ∀ j, j ≠ i → b j = a j) := by
  constructor
  · intro h
    rw [h]
    rfl
  · intro a h
    rw [h]
    exact ⟨_, rfl, Function.update_same _ _ _, fun j hj => Function.update_noteq hj _ _⟩

/-- C16: `freeEnergy_calc(i, ...)` adds `s[i]*F_muPlus`, `s[i]*F_muMinus` and `F`
to the entries at `i` of `A_muPlus`, `A_muMinus`, `A_s` (a null pointer is
skipped), and `convertDerivative_calc(i, ...)` adds `s[i]*Rho_muPlus*A_rho[i]`,
`s[i]*Rho_muMinus*A_rho[i]` and `Rho*A_rho[i]`; no entry `j ≠ i` of any array
changes, and the result is the same for inputs that agree at index `i`. -/
theorem calc_kernels_accumulate_at_point (p : Screening ℝ) (i : Nat) (mu0 : ℝ)
    (muPlus muMinus s A_rho : Nat → ℝ) (out : FreeEnergyArrays ℝ)
    (acc : ConvertDerivativeArrays ℝ) :
    -- freeEnergy_calc: the accumulated derivative outputs
    ((out.A_muPlus = none →
        (p.freeEnergy_calc Real.exp i mu0 muPlus muMinus s out).A_muPlus = none) ∧
      (∀ a, out.A_muPlus = some a →
        ∃ b, (p.freeEnergy_calc Real.exp i mu0 muPlus muMinus s out).A_muPlus = some b ∧
          b i = a i + s i * (p.compute Real.exp (muPlus i + mu0) (muMinus i + mu0)).F_muPlus ∧
          ∀ j, j ≠ i → b j = a j)) ∧
    ((out.A_muMinus = none →
        (p.freeEnergy_calc Real.exp i mu0 muPlus muMinus s out).A_muMinus = none) ∧
      (∀ a, out.A_muMinus = some a →
        ∃ b, (p.freeEnergy_calc Real.exp i mu0 muPlus muMinus s out).A_muMinus = some b ∧
          b i = a i + s i * (p.compute Real.exp (muPlus i + mu0) (muMinus i + mu0)).F_muMinus ∧
          ∀ j, j ≠ i → b j = a j)) ∧
    ((out.A_s = none →
        (p.freeEnergy_calc Real.exp i mu0 muPlus muMinus s out).A_s = none) ∧
      (∀ a, out.A_s = some a →
        ∃ b, (p.freeEnergy_calc Real.exp i mu0 muPlus muMinus s out).A_s = some b ∧
          b i = a i + (p.compute Real.exp (muPlus i + mu0) (muMinus i + mu0)).F ∧
          ∀ j, j ≠ i → b j = a j)) ∧
    -- freeEnergy_calc: the stored values and their frame
    (p.freeEnergy_calc Real.exp i mu0 muPlus muMinus s out).rho i
      = s i * (p.compute Real.exp (muPlus i + mu0) (muMinus i + mu0)).Rho ∧
    (p.freeEnergy_calc Real.exp i mu0 muPlus muMinus s out).A i
      = s i * (p.compute Real.exp (muPlus i + mu0) (muMinus i + mu0)).F ∧
    (∀ j, j ≠ i →
      (p.freeEnergy_calc Real.exp i mu0 muPlus muMinus s out).rho j = out.rho j ∧
      (p.freeEnergy_calc Real.exp i mu0 muPlus muMinus s out).A j = out.A j) ∧
    -- convertDerivative_calc: accumulation and frame
    (p.convertDerivative_calc Real.exp i mu0 muPlus muMinus s A_rho acc).A_muPlus i
      = acc.A_muPlus i
        + s i * (p.compute Real.exp (muPlus i + mu0) (muMinus i + mu0)).Rho_muPlus * A_rho i ∧
    (p.convertDerivative_calc Real.exp i mu0 muPlus muMinus s A_rho acc).A_muMinus i
      = acc.A_muMinus i
        + s i * (p.compute Real.exp (muPlus i + mu0) (muMinus i + mu0)).Rho_muMinus * A_rho i ∧
    ((acc.A_s = none →
        (p.convertDerivative_calc Real.exp i mu0 muPlus muMinus s A_rho acc).A_s = none) ∧
      (∀ a, acc.A_s = some a →
        ∃ b, (p.convertDerivative_calc Real.exp i mu0 muPlus muMinus s A_rho acc).A_s = some b ∧
          b i = a i + (p.compute Real.exp (muPlus i + mu0) (muMinus i + mu0)).Rho * A_rho i ∧
          ∀ j, j ≠ i → b j = a j)) ∧
    (∀ j, j ≠ i →
      (p.convertDerivative_calc Real.exp i mu0 muPlus muMinus s A_rho acc).A_muPlus j
        = acc.A_muPlus j ∧
      (p.convertDerivative_calc Real.exp i mu0 muPlus muMinus s A_rho acc).A_muMinus j
        = acc.A_muMinus j) ∧
    -- both kernels read their inputs at index i only
    (∀ muPlus2 muMinus2 s2 A_rho2 : Nat → ℝ, muPlus2 i = muPlus i → muMinus2 i = muMinus i →
      s2 i = s i → A_rho2 i = A_rho i →
      p.freeEnergy_calc Real.exp i mu0 muPlus2 muMinus2 s2 out
        = p.freeEnergy_calc Real.exp i mu0 muPlus muMinus s out ∧
      p.convertDerivative_calc Real.exp i mu0 muPlus2 muMinus2 s2 A_rho2 acc
        = p.convertDerivative_calc Real.exp i mu0 muPlus muMinus s A_rho acc) := by
  refine ⟨accumulate_optional _ _ _, accumulate_optional _ _ _, accumulate_optional _ _ _,
    Function.update_same _ _ _, Function.update_same _ _ _,
    fun j hj => ⟨Function.update_noteq hj _ _, Function.update_noteq hj _ _⟩,
    Function.update_same _ _ _, Function.update_same _ _ _, accumulate_optional _ _ _,
    fun j hj => ⟨Function.update_noteq hj _ _, Function.update_noteq hj _ _⟩, ?_⟩
  intro muPlus2 muMinus2 s2 A_rho2 h1 h2 h3 h4
  unfold Screening.freeEnergy_calc Screening.convertDerivative_calc
  simp only [h1, h2, h3, h4, and_self]

end NonlinearPCMeval

/-! ## The ionic kernel at the zero state -/

namespace NonlinearPCMeval

/-- C17, counterexample: for `x0plus = x0minus = 3/8`, `x0 = 3/4` (nonlinear
regime) the bulk packing fraction is remapped by `fHS`, and `compute` at
`muPlus = muMinus = 0` returns `F = 8/3`, `F_muPlus = -8`, `F_muMinus = 8`. -/
theorem compute_zero_state_dense :
    (0 < (denseScreening ℝ false).x0plus ∧ 0 < (denseScreening ℝ false).x0minus ∧
      (denseScreening ℝ false).x0
        = (denseScreening ℝ false).x0plus + (denseScreening ℝ false).x0minus ∧
      0 < (denseScreening ℝ false).x0 ∧ (denseScreening ℝ false).x0 < 1) ∧
    ((denseScreening ℝ false).compute Real.exp 0 0).F = 8 / 3 ∧
    ((denseScreening ℝ false).compute Real.exp 0 0).F_muPlus = -8 ∧
    ((denseScreening ℝ false).compute Real.exp 0 0).F_muMinus = 8 ∧
    ((denseScreening ℝ false).compute Real.exp 0 0).F ≠ 0 := by
  have hx : (denseScreening ℝ false).x0plus * Real.exp 0
      + (denseScreening ℝ false).x0minus * Real.exp (-0) = 3 / 4 := by
    norm_num [denseScreening]
  have hf : (denseScreening ℝ false).fHS (3 / 4) = (8 / 3, -64 / 3) := by
    rw [fHS_of_gt _ (by norm_num)]
    norm_num [denseScreening]
  have hF : ((denseScreening ℝ false).compute Real.exp 0 0).F = 8 / 3 := by
    simp only [Screening.compute, hx, hf]
    norm_num [denseScreening]
  refine ⟨by norm_num [denseScreening], hF, ?_, ?_, by rw [hF]; norm_num⟩
  · simp only [Screening.compute, hx, hf]
    norm_num [denseScreening]
  · simp only [Screening.compute, hx, hf]
    norm_num [denseScreening]

/-- C17, amended: in the linear regime for every parameter set, and in the
nonlinear regime whenever `0 < x0 = x0plus + x0minus ≤ 1/2`, `compute` at
`muPlus = muMinus = 0` returns `F = 0`, `F_muPlus = 0`, `F_muMinus = 0` and
`Rho = 0`. -/
theorem compute_zero_state (p : Screening ℝ)
    (h : p.linear = true ∨ (0 < p.x0 ∧ p.x0 = p.x0plus + p.x0minus ∧ p.x0 ≤ 1 / 2)) :
    (p.compute Real.exp 0 0).F = 0 ∧ (p.compute Real.exp 0 0).F_muPlus = 0 ∧
    (p.compute Real.exp 0 0).F_muMinus = 0 ∧ (p.compute Real.exp 0 0).Rho = 0 := by
  by_cases hlin : p.linear = true
  · simp only [Screening.compute, hlin, if_true]
    norm_num
  · rcases h with h | ⟨_, hx0, hhalf⟩
    · exact absurd h hlin
    · have hx : p.x0plus * Real.exp 0 + p.x0minus * Real.exp (-0) = p.x0 := by
        rw [hx0]
        norm_num
      have hf : p.fHS p.x0 = (0, 0) := by
        rw [fHS_of_le _ hhalf]
        norm_num
      simp only [Screening.compute, hlin, if_false, hx, hf]
      norm_num

/-- C17, amended, at the sample parameters (`x0 = 1/4`) in the nonlinear
regime. -/
theorem compute_zero_state_witness :
    ((sampleScreening ℝ false).compute Real.exp 0 0).F = 0 ∧
    ((sampleScreening ℝ false).compute Real.exp 0 0).F_muPlus = 0 ∧
    ((sampleScreening ℝ false).compute Real.exp 0 0).F_muMinus = 0 ∧
    ((sampleScreening ℝ false).compute Real.exp 0 0).Rho = 0 :=
  compute_zero_state (sampleScreening ℝ false)
    (Or.inr (by norm_num [sampleScreening]))

end NonlinearPCMeval

/-! ## The SCCS shape function and its gradient -/

namespace ShapeFunctionSCCS

section SCCS

open Filter Topology

/-- Between the two thresholds `compute_calc` evaluates the interior formula. -/
theorem compute_value_interior (rhoMin rhoMax epsBulk rho : ℝ) (hlo : rhoMin < rho)
    (hhi : rho < rhoMax) :
    compute_value Real.log Real.sin Real.rpow Real.pi rhoMin rhoMax epsBulk rho
      = (epsBulk ^ (Real.log (rhoMax / rho) / Real.log (rhoMax / rhoMin)
          - Real.sin (2 * Real.pi * (Real.log (rhoMax / rho) / Real.log (rhoMax / rhoMin)))
            / (2 * Real.pi)) - 1) / (epsBulk - 1) := by
  unfold compute_value
  rw [if_neg (not_le.mpr hhi), if_neg (not_le.mpr hlo)]
  simp only [Real.rpow_eq_pow]
  norm_num

/-- The interior formula of the SCCS shape function is differentiable at every
positive density, with the derivative assembled by `propagateGradient_calc`
from `s_t`, `t_f` and `f_rho`. -/
theorem interior_hasDerivAt (rhoMin rhoMax epsBulk rho : ℝ) (hmax : 0 < rhoMax)
    (he : 0 < epsBulk) (hr : 0 < rho) :
    HasDerivAt
      (fun r => (epsBulk ^ (Real.log (rhoMax / r) / Real.log (rhoMax / rhoMin)
          - Real.sin (2 * Real.pi * (Real.log (rhoMax / r) / Real.log (rhoMax / rhoMin)))
            / (2 * Real.pi)) - 1) / (epsBulk - 1))
      (Real.log epsBulk * epsBulk ^ (Real.log (rhoMax / rho) / Real.log (rhoMax / rhoMin)
          - Real.sin (2 * Real.pi * (Real.log (rhoMax / rho) / Real.log (rhoMax / rhoMin)))
            / (2 * Real.pi)) / (epsBulk - 1)
        * (1 - Real.cos (2 * Real.pi * (Real.log (rhoMax / rho) / Real.log (rhoMax / rhoMin))))
        * (-1 / (rho * Real.log (rhoMax / rhoMin)))) rho := by
  have hpi : Real.pi ≠ 0 := Real.pi_ne_zero
  -- f = log(rhoMax/rho)/logDen
  have hdiv : HasDerivAt (fun r : ℝ => rhoMax / r) ((0 * rho - rhoMax * 1) / rho ^ 2) rho :=
    (hasDerivAt_const rho rhoMax).div (hasDerivAt_id' rho) hr.ne'
  have hlog := hdiv.log (div_pos hmax hr).ne'
  have hf : HasDerivAt (fun r : ℝ => Real.log (rhoMax / r) / Real.log (rhoMax / rhoMin))
      (-1 / (rho * Real.log (rhoMax / rhoMin))) rho := by
    have := hlog.div_const (Real.log (rhoMax / rhoMin))
    convert this using 1
    rw [← div_div]
    congr 1
    field_simp
    ring
  -- t = f - sin(2 pi f)/(2 pi)
  have ht := hf.sub (((hf.const_mul (2 * Real.pi)).sin).div_const (2 * Real.pi))
  -- shape = (epsBulk^t - 1)/(epsBulk - 1)
  have hpow := ((Real.hasStrictDerivAt_const_rpow he _).hasDerivAt.comp rho ht)
  have hs := (hpow.sub_const 1).div_const (epsBulk - 1)
  have hc : ∀ C D : ℝ, C * (2 * Real.pi * D) / (2 * Real.pi) = C * D := by
    intro C D
    field_simp
    ring
  convert hs using 1
  rw [hc]
  ring

/-- C19: for `0 < rhoMin < rhoMax`, `epsBulk > 1` and a density strictly
between the thresholds, `propagateGradient_calc` adds to `grad_nCavity[i]` the
product of `grad_shape[i]` and the derivative at `nCavity[i]` of the shape
function evaluated by `compute_calc`; at or beyond a threshold it leaves
`grad_nCavity` unchanged, and it never touches an entry `j ≠ i`. -/
theorem propagateGradient_calc_exact_derivative (i : Nat)
    (nCavity grad_shape grad_nCavity : Nat → ℝ) (rhoMin rhoMax epsBulk : ℝ)
    (h0 : 0 < rhoMin) (h1 : rhoMin < rhoMax) (he : 1 < epsBulk) :
    (rhoMin < nCavity i → nCavity i < rhoMax →
      ∃ D : ℝ,
        HasDerivAt (compute_value Real.log Real.sin Real.rpow Real.pi rhoMin rhoMax epsBulk) D
          (nCavity i) ∧
        propagateGradient_calc Real.log Real.sin Real.cos Real.rpow Real.pi i nCavity grad_shape
          grad_nCavity rhoMin rhoMax epsBulk i = grad_nCavity i + grad_shape i * D) ∧
    ((nCavity i ≥ rhoMax ∨ nCavity i ≤ rhoMin) →
      propagateGradient_calc Real.log Real.sin Real.cos Real.rpow Real.pi i nCavity grad_shape
        grad_nCavity rhoMin rhoMax epsBulk = grad_nCavity) ∧
    (∀ j, j ≠ i →
      propagateGradient_calc Real.log Real.sin Real.cos Real.rpow Real.pi i nCavity grad_shape
        grad_nCavity rhoMin rhoMax epsBulk j = grad_nCavity j) := by
  have hmax : 0 < rhoMax := h0.trans h1
  have he0 : 0 < epsBulk := by linarith
  refine ⟨?_, ?_, ?_⟩
  · intro hlo hhi
    have hr : 0 < nCavity i := h0.trans hlo
    refine ⟨_, (interior_hasDerivAt rhoMin rhoMax epsBulk (nCavity i) hmax he0
      hr).congr_of_eventuallyEq (Filter.eventuallyEq_of_mem (Ioo_mem_nhds hlo hhi)
        (fun r hr => compute_value_interior rhoMin rhoMax epsBulk r hr.1 hr.2)), ?_⟩
    unfold propagateGradient_calc
    simp only [if_neg (not_le.mpr hhi), if_neg (not_le.mpr hlo), ge_iff_le,
      Function.update_same, Real.rpow_eq_pow, NonlinearPCMeval.lit_one]
    norm_num
    ring
  · intro h
    unfold propagateGradient_calc
    rcases h with h | h
    · simp only [ge_iff_le, if_pos h]
    · by_cases h2 : rhoMax ≤ nCavity i
      · simp only [ge_iff_le, if_pos h2]
      · simp only [ge_iff_le, if_neg h2, if_pos h]
  · intro j hj
    unfold propagateGradient_calc
    by_cases h2 : rhoMax ≤ nCavity i
    · simp only [ge_iff_le, if_pos h2]
    · by_cases h3 : nCavity i ≤ rhoMin
      · simp only [ge_iff_le, if_neg h2, if_pos h3]
      · simp only [ge_iff_le, if_neg h2, if_neg h3]
        exact Function.update_noteq hj _ _

/-- C19 at `rhoMin = 1`, `rhoMax = 2`, `epsBulk = 2`: at the density `3/2` the
increment is the derivative of the shape function, at the density `3` nothing
is added. -/
theorem propagateGradient_calc_exact_derivative_witness :
    (∃ D : ℝ, HasDerivAt (compute_value Real.log Real.sin Real.rpow Real.pi 1 2 2) D (3 / 2) ∧
      propagateGradient_calc Real.log Real.sin Real.cos Real.rpow Real.pi 0 (fun _ => 3 / 2)
        (fun _ => 1) (fun _ => 0) 1 2 2 0 = 0 + 1 * D) ∧
    propagateGradient_calc Real.log Real.sin Real.cos Real.rpow Real.pi 0 (fun _ => 3)
      (fun _ => 1) (fun _ => 0) 1 2 2 = fun _ => 0 :=
  ⟨(propagateGradient_calc_exact_derivative 0 (fun _ => 3 / 2) (fun _ => 1) (fun _ => 0) 1 2 2
      (by norm_num) (by norm_num) (by norm_num)).1 (by norm_num) (by norm_num),
    (propagateGradient_calc_exact_derivative 0 (fun _ => 3) (fun _ => 1) (fun _ => 0) 1 2 2
      (by norm_num) (by norm_num) (by norm_num)).2.1 (Or.inl (by norm_num))⟩

end SCCS

end ShapeFunctionSCCS

/-! ## The original shape function and its gradient -/

namespace ShapeFunction

section Shape

/-- The amount added by `propagateGradient_calc` in closed form: the Gaussian
factor divided by `|n| sigma sqrt(2 pi)`. -/
theorem propagateGradient_increment_eq (n gs nc sigma : ℝ) (hnc : 0 < nc) (hs : 0 < sigma)
    (hn : n ≠ 0) :
    propagateGradient_increment Real.exp Real.sqrt Real.log Real.rpow Real.pi n gs nc sigma
      = gs * (-Real.exp (-Real.log (|n| / nc) ^ 2 / (2 * sigma ^ 2))
          / (|n| * sigma * Real.sqrt (2 * Real.pi))) := by
  have habs : 0 < |n| := abs_pos.mpr hn
  have hq : 0 < |n| / nc := div_pos habs hnc
  have hsq : 0 < Real.sqrt (2 * Real.pi) := Real.sqrt_pos.mpr (by positivity)
  unfold propagateGradient_increment
  simp only [Real.rpow_eq_pow, Real.rpow_two]
  have hexp : Real.exp (0.5 * (sigma ^ 2 - (Real.log (|n| / nc) / sigma + sigma) ^ 2))
      = Real.exp (-Real.log (|n| / nc) ^ 2 / (2 * sigma ^ 2)) * (nc / |n|) := by
    have harg : 0.5 * (sigma ^ 2 - (Real.log (|n| / nc) / sigma + sigma) ^ 2)
        = -Real.log (|n| / nc) ^ 2 / (2 * sigma ^ 2) + -Real.log (|n| / nc) := by
      field_simp
      ring
    rw [harg, Real.exp_add, Real.exp_neg (Real.log (|n| / nc)), Real.exp_log hq, inv_div]
  rw [hexp]
  field_simp
  ring

/-- Given a complementary error function with its derivative
`-2/sqrt(pi) exp(-y^2)`, the shape function evaluated by `compute_calc` has at
every non-zero density `n` the derivative
`-exp(-log(|n|/nc)^2/(2 sigma^2)) / (n sigma sqrt(2 pi))`. -/
theorem compute_calc_hasDerivAt (erfc : ℝ → ℝ)
    (herfc : ∀ y, HasDerivAt erfc (-2 / Real.sqrt Real.pi * Real.exp (-y ^ 2)) y)
    (i : Nat) (nCavity shape : Nat → ℝ) (nc sigma : ℝ) (hnc : 0 < nc) (hs : 0 < sigma)
    (hn : nCavity i ≠ 0) :
    HasDerivAt
      (fun n => compute_calc erfc Real.sqrt Real.log i (Function.update nCavity i n) shape nc
        sigma i)
      (-Real.exp (-Real.log (|nCavity i| / nc) ^ 2 / (2 * sigma ^ 2))
        / (nCavity i * sigma * Real.sqrt (2 * Real.pi))) (nCavity i) := by
  have hfun : (fun n => compute_calc erfc Real.sqrt Real.log i (Function.update nCavity i n)
      shape nc sigma i)
      = fun n => erfc (Real.sqrt 0.5 * Real.log (n / nc) / sigma) * 0.5 := by
    funext n
    simp only [compute_calc, Function.update_same]
    rw [← Real.log_abs (n / nc), abs_div, abs_of_pos hnc]
  have hlogabs : Real.log (|nCavity i| / nc) = Real.log (nCavity i / nc) := by
    rw [← Real.log_abs (nCavity i / nc), abs_div, abs_of_pos hnc]
  rw [hfun, hlogabs]
  have hdiv : HasDerivAt (fun n : ℝ => n / nc) (1 / nc) (nCavity i) :=
    (hasDerivAt_id' (nCavity i)).div_const nc
  have hlog := hdiv.log (div_ne_zero hn hnc.ne')
  have hu := ((hlog.const_mul (Real.sqrt 0.5)).div_const sigma)
  have he := ((herfc _).comp (nCavity i) hu).mul_const 0.5
  have hpi : 0 < Real.sqrt Real.pi := Real.sqrt_pos.mpr Real.pi_pos
  have h2 : Real.sqrt (2 * Real.pi) = Real.sqrt 2 * Real.sqrt Real.pi :=
    Real.sqrt_mul (by norm_num) _
  have hhalf : Real.sqrt 0.5 = 1 / Real.sqrt 2 := by
    rw [show (0.5 : ℝ) = 1 / 2 by norm_num, Real.sqrt_div (by norm_num), Real.sqrt_one]
  have hs2 : 0 < Real.sqrt 2 := Real.sqrt_pos.mpr (by norm_num)
  have hsq2 : Real.sqrt 2 ^ 2 = 2 := Real.sq_sqrt (by norm_num)
  convert he using 1
  rw [h2, hhalf]
  have hexparg : -(1 / Real.sqrt 2 * Real.log (nCavity i / nc) / sigma) ^ 2
      = -Real.log (nCavity i / nc) ^ 2 / (2 * sigma ^ 2) := by
    rw [div_pow, mul_pow, div_pow, hsq2]
    field_simp
  rw [hexparg]
  field_simp
  ring

/-- A complementary error function with the derivative `-2/sqrt(pi) exp(-y^2)`
exists: an antiderivative of the Gaussian. -/
theorem exists_erfc_derivative :
    ∃ erfc : ℝ → ℝ, ∀ y, HasDerivAt erfc (-2 / Real.sqrt Real.pi * Real.exp (-y ^ 2)) y := by
  refine ⟨fun y => -2 / Real.sqrt Real.pi * ∫ t in (0 : ℝ)..y, Real.exp (-t ^ 2), fun y => ?_⟩
  have hc : Continuous (fun t : ℝ => Real.exp (-t ^ 2)) := by continuity
  exact ((hc.integral_hasStrictDerivAt 0 y).hasDerivAt).const_mul _

/-- C20: for `nc > 0`, `sigma > 0` and a non-zero density `n = nCavity[i]`, let
`D = -exp(-log(|n|/nc)^2/(2 sigma^2)) / (n sigma sqrt(2 pi))`, the derivative at
`n` of the shape function that `compute_calc` evaluates (for any `erfc` with
derivative `-2/sqrt(pi) exp(-y^2)`). For `n > 0` `propagateGradient_calc` adds
`grad_shape[i] * D` to `grad_nCavity[i]`; for `n < 0` it adds
`-grad_shape[i] * D`, which differs from `grad_shape[i] * D` whenever
`grad_shape[i] ≠ 0`. -/
theorem propagateGradient_calc_sign (i : Nat) (nCavity grad_shape grad_nCavity shape : Nat → ℝ)
    (nc sigma : ℝ) (hnc : 0 < nc) (hs : 0 < sigma) (hn : nCavity i ≠ 0) :
    (0 < nCavity i →
      propagateGradient_calc Real.exp Real.sqrt Real.log Real.rpow Real.pi i nCavity grad_shape
        grad_nCavity nc sigma i
        = grad_nCavity i + grad_shape i * (-Real.exp (-Real.log (|nCavity i| / nc) ^ 2 / (2 * sigma ^ 2))
          / (nCavity i * sigma * Real.sqrt (2 * Real.pi)))) ∧
    (nCavity i < 0 →
      propagateGradient_calc Real.exp Real.sqrt Real.log Real.rpow Real.pi i nCavity grad_shape
        grad_nCavity nc sigma i
        = grad_nCavity i - grad_shape i * (-Real.exp (-Real.log (|nCavity i| / nc) ^ 2 / (2 * sigma ^ 2))
          / (nCavity i * sigma * Real.sqrt (2 * Real.pi))) ∧
      (grad_shape i ≠ 0 →
        propagateGradient_calc Real.exp Real.sqrt Real.log Real.rpow Real.pi i nCavity grad_shape
          grad_nCavity nc sigma i
          ≠ grad_nCavity i + grad_shape i * (-Real.exp (-Real.log (|nCavity i| / nc) ^ 2 / (2 * sigma ^ 2))
          / (nCavity i * sigma * Real.sqrt (2 * Real.pi))))) ∧
    (∀ erfc : ℝ → ℝ,
      (∀ y, HasDerivAt erfc (-2 / Real.sqrt Real.pi * Real.exp (-y ^ 2)) y) →
      HasDerivAt
        (fun n => compute_calc erfc Real.sqrt Real.log i (Function.update nCavity i n) shape nc
          sigma i)
        (-Real.exp (-Real.log (|nCavity i| / nc) ^ 2 / (2 * sigma ^ 2))
          / (nCavity i * sigma * Real.sqrt (2 * Real.pi))) (nCavity i)) := by
  have hsq : 0 < Real.sqrt (2 * Real.pi) := Real.sqrt_pos.mpr (by positivity)
  have hval : propagateGradient_calc Real.exp Real.sqrt Real.log Real.rpow Real.pi i nCavity
      grad_shape grad_nCavity nc sigma i
      = grad_nCavity i + grad_shape i * (-Real.exp (-Real.log (|nCavity i| / nc) ^ 2
          / (2 * sigma ^ 2)) / (|nCavity i| * sigma * Real.sqrt (2 * Real.pi))) := by
    unfold propagateGradient_calc
    rw [Function.update_same, propagateGradient_increment_eq _ _ _ _ hnc hs hn]
  refine ⟨?_, ?_, fun erfc herfc =>
    compute_calc_hasDerivAt erfc herfc i nCavity shape nc sigma hnc hs hn⟩
  · intro hpos
    rw [hval, abs_of_pos hpos]
  · intro hneg
    have hflip : grad_shape i * (-Real.exp (-Real.log (|nCavity i| / nc) ^ 2
          / (2 * sigma ^ 2)) / (|nCavity i| * sigma * Real.sqrt (2 * Real.pi)))
        = -(grad_shape i * (-Real.exp (-Real.log (|nCavity i| / nc) ^ 2
          / (2 * sigma ^ 2)) / (nCavity i * sigma * Real.sqrt (2 * Real.pi)))) := by
      rw [abs_of_neg hneg]
      field_simp
    have hD : (-Real.exp (-Real.log (|nCavity i| / nc) ^ 2 / (2 * sigma ^ 2))
          / (nCavity i * sigma * Real.sqrt (2 * Real.pi))) ≠ 0 := by
      apply div_ne_zero
      · exact neg_ne_zero.mpr (Real.exp_pos _).ne'
      · exact mul_ne_zero (mul_ne_zero hn hs.ne') hsq.ne'
    refine ⟨by rw [hval, hflip]; ring, fun hg hcon => ?_⟩
    rw [hval, hflip] at hcon
    have hprod := mul_ne_zero hg hD
    apply hprod
    linarith

/-- C20 at the density `n = -1` with `nc = 1`, `sigma = 1`, `grad_shape[i] = 1`
and `grad_nCavity[i] = 0`: the code stores `-1/sqrt(2 pi)`, the negative of the
derivative `1/sqrt(2 pi)` of the shape function at `n = -1`. -/
theorem propagateGradient_calc_sign_witness :
    propagateGradient_calc Real.exp Real.sqrt Real.log Real.rpow Real.pi 0 (fun _ => -1)
      (fun _ => 1) (fun _ => 0) 1 1 0 = -(1 / Real.sqrt (2 * Real.pi)) ∧
    (1 : ℝ) * (-Real.exp (-Real.log (|(-1 : ℝ)| / 1) ^ 2 / (2 * 1 ^ 2))
      / (-1 * 1 * Real.sqrt (2 * Real.pi))) = 1 / Real.sqrt (2 * Real.pi) := by
  have h := ((propagateGradient_calc_sign 0 (fun _ => -1) (fun _ => 1) (fun _ => 0) (fun _ => 0)
    1 1 (by norm_num) (by norm_num) (by norm_num)).2.1 (by norm_num)).1
  have hD : (1 : ℝ) * (-Real.exp (-Real.log (|(-1 : ℝ)| / 1) ^ 2 / (2 * 1 ^ 2))
      / (-1 * 1 * Real.sqrt (2 * Real.pi))) = 1 / Real.sqrt (2 * Real.pi) := by
    have hsq : 0 < Real.sqrt (2 * Real.pi) := Real.sqrt_pos.mpr (by positivity)
    rw [abs_neg, abs_one, div_one, Real.log_one]
    norm_num
  refine ⟨?_, hD⟩
  rw [h, hD]
  ring

end Shape

end ShapeFunction

/-! ## Termination of the two inversions -/

namespace NonlinearPCMeval

/-- C21: for `x0plus, x0minus > 0`, `x0 = x0plus + x0minus < 1` and every real
`V`, the three loops of `x_from_V` exit after finitely many iterations: once the
iteration budget reaches some `N`, the halving loop stops after `k` steps at
`xLo0 = x0 / 2^k` with `rootFunc ≤ 0`, the doubling loop after `m` steps at
`xHi0 = xLo0 * 2^m` with `rootFunc ≥ 0`, the bisection after `n` halvings of
the bracket, and `x_from_V` returns. -/
theorem x_from_V_terminates (p : Screening ℝ) (V : ℝ)
    (hplus : 0 < p.x0plus) (hminus : 0 < p.x0minus) (hx0 : p.x0 = p.x0plus + p.x0minus)
    (h1 : p.x0 < 1) :
    ∃ N : Nat, ∀ fuel, N ≤ fuel → ∃ (k m n : Nat) (s : ℝ × ℝ × ℝ),
      scaleWhile (fun xLo => decide (p.rootFunc Real.exp xLo V > 0.)) 0.5 fuel p.x0
        = some (p.x0 * 0.5 ^ k) ∧
      scaleWhile (fun xHi => decide (p.rootFunc Real.exp xHi V < 0.)) 2. fuel (p.x0 * 0.5 ^ k)
        = some (p.x0 * 0.5 ^ k * 2. ^ m) ∧
      p.rootFunc Real.exp (p.x0 * 0.5 ^ k) V ≤ 0 ∧
      0 ≤ p.rootFunc Real.exp (p.x0 * 0.5 ^ k * 2. ^ m) V ∧
      bisectWhile (fun x => decide (p.rootFunc Real.exp x V < 0.))
        (0.5 * (p.x0 * 0.5 ^ k * 2. ^ m + p.x0 * 0.5 ^ k) * 1e-13) fuel
        (p.x0 * 0.5 ^ k) (p.x0 * 0.5 ^ k * 2. ^ m)
        (0.5 * (p.x0 * 0.5 ^ k * 2. ^ m + p.x0 * 0.5 ^ k)) = some s ∧
      (s.2.1 - s.1) * 2 ^ n = p.x0 * 0.5 ^ k * 2. ^ m - p.x0 * 0.5 ^ k ∧
      p.x_from_V_state Real.exp fuel V = some s ∧
      p.x_from_V Real.exp fuel V = some s.2.2 := by
  have h0 : 0 < p.x0 := by rw [hx0]; linarith
  obtain ⟨N, hN⟩ := x_from_V_state_spec p hplus hminus h0 h1 V
  refine ⟨N, fun fuel hfuel => ?_⟩
  obtain ⟨xLo0, xHi0, s, a1, a2, a3, -⟩ := hN fuel hfuel
  obtain ⟨k, -, hk, hkc, -⟩ := scaleWhile_some _ _ _ _ _ a1
  obtain ⟨m, -, hm, hmc, -⟩ := scaleWhile_some _ _ _ _ _ a2
  have hbis : bisectWhile (fun x => decide (p.rootFunc Real.exp x V < 0.))
      (0.5 * (xHi0 + xLo0) * 1e-13) fuel xLo0 xHi0 (0.5 * (xHi0 + xLo0)) = some s := by
    have := a3
    unfold Screening.x_from_V_state at this
    rw [a1] at this
    simp only at this
    rw [a2] at this
    exact this
  obtain ⟨n, hn, -⟩ := bisectWhile_width _ _ _ _ _ _ s rfl hbis
  have hLoRoot : p.rootFunc Real.exp xLo0 V ≤ 0 := by
    simpa only [lit_zero, gt_iff_lt, decide_eq_false_iff_not, not_lt] using hkc
  have hHiRoot : 0 ≤ p.rootFunc Real.exp xHi0 V := by
    simpa only [lit_zero, decide_eq_false_iff_not, not_lt] using hmc
  subst hk
  subst hm
  refine ⟨k, m, n, s, a1, a2, hLoRoot, hHiRoot, hbis, hn, a3, ?_⟩
  unfold Screening.x_from_V
  rw [a3]
  rfl

/-- C21 at the sample parameters and `V = 1`: `x_from_V` returns. -/
theorem x_from_V_terminates_witness :
    ∃ N : Nat, ∀ fuel, N ≤ fuel →
      ∃ x : ℝ, (sampleScreening ℝ false).x_from_V Real.exp fuel 1 = some x := by
  obtain ⟨N, hN⟩ := x_from_V_terminates (sampleScreening ℝ false) 1
    (by norm_num [sampleScreening]) (by norm_num [sampleScreening])
    (by norm_num [sampleScreening]) (by norm_num [sampleScreening])
  refine ⟨N, fun fuel hfuel => ?_⟩
  obtain ⟨-, -, -, s, -, -, -, -, -, -, -, hx⟩ := hN fuel hfuel
  exact ⟨s.2.2, hx⟩

end NonlinearPCMeval

namespace NonlinearPCMeval

/-- For `alpha < 3` the factor `1 - alpha * frac` of `x_from_eps` lies between
the positive constants `min 1 (1 - alpha/3)` and `max 1 (1 - alpha/3)` at every
positive `eps`. -/
theorem x_from_eps_factor_bounds (d : Dielectric ℝ) {e : ℝ} (he : 0 < e) :
    min 1 (1 - d.alpha / 3) ≤ 1 - d.alpha * (d.calcFunctions Real.tanh Real.sinh Real.log e).1 ∧
    1 - d.alpha * (d.calcFunctions Real.tanh Real.sinh Real.log e).1
      ≤ max 1 (1 - d.alpha / 3) := by
  obtain ⟨h1, h2⟩ := frac_bounds d he
  rcases le_or_lt 0 d.alpha with hα | hα
  · have := mul_le_mul_of_nonneg_left h2 hα
    have := mul_nonneg hα h1
    exact ⟨(min_le_right _ _).trans (by linarith), le_trans (by linarith) (le_max_left _ _)⟩
  · have := mul_le_mul_of_nonneg_left h2 (neg_nonneg.mpr hα.le)
    have := mul_nonneg (neg_nonneg.mpr hα.le) h1
    exact ⟨(min_le_left _ _).trans (by linarith), le_trans (by linarith) (le_max_right _ _)⟩

/-- Termination of the three loops of `eps_from_x` for `alpha < 3` and `x > 0`:
the shrink loop stops after `k` steps at `x * 0.95^k`, the growth loop after `m`
more steps, the bisection returns a bracket of positive numbers. -/
theorem eps_from_x_state_terminates (d : Dielectric ℝ) (x : ℝ) (hα3 : d.alpha < 3)
    (hx : 0 < x) :
    ∃ N : Nat, ∀ fuel, N ≤ fuel → ∃ (k m : Nat) (s : ℝ × ℝ × ℝ),
      scaleWhile (fun epsLo => decide (d.x_from_eps Real.tanh Real.sinh Real.log epsLo > x))
        0.95 fuel x = some (x * 0.95 ^ k) ∧
      scaleWhile (fun epsHi => decide (d.x_from_eps Real.tanh Real.sinh Real.log epsHi < x))
        1.05 fuel (x * 0.95 ^ k) = some (x * 0.95 ^ k * 1.05 ^ m) ∧
      d.eps_from_x_state Real.tanh Real.sinh Real.log fuel x = some s ∧
      x * 0.95 ^ k ≤ s.1 ∧ s.1 ≤ s.2.2 ∧ s.2.2 ≤ s.2.1 ∧ s.2.1 ≤ x * 0.95 ^ k * 1.05 ^ m := by
  have hc : 0 < min 1 (1 - d.alpha / 3) := lt_min one_pos (by linarith)
  have hC : 0 < max 1 (1 - d.alpha / 3) := lt_of_lt_of_le one_pos (le_max_left _ _)
  -- the shrink loop stops
  obtain ⟨k, hk⟩ : ∃ k : Nat, (0.95 : ℝ) ^ k < 1 / max 1 (1 - d.alpha / 3) :=
    exists_pow_lt_of_lt_one (div_pos one_pos hC) (by norm_num)
  have hlow : (fun epsLo => decide (d.x_from_eps Real.tanh Real.sinh Real.log epsLo > x))
      (x * (0.95 : ℝ) ^ k) = false := by
    have hpos : 0 < x * (0.95 : ℝ) ^ k := by positivity
    have hb := (x_from_eps_factor_bounds d hpos).2
    rw [lt_div_iff₀ hC] at hk
    simp only [gt_iff_lt, decide_eq_false_iff_not, not_lt]
    rw [x_from_eps_eq]
    calc x * 0.95 ^ k * (1 - d.alpha
          * (d.calcFunctions Real.tanh Real.sinh Real.log (x * 0.95 ^ k)).1)
        ≤ x * 0.95 ^ k * max 1 (1 - d.alpha / 3) := mul_le_mul_of_nonneg_left hb hpos.le
      _ = x * (0.95 ^ k * max 1 (1 - d.alpha / 3)) := by ring
      _ ≤ x * 1 := mul_le_mul_of_nonneg_left hk.le hx.le
      _ = x := mul_one x
  obtain ⟨epsLo, hLo⟩ := scaleWhile_terminates
    (fun epsLo => decide (d.x_from_eps Real.tanh Real.sinh Real.log epsLo > x)) 0.95 k (k + 1) x
    hlow (by omega)
  obtain ⟨k1, -, hLoEq, -, -⟩ := scaleWhile_some _ _ _ _ _ hLo
  have hLoPos : 0 < epsLo := by rw [hLoEq]; positivity
  -- the growth loop stops
  obtain ⟨m, hm⟩ := pow_unbounded_of_one_lt (x / (epsLo * min 1 (1 - d.alpha / 3)))
    (by norm_num : (1 : ℝ) < 1.05)
  have hupper : (fun epsHi => decide (d.x_from_eps Real.tanh Real.sinh Real.log epsHi < x))
      (epsLo * (1.05 : ℝ) ^ m) = false := by
    have hpos : 0 < epsLo * (1.05 : ℝ) ^ m := by positivity
    have hb := (x_from_eps_factor_bounds d hpos).1
    rw [div_lt_iff₀ (mul_pos hLoPos hc)] at hm
    simp only [decide_eq_false_iff_not, not_lt]
    rw [x_from_eps_eq]
    calc x ≤ epsLo * 1.05 ^ m * min 1 (1 - d.alpha / 3) := by
          rw [show epsLo * 1.05 ^ m * min 1 (1 - d.alpha / 3)
            = 1.05 ^ m * (epsLo * min 1 (1 - d.alpha / 3)) by ring]
          exact hm.le
      _ ≤ epsLo * 1.05 ^ m * (1 - d.alpha
          * (d.calcFunctions Real.tanh Real.sinh Real.log (epsLo * 1.05 ^ m)).1) :=
          mul_le_mul_of_nonneg_left hb hpos.le
  obtain ⟨epsHi, hHi⟩ := scaleWhile_terminates
    (fun epsHi => decide (d.x_from_eps Real.tanh Real.sinh Real.log epsHi < x)) 1.05 m (m + 1)
    epsLo hupper (by omega)
  obtain ⟨m1, -, hHiEq, -, -⟩ := scaleWhile_some _ _ _ _ _ hHi
  have hLoHi : epsLo ≤ epsHi := by
    rw [hHiEq]
    have : (1 : ℝ) ≤ (1.05 : ℝ) ^ m1 := one_le_pow₀ (by norm_num)
    nlinarith
  refine ⟨max (k + 1) (max (m + 1) 46), fun fuel hfuel => ?_⟩
  have hLo2 := scaleWhile_mono _ _ _ fuel _ _ hLo (by omega)
  have hHi2 := scaleWhile_mono _ _ _ fuel _ _ hHi (by omega)
  obtain ⟨s, hs⟩ := bisectWhile_terminates_rel
    (fun eps => decide (d.x_from_eps Real.tanh Real.sinh Real.log eps < x)) epsLo epsHi
    hLoPos.le hLoHi fuel (by omega)
  obtain ⟨b1, b2, b3, b4, -⟩ := bisectWhile_some _ _ _ _ _ _ s hLoHi rfl hs
  have hstate : d.eps_from_x_state Real.tanh Real.sinh Real.log fuel x = some s := by
    unfold Dielectric.eps_from_x_state
    rw [hLo2]
    simp only
    rw [hHi2]
    simp only
    exact hs
  subst hLoEq
  subst hHiEq
  refine ⟨k1, m1, s, hLo2, hHi2, hstate, b1, ?_, ?_, b3⟩
  · rw [b4]; norm_num; linarith
  · rw [b4]; norm_num; linarith

/-- C22: for both regimes, every `alpha < 3` and every `x > 0`, the shrink loop,
the growth loop and the bisection of `eps_from_x` exit after finitely many
iterations and the function returns a positive `eps`; for `x = 0` it returns `0`
whatever the iteration budget, without entering a loop. -/
theorem eps_from_x_terminates (d : Dielectric ℝ) (x : ℝ) (hα3 : d.alpha < 3) (hx : 0 < x) :
    (∃ N : Nat, ∀ fuel, N ≤ fuel → ∃ (k m : Nat) (epsLo epsHi eps : ℝ),
      scaleWhile (fun epsLo => decide (d.x_from_eps Real.tanh Real.sinh Real.log epsLo > x))
        0.95 fuel x = some (x * 0.95 ^ k) ∧
      scaleWhile (fun epsHi => decide (d.x_from_eps Real.tanh Real.sinh Real.log epsHi < x))
        1.05 fuel (x * 0.95 ^ k) = some (x * 0.95 ^ k * 1.05 ^ m) ∧
      d.eps_from_x_state Real.tanh Real.sinh Real.log fuel x = some (epsLo, epsHi, eps) ∧
      d.eps_from_x Real.tanh Real.sinh Real.log fuel x = some eps ∧ 0 < eps) ∧
    ∀ fuel : Nat, d.eps_from_x Real.tanh Real.sinh Real.log fuel 0 = some 0 := by
  constructor
  · obtain ⟨N, hN⟩ := eps_from_x_state_terminates d x hα3 hx
    refine ⟨N, fun fuel hfuel => ?_⟩
    obtain ⟨k, m, s, a1, a2, a3, a4, a5, -⟩ := hN fuel hfuel
    refine ⟨k, m, s.1, s.2.1, s.2.2, a1, a2, a3, ?_, ?_⟩
    · unfold Dielectric.eps_from_x
      rw [if_neg hx.ne', a3]
      rfl
    · have : 0 < x * (0.95 : ℝ) ^ k := by positivity
      linarith
  · intro fuel
    unfold Dielectric.eps_from_x
    rw [if_pos rfl]
    norm_num

/-- C22 at the sample dielectric with `alpha = 1` in the nonlinear regime and
`x = 1`. -/
theorem eps_from_x_terminates_witness :
    ∃ N : Nat, ∀ fuel, N ≤ fuel → ∃ eps : ℝ,
      (sampleDielectric ℝ false).eps_from_x Real.tanh Real.sinh Real.log fuel 1 = some eps ∧
      0 < eps := by
  obtain ⟨N, hN⟩ := (eps_from_x_terminates (sampleDielectric ℝ false) 1
    (by norm_num [sampleDielectric]) (by norm_num)).1
  refine ⟨N, fun fuel hfuel => ?_⟩
  obtain ⟨-, -, -, -, eps, -, -, -, h1, h2⟩ := hN fuel hfuel
  exact ⟨eps, h1, h2⟩

end NonlinearPCMeval

/-! ## Bracket expansion without a sign change -/

section LoopNone

end LoopNone

namespace NonlinearPCMeval

end NonlinearPCMeval

/-! ## The potential-to-state kernel `phiToState_calc` -/

namespace NonlinearPCMeval

section PhiToState

/-- The guard of `phiToState_calc` on the divisor `V`. -/
theorem phiToState_V_spec (p : Screening ℝ) (phi_i : ℝ) :
    1e-7 ≤ |p.phiToState_V false phi_i| ∧
    (0 < p.ZbyT * phi_i → 0 < p.phiToState_V false phi_i) ∧
    (p.ZbyT * phi_i < 0 → p.phiToState_V false phi_i < 0) ∧
    (1e-7 ≤ |p.ZbyT * phi_i| → p.phiToState_V false phi_i = p.ZbyT * phi_i) ∧
    (|p.ZbyT * phi_i| < 1e-7 → p.phiToState_V false phi_i = copysign 1e-7 (p.ZbyT * phi_i)) ∧
    p.phiToState_V true phi_i = p.ZbyT * phi_i := by
  have habs : |(1e-7 : ℝ)| = 1e-7 := abs_of_pos (by norm_num)
  have hfalse : p.phiToState_V false phi_i
      = if |p.ZbyT * phi_i| < 1e-7 then copysign 1e-7 (p.ZbyT * phi_i) else p.ZbyT * phi_i := by
    simp only [Screening.phiToState_V, Bool.not_false, if_true]
  have htrue : p.phiToState_V true phi_i = p.ZbyT * phi_i := by
    simp only [Screening.phiToState_V, Bool.not_true, Bool.false_eq_true, if_false]
  refine ⟨?_, ?_, ?_, ?_, ?_, htrue⟩
  · rw [hfalse]
    by_cases h : |p.ZbyT * phi_i| < 1e-7
    · rw [if_pos h]
      unfold copysign
      by_cases hn : p.ZbyT * phi_i < 0
      · rw [if_pos hn, abs_neg, abs_abs, habs]
      · rw [if_neg hn, abs_abs, habs]
    · rw [if_neg h]
      exact not_lt.mp h
  · intro hpos
    rw [hfalse]
    by_cases h : |p.ZbyT * phi_i| < 1e-7
    · rw [if_pos h]
      unfold copysign
      rw [if_neg (not_lt.mpr hpos.le), habs]
      norm_num
    · rw [if_neg h]
      exact hpos
  · intro hneg
    rw [hfalse]
    by_cases h : |p.ZbyT * phi_i| < 1e-7
    · rw [if_pos h]
      unfold copysign
      rw [if_pos hneg, habs]
      norm_num
    · rw [if_neg h]
      exact hneg
  · intro h
    rw [hfalse, if_neg (not_lt.mpr h)]
  · intro h
    rw [hfalse, if_pos h]

/-- C23: with `setState = false` the divisor `V` of `kappaSq[i]` satisfies
`|V| ≥ 1e-7`, so it is not zero, and it has the sign of `ZbyT*phi[i]` whenever
that product is non-zero (for a zero product it is `+1e-7`); with
`setState = true` `V` is exactly `ZbyT*phi[i]` and `kappaSq` is not written, so
nothing is divided by `V`. -/
theorem phiToState_calc_divisor_guarded (p : Screening ℝ) (i : Nat) (phi s : Nat → ℝ)
    (xLookup : ℝ → ℝ) (out : PhiToStateArrays ℝ) :
    1e-7 ≤ |p.phiToState_V false (phi i)| ∧
    p.phiToState_V false (phi i) ≠ 0 ∧
    (0 < p.ZbyT * phi i → 0 < p.phiToState_V false (phi i)) ∧
    (p.ZbyT * phi i < 0 → p.phiToState_V false (phi i) < 0) ∧
    (p.ZbyT * phi i = 0 → p.phiToState_V false (phi i) = 1e-7) ∧
    (p.phiToState_calc Real.exp Real.sqrt Real.rpow Real.pi i phi s xLookup false out).kappaSq i
      = (4 * Real.pi) * s i * (p.NZ * p.ZbyT)
        * (Real.exp (p.phiToState_V false (phi i)
              - (p.fHS (1. / xLookup (1. + Screening.phiToState_Vmapped Real.sqrt Real.rpow
                  (p.phiToState_V false (phi i))) - 1.)).2 * p.x0minus)
            - Real.exp (-p.phiToState_V false (phi i)
              - (p.fHS (1. / xLookup (1. + Screening.phiToState_Vmapped Real.sqrt Real.rpow
                  (p.phiToState_V false (phi i))) - 1.)).2 * p.x0plus))
        / p.phiToState_V false (phi i) ∧
    p.phiToState_V true (phi i) = p.ZbyT * phi i ∧
    (p.phiToState_calc Real.exp Real.sqrt Real.rpow Real.pi i phi s xLookup true out).kappaSq
      = out.kappaSq := by
  obtain ⟨h1, h2, h3, -, h5, h6⟩ := phiToState_V_spec p (phi i)
  refine ⟨h1, ?_, h2, h3, ?_, ?_, h6, ?_⟩
  · intro h0
    rw [h0, abs_zero] at h1
    norm_num at h1
  · intro h0
    rw [h5 (by rw [h0, abs_zero]; norm_num), h0]
    unfold copysign
    rw [if_neg (lt_irrefl 0)]
    exact abs_of_pos (by norm_num)
  · simp only [Screening.phiToState_calc, Bool.false_eq_true, if_false, Function.update_same]
  · simp only [Screening.phiToState_calc, if_true]

/-- The magnitude map `t ↦ t / (1 + sqrt(1 + t*t))` takes `[0, infty)` into
`[0, 1)` and is strictly increasing there. -/
theorem mappedMagnitude_spec :
    (∀ t : ℝ, 0 ≤ t → 0 ≤ t / (1 + Real.sqrt (1 + t * t)) ∧
      t / (1 + Real.sqrt (1 + t * t)) < 1) ∧
    (∀ t : ℝ, 0 < t → 0 < t / (1 + Real.sqrt (1 + t * t))) ∧
    (∀ t1 t2 : ℝ, 0 ≤ t1 → t1 < t2 →
      t1 / (1 + Real.sqrt (1 + t1 * t1)) < t2 / (1 + Real.sqrt (1 + t2 * t2))) := by
  have hden : ∀ t : ℝ, 0 < 1 + Real.sqrt (1 + t * t) := fun t => by
    have := Real.sqrt_nonneg (1 + t * t)
    linarith
  have hgt : ∀ t : ℝ, 0 ≤ t → t < Real.sqrt (1 + t * t) := fun t ht => by
    apply Real.lt_sqrt_of_sq_lt
    nlinarith
  refine ⟨fun t ht => ⟨div_nonneg ht (hden t).le, ?_⟩, fun t ht => div_pos ht (hden t), ?_⟩
  · rw [div_lt_one (hden t)]
    have := hgt t ht
    linarith
  · intro t1 t2 h1 h12
    have h2 : 0 < t2 := lt_of_le_of_lt h1 h12
    rw [div_lt_div_iff₀ (hden t1) (hden t2)]
    have hs1 : Real.sqrt (1 + t1 * t1) * Real.sqrt (1 + t1 * t1) = 1 + t1 * t1 :=
      Real.mul_self_sqrt (by nlinarith)
    have hs2 : Real.sqrt (1 + t2 * t2) * Real.sqrt (1 + t2 * t2) = 1 + t2 * t2 :=
      Real.mul_self_sqrt (by nlinarith)
    have hn1 := Real.sqrt_nonneg (1 + t1 * t1)
    have hn2 := Real.sqrt_nonneg (1 + t2 * t2)
    -- t1 * sqrt(1 + t2^2) < t2 * sqrt(1 + t1^2), by comparing the squares
    have hcross : t1 * Real.sqrt (1 + t2 * t2) < t2 * Real.sqrt (1 + t1 * t1) := by
      apply lt_of_pow_lt_pow_left₀ 2 (mul_nonneg h2.le hn1)
      have e1 : (t1 * Real.sqrt (1 + t2 * t2)) ^ 2 = t1 * t1 * (1 + t2 * t2) := by
        rw [mul_pow, sq, sq, hs2]
      have e2 : (t2 * Real.sqrt (1 + t1 * t1)) ^ 2 = t2 * t2 * (1 + t1 * t1) := by
        rw [mul_pow, sq, sq, hs1]
      rw [e1, e2]
      nlinarith
    nlinarith

/-- The local `twoCbrtV` of `phiToState_calc`: non-negative, even, zero only at
`V = 0` and strictly increasing in `|V|`. -/
theorem twoCbrt_spec :
    (∀ V : ℝ, 0 ≤ 2 * |V| ^ ((1 : ℝ) / 3)) ∧
    (∀ V : ℝ, V ≠ 0 → 0 < 2 * |V| ^ ((1 : ℝ) / 3)) ∧
    (∀ a b : ℝ, |a| < |b| → 2 * |a| ^ ((1 : ℝ) / 3) < 2 * |b| ^ ((1 : ℝ) / 3)) := by
  refine ⟨fun V => ?_, fun V hV => ?_, fun a b hab => ?_⟩
  · have := Real.rpow_nonneg (abs_nonneg V) ((1 : ℝ) / 3)
    linarith
  · have := Real.rpow_pos_of_pos (abs_pos.mpr hV) ((1 : ℝ) / 3)
    linarith
  · have := Real.rpow_lt_rpow (abs_nonneg a) hab (by norm_num : (0 : ℝ) < 1 / 3)
    linarith

/-- The local `Vmapped` of `phiToState_calc` in closed form. -/
theorem phiToState_Vmapped_eq (V : ℝ) :
    Screening.phiToState_Vmapped Real.sqrt Real.rpow V
      = if V < 0 then
          -(2 * |V| ^ ((1 : ℝ) / 3)
            / (1 + Real.sqrt (1 + 2 * |V| ^ ((1 : ℝ) / 3) * (2 * |V| ^ ((1 : ℝ) / 3)))))
        else 2 * |V| ^ ((1 : ℝ) / 3)
            / (1 + Real.sqrt (1 + 2 * |V| ^ ((1 : ℝ) / 3) * (2 * |V| ^ ((1 : ℝ) / 3)))) := by
  have h := (mappedMagnitude_spec.1 _ (twoCbrt_spec.1 V)).1
  simp only [Screening.phiToState_Vmapped, copysign, Real.rpow_eq_pow, lit_one, lit_two]
  rw [abs_of_nonneg h]

/-- C26: for every real `V` the lookup argument `Vmapped` of `phiToState_calc`
satisfies `-1 < Vmapped < 1`; as a function of `V` it is odd and strictly
increasing; the table is queried at `1 + Vmapped` in the open interval `(0, 2)`. -/
theorem phiToState_Vmapped_bounded (V : ℝ) :
    -1 < Screening.phiToState_Vmapped Real.sqrt Real.rpow V ∧
    Screening.phiToState_Vmapped Real.sqrt Real.rpow V < 1 ∧
    Screening.phiToState_Vmapped Real.sqrt Real.rpow (-V)
      = -Screening.phiToState_Vmapped Real.sqrt Real.rpow V ∧
    StrictMono (Screening.phiToState_Vmapped Real.sqrt Real.rpow) ∧
    0 < 1. + Screening.phiToState_Vmapped Real.sqrt Real.rpow V ∧
    1. + Screening.phiToState_Vmapped Real.sqrt Real.rpow V < 2 := by
  obtain ⟨hb, hpos, hmono⟩ := mappedMagnitude_spec
  obtain ⟨ht0, htpos, htmono⟩ := twoCbrt_spec
  have hlo : -1 < Screening.phiToState_Vmapped Real.sqrt Real.rpow V := by
    rw [phiToState_Vmapped_eq]
    obtain ⟨h1, h2⟩ := hb _ (ht0 V)
    split_ifs <;> linarith
  have hhi : Screening.phiToState_Vmapped Real.sqrt Real.rpow V < 1 := by
    rw [phiToState_Vmapped_eq]
    obtain ⟨h1, h2⟩ := hb _ (ht0 V)
    split_ifs <;> linarith
  refine ⟨hlo, hhi, ?_, ?_, ?_, ?_⟩
  · rw [phiToState_Vmapped_eq, phiToState_Vmapped_eq, abs_neg]
    rcases lt_trichotomy V 0 with h | h | h
    · rw [if_neg (by linarith), if_pos h, neg_neg]
    · subst h
      simp
    · rw [if_pos (by linarith), if_neg (by linarith)]
  · intro a b hab
    show Screening.phiToState_Vmapped Real.sqrt Real.rpow a
      < Screening.phiToState_Vmapped Real.sqrt Real.rpow b
    rw [phiToState_Vmapped_eq, phiToState_Vmapped_eq]
    by_cases ha : a < 0
    · rw [if_pos ha]
      by_cases hb0 : b < 0
      · rw [if_pos hb0]
        have habs : |b| < |a| := by
          rw [abs_of_neg ha, abs_of_neg hb0]
          linarith
        have := hmono _ _ (ht0 b) (htmono b a habs)
        linarith
      · rw [if_neg hb0]
        have h1 := hpos _ (htpos a ha.ne)
        have h2 := (hb _ (ht0 b)).1
        linarith
    · rw [if_neg ha, if_neg (by linarith)]
      have ha0 : 0 ≤ a := not_lt.mp ha
      have habs : |a| < |b| := by
        rw [abs_of_nonneg ha0, abs_of_pos (lt_of_le_of_lt ha0 hab)]
        exact hab
      exact hmono _ _ (ht0 a) (htmono a b habs)
  · rw [lit_one]
    linarith
  · rw [lit_one]
    linarith

/-- The value written to `kappaSq[i]` with `setState = false`, in terms of the
guarded divisor `V`. -/
theorem phiToState_calc_divisor_link (p : Screening ℝ) (i : Nat) (phi s : Nat → ℝ)
    (xLookup : ℝ → ℝ) (out : PhiToStateArrays ℝ) :
    (p.phiToState_calc Real.exp Real.sqrt Real.rpow Real.pi i phi s xLookup false out).kappaSq i
      = (4 * Real.pi) * s i * (p.NZ * p.ZbyT)
        * (Real.exp (p.phiToState_V false (phi i)
              - (p.fHS (1. / xLookup (1. + Screening.phiToState_Vmapped Real.sqrt Real.rpow
                  (p.phiToState_V false (phi i))) - 1.)).2 * p.x0minus)
            - Real.exp (-p.phiToState_V false (phi i)
              - (p.fHS (1. / xLookup (1. + Screening.phiToState_Vmapped Real.sqrt Real.rpow
                  (p.phiToState_V false (phi i))) - 1.)).2 * p.x0plus))
        / p.phiToState_V false (phi i) := by
  simp only [Screening.phiToState_calc, Bool.false_eq_true, if_false, Function.update_same]

/-- The state written by `phiToState_calc` with `setState = true`. -/
theorem phiToState_calc_state (p : Screening ℝ) (i : Nat) (phi s : Nat → ℝ)
    (xLookup : ℝ → ℝ) (out : PhiToStateArrays ℝ) :
    (p.phiToState_calc Real.exp Real.sqrt Real.rpow Real.pi i phi s xLookup true out).muPlus i
      = -(p.ZbyT * phi i) - (p.fHS (1. / xLookup (1. + Screening.phiToState_Vmapped Real.sqrt Real.rpow (p.ZbyT * phi i)) - 1.)).2 * p.x0plus ∧
    (p.phiToState_calc Real.exp Real.sqrt Real.rpow Real.pi i phi s xLookup true out).muMinus i
      = -(p.ZbyT * phi i - (p.fHS (1. / xLookup (1. + Screening.phiToState_Vmapped Real.sqrt Real.rpow (p.ZbyT * phi i)) - 1.)).2 * p.x0minus) := by
  simp only [Screening.phiToState_calc, Screening.phiToState_V, Bool.not_true,
    Bool.false_eq_true, if_false, if_true, Function.update_same, and_self]

/-- The packing fraction of `compute` is the argument at which its nonlinear
branch evaluates `fHS`. -/
theorem compute_packingFraction (p : Screening ℝ) (hlin : p.linear = false) (a b : ℝ) :
    (p.compute Real.exp a b).F
      = p.NT * (2. + Real.exp a * (a - 1.) + Real.exp (-b) * (-b - 1.)
          + (p.fHS (p.packingFraction Real.exp a b)).1) ∧
    (p.compute Real.exp a b).F_muPlus
      = p.NT * Real.exp a * (a + (p.fHS (p.packingFraction Real.exp a b)).2 * p.x0plus) ∧
    (p.compute Real.exp a b).F_muMinus
      = p.NT * Real.exp (-b) * (b - (p.fHS (p.packingFraction Real.exp a b)).2 * p.x0minus) ∧
    (p.compute Real.exp a b).Rho = p.NZ * (Real.exp a - Real.exp (-b)) := by
  simp only [Screening.compute, hlin, Bool.false_eq_true, if_false, Screening.packingFraction,
    and_self]

/-- C28: with `setState = true`, `V = ZbyT*phi[i]` and the looked-up
`x = 1/xLookup(1+Vmapped) - 1`, the written state satisfies
`x0plus*exp(muPlus[i]) + x0minus*exp(-muMinus[i]) = x - rootFunc(x, V)`; the
left side is the packing fraction that `compute` forms from the state, so it
equals `x` when `x` is a root of `rootFunc(., V)`. -/
theorem phiToState_calc_state_consistent (p : Screening ℝ) (i : Nat) (phi s : Nat → ℝ)
    (xLookup : ℝ → ℝ) (out : PhiToStateArrays ℝ) :
    p.x0plus * Real.exp ((p.phiToState_calc Real.exp Real.sqrt Real.rpow Real.pi i phi s xLookup true out).muPlus i)
        + p.x0minus * Real.exp (-(p.phiToState_calc Real.exp Real.sqrt Real.rpow Real.pi i phi s xLookup true out).muMinus i)
      = (1. / xLookup (1. + Screening.phiToState_Vmapped Real.sqrt Real.rpow (p.ZbyT * phi i)) - 1.) - p.rootFunc Real.exp (1. / xLookup (1. + Screening.phiToState_Vmapped Real.sqrt Real.rpow (p.ZbyT * phi i)) - 1.) (p.ZbyT * phi i) ∧
    p.packingFraction Real.exp ((p.phiToState_calc Real.exp Real.sqrt Real.rpow Real.pi i phi s xLookup true out).muPlus i)
        ((p.phiToState_calc Real.exp Real.sqrt Real.rpow Real.pi i phi s xLookup true out).muMinus i)
      = p.x0plus * Real.exp ((p.phiToState_calc Real.exp Real.sqrt Real.rpow Real.pi i phi s xLookup true out).muPlus i)
        + p.x0minus * Real.exp (-(p.phiToState_calc Real.exp Real.sqrt Real.rpow Real.pi i phi s xLookup true out).muMinus i) ∧
    (p.rootFunc Real.exp (1. / xLookup (1. + Screening.phiToState_Vmapped Real.sqrt Real.rpow (p.ZbyT * phi i)) - 1.) (p.ZbyT * phi i) = 0 →
      p.packingFraction Real.exp ((p.phiToState_calc Real.exp Real.sqrt Real.rpow Real.pi i phi s xLookup true out).muPlus i)
        ((p.phiToState_calc Real.exp Real.sqrt Real.rpow Real.pi i phi s xLookup true out).muMinus i) = (1. / xLookup (1. + Screening.phiToState_Vmapped Real.sqrt Real.rpow (p.ZbyT * phi i)) - 1.)) ∧
    (p.linear = false →
      (p.compute Real.exp ((p.phiToState_calc Real.exp Real.sqrt Real.rpow Real.pi i phi s xLookup true out).muPlus i)
        ((p.phiToState_calc Real.exp Real.sqrt Real.rpow Real.pi i phi s xLookup true out).muMinus i)).F_muPlus
      = p.NT * Real.exp ((p.phiToState_calc Real.exp Real.sqrt Real.rpow Real.pi i phi s xLookup true out).muPlus i)
        * ((p.phiToState_calc Real.exp Real.sqrt Real.rpow Real.pi i phi s xLookup true out).muPlus i
          + (p.fHS (p.packingFraction Real.exp ((p.phiToState_calc Real.exp Real.sqrt Real.rpow Real.pi i phi s xLookup true out).muPlus i)
              ((p.phiToState_calc Real.exp Real.sqrt Real.rpow Real.pi i phi s xLookup true out).muMinus i))).2 * p.x0plus)) := by
  obtain ⟨e1, e2⟩ := phiToState_calc_state p i phi s xLookup out
  have hsum : p.x0plus * Real.exp ((p.phiToState_calc Real.exp Real.sqrt Real.rpow Real.pi i phi s xLookup true out).muPlus i)
        + p.x0minus * Real.exp (-(p.phiToState_calc Real.exp Real.sqrt Real.rpow Real.pi i phi s xLookup true out).muMinus i)
      = (1. / xLookup (1. + Screening.phiToState_Vmapped Real.sqrt Real.rpow (p.ZbyT * phi i)) - 1.) - p.rootFunc Real.exp (1. / xLookup (1. + Screening.phiToState_Vmapped Real.sqrt Real.rpow (p.ZbyT * phi i)) - 1.) (p.ZbyT * phi i) := by
    rw [e1, e2, neg_neg]
    simp only [Screening.rootFunc]
    ring
  refine ⟨hsum, rfl, fun hroot => ?_, fun hlin => (compute_packingFraction p hlin _ _).2.1⟩
  have : p.packingFraction Real.exp ((p.phiToState_calc Real.exp Real.sqrt Real.rpow Real.pi i phi s xLookup true out).muPlus i)
      ((p.phiToState_calc Real.exp Real.sqrt Real.rpow Real.pi i phi s xLookup true out).muMinus i)
      = p.x0plus * Real.exp ((p.phiToState_calc Real.exp Real.sqrt Real.rpow Real.pi i phi s xLookup true out).muPlus i)
        + p.x0minus * Real.exp (-(p.phiToState_calc Real.exp Real.sqrt Real.rpow Real.pi i phi s xLookup true out).muMinus i) := rfl
  rw [this, hsum, hroot, sub_zero]

/-- C29: for `|ZbyT*phi[i]| ≥ 1e-7` the `kappaSq[i]` written with
`setState = false` satisfies `kappaSq[i]*phi[i] = -4 pi s[i] Rho`, where
`Rho = NZ (exp(muPlus) - exp(-muMinus))` for the state that the call with
`setState = true` writes; this `Rho` is the charge returned by the nonlinear
branch of `compute`. -/
theorem phiToState_calc_kappaSq_charge (p : Screening ℝ) (i : Nat) (phi s : Nat → ℝ)
    (xLookup : ℝ → ℝ) (out outS : PhiToStateArrays ℝ) (hV : 1e-7 ≤ |p.ZbyT * phi i|) :
    (p.phiToState_calc Real.exp Real.sqrt Real.rpow Real.pi i phi s xLookup false out).kappaSq i * phi i
      = -4 * Real.pi * s i * (p.NZ * (Real.exp ((p.phiToState_calc Real.exp Real.sqrt Real.rpow Real.pi i phi s xLookup true outS).muPlus i)
          - Real.exp (-(p.phiToState_calc Real.exp Real.sqrt Real.rpow Real.pi i phi s xLookup true outS).muMinus i))) ∧
    (p.linear = false →
      (p.compute Real.exp ((p.phiToState_calc Real.exp Real.sqrt Real.rpow Real.pi i phi s xLookup true outS).muPlus i)
        ((p.phiToState_calc Real.exp Real.sqrt Real.rpow Real.pi i phi s xLookup true outS).muMinus i)).Rho
      = p.NZ * (Real.exp ((p.phiToState_calc Real.exp Real.sqrt Real.rpow Real.pi i phi s xLookup true outS).muPlus i)
          - Real.exp (-(p.phiToState_calc Real.exp Real.sqrt Real.rpow Real.pi i phi s xLookup true outS).muMinus i))) := by
  obtain ⟨e1, e2⟩ := phiToState_calc_state p i phi s xLookup outS
  have hVeq := (phiToState_V_spec p (phi i)).2.2.2.1 hV
  have hV0 : p.ZbyT * phi i ≠ 0 := by
    intro h0
    rw [h0, abs_zero] at hV
    norm_num at hV
  refine ⟨?_, fun hlin => (compute_packingFraction p hlin _ _).2.2.2⟩
  rw [e1, e2, neg_neg]
  have hk := (phiToState_calc_divisor_link p i phi s xLookup out)
  rw [hk, hVeq]
  field_simp
  ring

/-- C29 at the sample parameters with `phi[i] = 1`, `s[i] = 1` and a lookup table
that returns `1/2`. -/
theorem phiToState_calc_kappaSq_charge_witness :
    ((sampleScreening ℝ false).phiToState_calc Real.exp Real.sqrt Real.rpow Real.pi 0
        (fun _ => 1) (fun _ => 1) (fun _ => 1 / 2) false ⟨fun _ => 0, fun _ => 0, fun _ => 0⟩).kappaSq
        0 * 1
      = -4 * Real.pi * 1 * ((sampleScreening ℝ false).NZ
          * (Real.exp (((sampleScreening ℝ false).phiToState_calc Real.exp Real.sqrt Real.rpow
              Real.pi 0 (fun _ => 1) (fun _ => 1) (fun _ => 1 / 2) true
              ⟨fun _ => 0, fun _ => 0, fun _ => 0⟩).muPlus 0)
            - Real.exp (-((sampleScreening ℝ false).phiToState_calc Real.exp Real.sqrt Real.rpow
              Real.pi 0 (fun _ => 1) (fun _ => 1) (fun _ => 1 / 2) true
              ⟨fun _ => 0, fun _ => 0, fun _ => 0⟩).muMinus 0))) :=
  (phiToState_calc_kappaSq_charge (sampleScreening ℝ false) 0 (fun _ => 1) (fun _ => 1)
    (fun _ => 1 / 2) ⟨fun _ => 0, fun _ => 0, fun _ => 0⟩ ⟨fun _ => 0, fun _ => 0, fun _ => 0⟩
    (by norm_num [sampleScreening])).1

end PhiToState

end NonlinearPCMeval

/-! ## The remap of the packing fraction in `fHS` -/

namespace NonlinearPCMeval

/-- Both outputs of `fHS` in terms of the remapped packing fraction. -/
theorem fHS_remap (p : Screening ℝ) (xIn : ℝ) :
    (p.fHS xIn).1
      = 2 / p.x0 * ((Screening.remap xIn - p.x0) * (1 / (1 - Screening.remap xIn))
          * (1 / (1 - p.x0)))
        * ((Screening.remap xIn - p.x0) * (1 / (1 - Screening.remap xIn)) * (1 / (1 - p.x0))) ∧
    (p.fHS xIn).2
      = 2 / p.x0 * 2 * ((Screening.remap xIn - p.x0) * (1 / (1 - Screening.remap xIn))
          * (1 / (1 - p.x0)))
        * (1 / (1 - Screening.remap xIn) * (1 / (1 - Screening.remap xIn)))
        * (if xIn > 1 / 2 then 1 / 4 * (1 / xIn) * (1 / xIn) else 1) := by
  by_cases h : xIn > 1 / 2
  · have h5 : xIn > (0.5 : ℝ) := by rw [lit_half]; exact h
    simp only [Screening.fHS, Screening.remap, h5, h, if_true, lit_one, lit_two, lit_quarter,
      and_self]
  · have h5 : ¬ xIn > (0.5 : ℝ) := by rw [lit_half]; exact h
    simp only [Screening.fHS, Screening.remap, h5, h, if_false, lit_one, lit_two, and_self]

/-- In exact real arithmetic, for every real `xIn` the remapped packing
fraction `x` of `fHS` satisfies `1 - x > 0`; for `xIn > 1/2` it lies in `(1/2, 1)` and is strictly
increasing in `xIn`; for `0 < x0 < 1` none of the divisors of `fHS` (`1 - x`,
`1 - x0`, `x0`, and `xIn` on the remapped branch) is zero. -/
theorem fHS_remap_nonsingular (p : Screening ℝ) (xIn : ℝ) (h0 : 0 < p.x0) (h1 : p.x0 < 1) :
    0 < 1 - Screening.remap xIn ∧
    (xIn ≤ 1 / 2 → Screening.remap xIn = xIn) ∧
    (1 / 2 < xIn → Screening.remap xIn = 1 - 1 / (4 * xIn) ∧
      1 / 2 < Screening.remap xIn ∧ Screening.remap xIn < 1) ∧
    StrictMonoOn (fun y : ℝ => Screening.remap y) (Set.Ioi (1 / 2)) ∧
    1 - Screening.remap xIn ≠ 0 ∧ 1 - p.x0 ≠ 0 ∧ p.x0 ≠ 0 ∧ (1 / 2 < xIn → xIn ≠ 0) ∧
    (p.fHS xIn).1
      = 2 / p.x0 * ((Screening.remap xIn - p.x0) * (1 / (1 - Screening.remap xIn))
          * (1 / (1 - p.x0)))
        * ((Screening.remap xIn - p.x0) * (1 / (1 - Screening.remap xIn)) * (1 / (1 - p.x0))) := by
  have hle : ∀ y : ℝ, y ≤ 1 / 2 → Screening.remap y = y := by
    intro y hy
    have h5 : ¬ y > (0.5 : ℝ) := by rw [lit_half]; exact not_lt.mpr hy
    simp only [Screening.remap, h5, if_false]
  have hgt : ∀ y : ℝ, 1 / 2 < y → Screening.remap y = 1 - 1 / (4 * y) := by
    intro y hy
    have h5 : y > (0.5 : ℝ) := by rw [lit_half]; exact hy
    simp only [Screening.remap, h5, if_true, lit_one, lit_quarter]
    have : y ≠ 0 := by linarith
    field_simp
  have hrange : ∀ y : ℝ, 1 / 2 < y → 1 / 2 < Screening.remap y ∧ Screening.remap y < 1 := by
    intro y hy
    rw [hgt y hy]
    have hy4 : 0 < 4 * y := by linarith
    have hpos : 0 < 1 / (4 * y) := div_pos one_pos hy4
    have hlt : 1 / (4 * y) < 1 / 2 := by
      rw [div_lt_div_iff₀ hy4 (by norm_num)]
      linarith
    constructor <;> linarith
  have hpos : 0 < 1 - Screening.remap xIn := by
    rcases le_or_lt xIn (1 / 2) with h | h
    · rw [hle xIn h]
      linarith
    · have := (hrange xIn h).2
      linarith
  refine ⟨hpos, hle xIn, fun h => ⟨hgt xIn h, hrange xIn h⟩, ?_, hpos.ne', by linarith, h0.ne',
    fun h => by linarith, (fHS_remap p xIn).1⟩
  intro a ha b hb hab
  simp only [Set.mem_Ioi] at ha hb
  show Screening.remap a < Screening.remap b
  rw [hgt a ha, hgt b hb]
  have ha4 : 0 < 4 * a := by linarith
  have hb4 : 0 < 4 * b := by linarith
  have : 1 / (4 * b) < 1 / (4 * a) := by
    rw [div_lt_div_iff₀ hb4 ha4]
    linarith
  linarith

/-- The exact remap at the sample parameters (`x0 = 1/4`) and `xIn = 3`: the
remapped packing fraction is `11/12`. -/
theorem fHS_remap_nonsingular_witness :
    0 < 1 - Screening.remap (3 : ℝ) ∧ Screening.remap (3 : ℝ) = 1 - 1 / (4 * 3) := by
  obtain ⟨h1, -, h3, -⟩ := fHS_remap_nonsingular (sampleScreening ℝ false) 3
    (by norm_num [sampleScreening]) (by norm_num [sampleScreening])
  exact ⟨h1, (h3 (by norm_num)).1⟩

end NonlinearPCMeval

/-! ## Exactness of the derivatives of `mu0` -/

namespace NonlinearPCMeval

section Mu0Derivatives

theorem disc_eq (Qplus Qminus Qexp : ℝ) :
    Screening.disc Real.sqrt Qplus Qminus Qexp
      = Real.sqrt (Qexp * Qexp - 4 * Qplus * Qminus) := by
  unfold Screening.disc
  norm_num

/-- The positive and the negative branch of the nonlinear solve report the same
derivatives with respect to the moments. -/
theorem mu0_moment_derivatives_agree {Qplus Qminus : ℝ} (hp : 0 < Qplus) (hm : Qminus < 0)
    (Qexp : ℝ) :
    (Screening.mu0BranchNeg Real.log Qplus Qminus Qexp
        (Screening.disc Real.sqrt Qplus Qminus Qexp)).mu0_Qplus
      = (Screening.mu0BranchPos Real.log Qplus Qminus Qexp
        (Screening.disc Real.sqrt Qplus Qminus Qexp)).mu0_Qplus ∧
    (Screening.mu0BranchNeg Real.log Qplus Qminus Qexp
        (Screening.disc Real.sqrt Qplus Qminus Qexp)).mu0_Qminus
      = (Screening.mu0BranchPos Real.log Qplus Qminus Qexp
        (Screening.disc Real.sqrt Qplus Qminus Qexp)).mu0_Qminus := by
  have hsq := disc_sq hp hm Qexp
  have habs := disc_gt_abs hp hm Qexp
  have h1 := neg_abs_le Qexp
  have h2 := le_abs_self Qexp
  simp only [Screening.mu0BranchNeg, Screening.mu0BranchPos, lit_one, lit_two]
  generalize Screening.disc Real.sqrt Qplus Qminus Qexp = D at hsq habs
  have hD : D ≠ 0 := by
    have := abs_nonneg Qexp
    intro h
    linarith
  have hDm : D - Qexp ≠ 0 := by intro h; linarith
  have hDp : D + Qexp ≠ 0 := by intro h; linarith
  have hQm : Qminus = (Qexp * Qexp - D * D) / (4 * Qplus) := by
    rw [hsq]
    field_simp
  have hnum : Qexp * Qexp - D * D ≠ 0 := by
    have : Qexp * Qexp - D * D = -((D - Qexp) * (D + Qexp)) := by ring
    rw [this]
    exact neg_ne_zero.mpr (mul_ne_zero hDm hDp)
  rw [hQm]
  constructor
  · field_simp
    ring
  · field_simp
    ring

/-- The solution `mu0 = log((disc - Qexp)/(2 Qplus))` of the nonlinear
constraint has the partial derivatives `-1/disc` in `Qexp` and the values
reported on the `Qexp < 0` branch in `Qplus` and `Qminus`. -/
theorem mu0_closed_form_hasDerivAt {Qplus Qminus : ℝ} (hp : 0 < Qplus) (hm : Qminus < 0)
    (Qexp : ℝ) :
    HasDerivAt (fun q => Real.log ((Real.sqrt (q * q - 4 * Qplus * Qminus) - q) / (2 * Qplus)))
      (-1 / Real.sqrt (Qexp * Qexp - 4 * Qplus * Qminus)) Qexp ∧
    HasDerivAt (fun q => Real.log ((Real.sqrt (Qexp * Qexp - 4 * q * Qminus) - Qexp) / (2 * q)))
      (-2 * Qminus / (Real.sqrt (Qexp * Qexp - 4 * Qplus * Qminus)
          * (Real.sqrt (Qexp * Qexp - 4 * Qplus * Qminus) - Qexp)) - 1 / Qplus) Qplus ∧
    HasDerivAt
      (fun q => Real.log ((Real.sqrt (Qexp * Qexp - 4 * Qplus * q) - Qexp) / (2 * Qplus)))
      (-2 * Qplus / (Real.sqrt (Qexp * Qexp - 4 * Qplus * Qminus)
          * (Real.sqrt (Qexp * Qexp - 4 * Qplus * Qminus) - Qexp))) Qminus := by
  have habs := disc_gt_abs hp hm Qexp
  rw [disc_eq] at habs
  have h1 := neg_abs_le Qexp
  have h2 := le_abs_self Qexp
  have hin : Qexp * Qexp - 4 * Qplus * Qminus ≠ 0 := by
    have := mul_pos hp (neg_pos.mpr hm)
    nlinarith [mul_self_nonneg Qexp]
  have hD : Real.sqrt (Qexp * Qexp - 4 * Qplus * Qminus) ≠ 0 := by
    have := abs_nonneg Qexp
    intro h
    linarith
  have hDm : Real.sqrt (Qexp * Qexp - 4 * Qplus * Qminus) - Qexp ≠ 0 := by
    intro h
    linarith
  have h2p : 2 * Qplus ≠ 0 := by positivity
  have hval : (Real.sqrt (Qexp * Qexp - 4 * Qplus * Qminus) - Qexp) / (2 * Qplus) ≠ 0 :=
    div_ne_zero hDm h2p
  refine ⟨?_, ?_, ?_⟩
  · have hi : HasDerivAt (fun q : ℝ => q * q - 4 * Qplus * Qminus) (1 * Qexp + Qexp * 1) Qexp :=
      ((hasDerivAt_id' Qexp).mul (hasDerivAt_id' Qexp)).sub_const _
    have hg := (((hi.sqrt hin).sub (hasDerivAt_id' Qexp)).div_const (2 * Qplus)).log hval
    convert hg using 1
    field_simp
    ring
  · have hi : HasDerivAt (fun q : ℝ => Qexp * Qexp - 4 * q * Qminus) (-(4 * 1 * Qminus)) Qplus :=
      (((hasDerivAt_id' Qplus).const_mul (4 : ℝ)).mul_const Qminus).const_sub (Qexp * Qexp)
    have hden : HasDerivAt (fun q : ℝ => 2 * q) (2 * 1) Qplus :=
      (hasDerivAt_id' Qplus).const_mul 2
    have hg := ((((hi.sqrt hin).sub_const Qexp).div hden h2p).log hval)
    convert hg using 1
    field_simp
    ring
  · have hi : HasDerivAt (fun q : ℝ => Qexp * Qexp - 4 * Qplus * q) (-(4 * Qplus * 1))
        Qminus :=
      ((hasDerivAt_id' Qminus).const_mul (4 * Qplus)).const_sub (Qexp * Qexp)
    have hg := ((((hi.sqrt hin).sub_const Qexp).div_const (2 * Qplus)).log hval)
    convert hg using 1
    field_simp
    ring

/-- The derivative outputs of the nonlinear solve in terms of the discriminant,
whichever branch is taken. -/
theorem mu0Nonlinear_derivatives {Qplus Qminus : ℝ} (hp : 0 < Qplus) (hm : Qminus < 0)
    (Qexp : ℝ) :
    (Screening.mu0Nonlinear Real.log Real.sqrt Qplus Qminus Qexp).mu0_Qplus
      = (Screening.mu0BranchNeg Real.log Qplus Qminus Qexp
          (Screening.disc Real.sqrt Qplus Qminus Qexp)).mu0_Qplus ∧
    (Screening.mu0Nonlinear Real.log Real.sqrt Qplus Qminus Qexp).mu0_Qminus
      = (Screening.mu0BranchNeg Real.log Qplus Qminus Qexp
          (Screening.disc Real.sqrt Qplus Qminus Qexp)).mu0_Qminus := by
  obtain ⟨a1, a2⟩ := mu0_moment_derivatives_agree hp hm Qexp
  unfold Screening.mu0Nonlinear
  by_cases hq : Qexp < 0
  · simp only [hq, if_true, and_self]
  · simp only [hq, if_false]
    exact ⟨a1.symm, a2.symm⟩

/-- C25: the derivatives of `mu0` returned by `neutralityConstraint` are exact.
In the linear regime with `Qsum ≠ 0`, `mu0_Qexp = -1/Qsum` is the derivative of
`mu0` in `Qexp`. In the nonlinear regime with `Qplus > 0 > Qminus`,
`mu0_Qexp = -1/disc` is the derivative of `mu0` in `Qexp`, and `mu0_Qplus`,
`mu0_Qminus` are the partial derivatives of `mu0` in the moments, with the same
values on the `Qexp < 0` and the `Qexp ≥ 0` branch. -/
theorem neutralityConstraint_derivatives_exact (p : Screening ℝ) {n : Nat}
    (w muPlus muMinus shape : Fin n → ℝ) (Qexp Qplus Qminus : ℝ)
    (hp : 0 < Qplus) (hm : Qminus < 0) :
    (p.linear = true → p.Qsum w shape ≠ 0 →
      (p.neutralityConstraint Real.exp Real.log Real.sqrt w muPlus muMinus shape Qexp).mu0_Qexp = -1 / p.Qsum w shape ∧
      HasDerivAt (fun q => (p.neutralityConstraint Real.exp Real.log Real.sqrt w muPlus muMinus shape q).mu0)
        (p.neutralityConstraint Real.exp Real.log Real.sqrt w muPlus muMinus shape Qexp).mu0_Qexp Qexp) ∧
    (p.linear = false → 0 < p.Qplus Real.exp w muPlus shape →
      p.Qminus Real.exp w muMinus shape < 0 →
      (p.neutralityConstraint Real.exp Real.log Real.sqrt w muPlus muMinus shape Qexp).mu0_Qexp
        = -1 / Screening.disc Real.sqrt (p.Qplus Real.exp w muPlus shape)
            (p.Qminus Real.exp w muMinus shape) Qexp ∧
      HasDerivAt (fun q => (p.neutralityConstraint Real.exp Real.log Real.sqrt w muPlus muMinus shape q).mu0)
        (p.neutralityConstraint Real.exp Real.log Real.sqrt w muPlus muMinus shape Qexp).mu0_Qexp Qexp) ∧
    HasDerivAt (fun q => (Screening.mu0Nonlinear Real.log Real.sqrt Qplus Qminus q).mu0)
      (-1 / Screening.disc Real.sqrt Qplus Qminus Qexp) Qexp ∧
    HasDerivAt (fun q => (Screening.mu0Nonlinear Real.log Real.sqrt q Qminus Qexp).mu0)
      (Screening.mu0Nonlinear Real.log Real.sqrt Qplus Qminus Qexp).mu0_Qplus Qplus ∧
    HasDerivAt (fun q => (Screening.mu0Nonlinear Real.log Real.sqrt Qplus q Qexp).mu0)
      (Screening.mu0Nonlinear Real.log Real.sqrt Qplus Qminus Qexp).mu0_Qminus Qminus ∧
    (Screening.mu0BranchNeg Real.log Qplus Qminus Qexp
        (Screening.disc Real.sqrt Qplus Qminus Qexp)).mu0_Qplus
      = (Screening.mu0BranchPos Real.log Qplus Qminus Qexp
        (Screening.disc Real.sqrt Qplus Qminus Qexp)).mu0_Qplus ∧
    (Screening.mu0BranchNeg Real.log Qplus Qminus Qexp
        (Screening.disc Real.sqrt Qplus Qminus Qexp)).mu0_Qminus
      = (Screening.mu0BranchPos Real.log Qplus Qminus Qexp
        (Screening.disc Real.sqrt Qplus Qminus Qexp)).mu0_Qminus := by
  have hQexp : ∀ {A B : ℝ}, 0 < A → B < 0 → ∀ Q : ℝ,
      HasDerivAt (fun q => (Screening.mu0Nonlinear Real.log Real.sqrt A B q).mu0)
        (-1 / Screening.disc Real.sqrt A B Q) Q := by
    intro A B hA hB Q
    have hfun : (fun q => (Screening.mu0Nonlinear Real.log Real.sqrt A B q).mu0)
        = fun q => Real.log ((Real.sqrt (q * q - 4 * A * B) - q) / (2 * A)) := by
      funext q
      rw [mu0Nonlinear_mu0 hA hB q, disc_eq]
    rw [hfun, disc_eq]
    exact (mu0_closed_form_hasDerivAt hA hB Q).1
  obtain ⟨d1, d2⟩ := mu0Nonlinear_derivatives hp hm Qexp
  obtain ⟨g1, g2⟩ := mu0_moment_derivatives_agree hp hm Qexp
  refine ⟨?_, ?_, hQexp hp hm Qexp, ?_, ?_, g1, g2⟩
  · intro hlin hsum
    have hout := ((neutralityConstraint_divisors p w muPlus muMinus shape Qexp).1 hlin).2
    rw [lit_one] at hout
    refine ⟨hout, ?_⟩
    have hfun : (fun q => (p.neutralityConstraint Real.exp Real.log Real.sqrt w muPlus muMinus shape q).mu0)
        = fun q => -(q + p.NZ * integral w (fun i => shape i * (muPlus i + muMinus i)))
            / p.Qsum w shape := by
      funext q
      exact ((neutralityConstraint_divisors p w muPlus muMinus shape q).1 hlin).1
    rw [hfun, hout]
    have := (((hasDerivAt_id' Qexp).add_const
      (p.NZ * integral w (fun i => shape i * (muPlus i + muMinus i)))).neg).div_const
      (p.Qsum w shape)
    exact this
  · intro hlin hplus hminus
    have hout := ((neutralityConstraint_divisors p w muPlus muMinus shape Qexp).2 hlin).2
    rw [lit_one] at hout
    refine ⟨hout, ?_⟩
    have hfun : (fun q => (p.neutralityConstraint Real.exp Real.log Real.sqrt w muPlus muMinus shape q).mu0)
        = fun q => (Screening.mu0Nonlinear Real.log Real.sqrt (p.Qplus Real.exp w muPlus shape)
            (p.Qminus Real.exp w muMinus shape) q).mu0 := by
      funext q
      exact ((neutralityConstraint_divisors p w muPlus muMinus shape q).2 hlin).1
    rw [hfun, hout]
    exact hQexp hplus hminus Qexp
  · rw [d1]
    have hform : (Screening.mu0BranchNeg Real.log Qplus Qminus Qexp
        (Screening.disc Real.sqrt Qplus Qminus Qexp)).mu0_Qplus
        = -2 * Qminus / (Real.sqrt (Qexp * Qexp - 4 * Qplus * Qminus)
          * (Real.sqrt (Qexp * Qexp - 4 * Qplus * Qminus) - Qexp)) - 1 / Qplus := by
      simp only [Screening.mu0BranchNeg, lit_one, lit_two, disc_eq]
    rw [hform]
    refine (mu0_closed_form_hasDerivAt hp hm Qexp).2.1.congr_of_eventuallyEq
      (Filter.eventuallyEq_of_mem (Ioi_mem_nhds hp) ?_)
    intro q hq
    show (Screening.mu0Nonlinear Real.log Real.sqrt q Qminus Qexp).mu0 = _
    rw [mu0Nonlinear_mu0 hq hm Qexp, disc_eq]
  · rw [d2]
    have hform : (Screening.mu0BranchNeg Real.log Qplus Qminus Qexp
        (Screening.disc Real.sqrt Qplus Qminus Qexp)).mu0_Qminus
        = -2 * Qplus / (Real.sqrt (Qexp * Qexp - 4 * Qplus * Qminus)
          * (Real.sqrt (Qexp * Qexp - 4 * Qplus * Qminus) - Qexp)) := by
      simp only [Screening.mu0BranchNeg, lit_two, disc_eq]
    rw [hform]
    refine (mu0_closed_form_hasDerivAt hp hm Qexp).2.2.congr_of_eventuallyEq
      (Filter.eventuallyEq_of_mem (Iio_mem_nhds hm) ?_)
    intro q hq
    show (Screening.mu0Nonlinear Real.log Real.sqrt Qplus q Qexp).mu0 = _
    rw [mu0Nonlinear_mu0 hp hq Qexp, disc_eq]

/-- C25 at the moments `Qplus = 1`, `Qminus = -1`, `Qexp = 0`. -/
theorem neutralityConstraint_derivatives_exact_witness :
    HasDerivAt (fun q => (Screening.mu0Nonlinear Real.log Real.sqrt 1 (-1) q).mu0)
      (-1 / Screening.disc Real.sqrt 1 (-1) 0) 0 ∧
    HasDerivAt (fun q => (Screening.mu0Nonlinear Real.log Real.sqrt q (-1) 0).mu0)
      (Screening.mu0Nonlinear Real.log Real.sqrt 1 (-1) 0).mu0_Qplus 1 := by
  obtain ⟨-, -, h3, h4, -⟩ := neutralityConstraint_derivatives_exact (sampleScreening ℝ false)
    (fun _ : Fin 1 => 1) (fun _ => 0) (fun _ => 0) (fun _ => 1) 0 1 (-1)
    (by norm_num) (by norm_num)
  exact ⟨h3, h4⟩

end Mu0Derivatives

end NonlinearPCMeval

/-! ## Consistency of the two outputs of `calcFunctions` -/

namespace NonlinearPCMeval

section CalcFunctions

open Filter Topology

/-- The second output of `calcFunctions` in the linear regime. -/
theorem logsinch_linear (d : Dielectric ℝ) (h : d.linear = true) (e : ℝ) :
    (d.calcFunctions Real.tanh Real.sinh Real.log e).2 = e * e * (1 / 6) := by
  simp only [Dielectric.calcFunctions, h, if_true]
  norm_num

/-- The second output of `calcFunctions` on the closed-form branch below `20`. -/
theorem logsinch_closed (d : Dielectric ℝ) (h : d.linear = false) {e : ℝ} (he : 1 / 10 ≤ e)
    (h20 : e < 20) :
    (d.calcFunctions Real.tanh Real.sinh Real.log e).2 = Real.log (Real.sinh e / e) := by
  have hlt : ¬ e < (1e-1 : ℝ) := by norm_num; linarith
  have h20lit : e < (20. : ℝ) := by norm_num; linarith
  simp only [Dielectric.calcFunctions, h, Bool.false_eq_true, if_false, hlt, h20lit, if_true]

/-- The derivative of `log(sinh(eps)/eps)` at a positive `eps` is
`eps * (eps/tanh(eps) - 1)/eps^2`. -/
theorem hasDerivAt_log_sinh_div {e : ℝ} (he : 0 < e) :
    HasDerivAt (fun y => Real.log (Real.sinh y / y))
      (e * ((e / Real.tanh e - 1) / (e * e))) e := by
  have hs : 0 < Real.sinh e := Real.sinh_pos_iff.mpr he
  have hc : 0 < Real.cosh e := Real.cosh_pos e
  have h := ((Real.hasDerivAt_sinh e).div (hasDerivAt_id' e) he.ne').log
    (div_pos hs he).ne'
  convert h using 1
  rw [Real.tanh_eq_sinh_div_cosh]
  field_simp
  ring

/-- C27: the two outputs of `calcFunctions` are derivative-consistent. In the
linear regime `logsinch` has the derivative `eps * frac` at every `eps`. In the
nonlinear regime on the closed-form branch `0.1 ≤ eps < 20`, `logsinch` is
`log(sinh(eps)/eps)`, `frac` is `(eps/tanh(eps) - 1)/eps^2`, and `eps * frac` is
the derivative of `log(sinh(eps)/eps)`; it is the derivative of the computed
`logsinch` within the branch `[0.1, infty)`, and its two-sided derivative for
`0.1 < eps < 20`. -/
theorem calcFunctions_derivative_consistent (d : Dielectric ℝ) (eps : ℝ) :
    (d.linear = true →
      HasDerivAt (fun e => (d.calcFunctions Real.tanh Real.sinh Real.log e).2)
        (eps * (d.calcFunctions Real.tanh Real.sinh Real.log eps).1) eps) ∧
    (d.linear = false → 1 / 10 ≤ eps → eps < 20 →
      (d.calcFunctions Real.tanh Real.sinh Real.log eps).2 = Real.log (Real.sinh eps / eps) ∧
      (d.calcFunctions Real.tanh Real.sinh Real.log eps).1
        = (eps / Real.tanh eps - 1) / (eps * eps) ∧
      HasDerivAt (fun e => Real.log (Real.sinh e / e))
        (eps * (d.calcFunctions Real.tanh Real.sinh Real.log eps).1) eps ∧
      HasDerivWithinAt (fun e => (d.calcFunctions Real.tanh Real.sinh Real.log e).2)
        (eps * (d.calcFunctions Real.tanh Real.sinh Real.log eps).1) (Set.Ici (1 / 10)) eps ∧
      (1 / 10 < eps →
        HasDerivAt (fun e => (d.calcFunctions Real.tanh Real.sinh Real.log e).2)
          (eps * (d.calcFunctions Real.tanh Real.sinh Real.log eps).1) eps)) := by
  constructor
  · intro hlin
    have hfun : (fun e => (d.calcFunctions Real.tanh Real.sinh Real.log e).2)
        = fun e => e * e * (1 / 6) := by
      funext e
      exact logsinch_linear d hlin e
    rw [hfun, frac_linear d hlin]
    have h := ((hasDerivAt_id' eps).mul (hasDerivAt_id' eps)).mul_const (1 / 6 : ℝ)
    convert h using 1
    ring
  · intro hlin hlo h20
    have hpos : 0 < eps := by linarith
    have hfrac := frac_closed d hlin hlo
    have hform : HasDerivAt (fun e => Real.log (Real.sinh e / e))
        (eps * (d.calcFunctions Real.tanh Real.sinh Real.log eps).1) eps := by
      rw [hfrac]
      exact hasDerivAt_log_sinh_div hpos
    refine ⟨logsinch_closed d hlin hlo h20, hfrac, hform, ?_, ?_⟩
    · apply hform.hasDerivWithinAt.congr_of_eventuallyEq _ (logsinch_closed d hlin hlo h20)
      filter_upwards [self_mem_nhdsWithin, mem_nhdsWithin_of_mem_nhds (Iio_mem_nhds h20)]
        with e he1 he2
      exact logsinch_closed d hlin he1 he2
    · intro hlo2
      apply hform.congr_of_eventuallyEq
      filter_upwards [Ioo_mem_nhds hlo2 h20] with e he
      exact logsinch_closed d hlin he.1.le he.2

end CalcFunctions

end NonlinearPCMeval

/-! ## Double-precision rounding -/

section Binary64

/-- Rounding to the nearest integer returns `m` when `q` is strictly within
`1/2` of `m`, and also at distance exactly `1/2` when `m` is even. -/
theorem roundNearestEven_eq (q : ℚ) (m : ℤ)
    (h : |q - m| < 1 / 2 ∨ (|q - m| = 1 / 2 ∧ m % 2 = 0)) : roundNearestEven q = m := by
  unfold roundNearestEven
  rcases le_or_lt (m : ℚ) q with hle | hlt
  · -- q is at or above m
    have habs : |q - m| = q - m := abs_of_nonneg (by linarith)
    have hfloor : ⌊q⌋ = m := by
      rw [Int.floor_eq_iff]
      rcases h with h | ⟨h, -⟩
      · rw [habs] at h
        exact ⟨hle, by linarith⟩
      · rw [habs] at h
        exact ⟨hle, by linarith⟩
    simp only [hfloor]
    rcases h with h | ⟨h, hm⟩
    · rw [habs] at h
      rw [if_pos h]
    · rw [habs] at h
      rw [h, if_neg (lt_irrefl _), if_neg (lt_irrefl _), if_pos hm]
  · -- q is below m
    have habs : |q - m| = m - q := by
      rw [abs_of_neg (by linarith)]
      ring
    have hfloor : ⌊q⌋ = m - 1 := by
      rw [Int.floor_eq_iff]
      push_cast
      rcases h with h | ⟨h, -⟩
      · rw [habs] at h
        exact ⟨by linarith, by linarith⟩
      · rw [habs] at h
        exact ⟨by linarith, by linarith⟩
    simp only [hfloor]
    push_cast
    rcases h with h | ⟨h, hm⟩
    · rw [habs] at h
      rw [if_neg (by linarith), if_pos (by linarith)]
      ring
    · rw [habs] at h
      have hr : q - ((m : ℚ) - 1) = 1 / 2 := by linarith
      rw [hr, if_neg (lt_irrefl _), if_neg (lt_irrefl _)]
      have hodd : ¬ (m - 1) % 2 = 0 := by omega
      rw [if_neg hodd]
      ring

/-- The double nearest to `q` for a normal magnitude `2^e ≤ |q| < 2^(e+1)`. -/
theorem binary64_eq_normal (q : ℚ) (e m : ℤ) (he : -1022 ≤ e) (h1 : (2 : ℚ) ^ e ≤ |q|)
    (h2 : |q| < (2 : ℚ) ^ (e + 1)) (hm : roundNearestEven (q / 2 ^ (e - 52)) = m) :
    binary64 q = m * 2 ^ (e - 52) := by
  have hpos : 0 < |q| := lt_of_lt_of_le (by positivity) h1
  have hq : q ≠ 0 := abs_pos.mp hpos
  have hlog : Int.log 2 |q| = e := by
    apply le_antisymm
    · have := (Int.lt_zpow_iff_log_lt (b := 2) (by norm_num) hpos).mp (by exact_mod_cast h2)
      omega
    · exact (Int.zpow_le_iff_le_log (b := 2) (by norm_num) hpos).mp (by exact_mod_cast h1)
  unfold binary64
  rw [if_neg hq]
  simp only [hlog, max_eq_left he, hm]

/-- The double nearest to a positive `q` with `2^e ≤ q < 2^(e+1)`. -/
theorem binary64_eq_normal_pos (q : ℚ) (e m : ℤ) (he : -1022 ≤ e) (h1 : (2 : ℚ) ^ e ≤ q)
    (h2 : q < (2 : ℚ) ^ (e + 1)) (hm : roundNearestEven (q / 2 ^ (e - 52)) = m) :
    binary64 q = m * 2 ^ (e - 52) := by
  have hpos : 0 < q := lt_of_lt_of_le (by positivity) h1
  have habs : |q| = q := abs_of_pos hpos
  exact binary64_eq_normal q e m he (by rw [habs]; exact h1) (by rw [habs]; exact h2) hm

end Binary64

/-! ## `eps_from_x` in double precision -/

section Loops64

end Loops64

namespace NonlinearPCMeval

end NonlinearPCMeval

/-! ## The SCCS shape function in double precision -/

namespace ShapeFunctionSCCS

end ShapeFunctionSCCS

/-! ## The remap of `fHS` in double precision -/

namespace NonlinearPCMeval

/-- C24: in double precision the remap of `fHS` reaches `1`. At
`xIn = 2^53` the code computes `xInInv = 2^(-53)`, `0.25*xInInv = 2^(-55)` and
`x = 1. - 2^(-55)`, which rounds to `1`; the same happens at `xIn = 2^52` by a
tie. The divisor `1 - x` of `den = 1./(1-x)` is then zero, although
`1 - 1/(4 xIn) < 1` in exact arithmetic. -/
theorem fHS_remap_binary64_reaches_one :
    Screening.remap_binary64 (2 ^ 53) = 1 ∧
    sub64 1 (Screening.remap_binary64 (2 ^ 53)) = 0 ∧
    Screening.remap_binary64 (2 ^ 52) = 1 ∧
    sub64 1 (Screening.remap_binary64 (2 ^ 52)) = 0 ∧
    Screening.remap (2 ^ 53 : ℝ) < 1 := by
  have hzero : sub64 1 1 = 0 := by
    simp [sub64, binary64]
  have e53 : Screening.remap_binary64 (2 ^ 53) = 1 := by
    have hgt : (2 : ℚ) ^ 53 > 0.5 := by norm_num
    have d1 : div64 1. ((2 : ℚ) ^ 53) = 1 / 2 ^ 53 := by
      unfold div64
      rw [binary64_eq_normal_pos _ (-53) (2 ^ 52) (by norm_num) (by norm_num) (by norm_num)
        (by apply roundNearestEven_eq; left; norm_num)]
      norm_num
    have d2 : mul64 0.25 (1 / 2 ^ 53) = 1 / 2 ^ 55 := by
      unfold mul64
      rw [binary64_eq_normal_pos _ (-55) (2 ^ 52) (by norm_num) (by norm_num) (by norm_num)
        (by apply roundNearestEven_eq; left; norm_num)]
      norm_num
    have d3 : sub64 1. (1 / 2 ^ 55) = 1 := by
      unfold sub64
      rw [binary64_eq_normal_pos _ (-1) (2 ^ 53) (by norm_num) (by norm_num) (by norm_num)
        (by apply roundNearestEven_eq; left; norm_num [abs_lt])]
      norm_num
    simp only [Screening.remap_binary64, hgt, if_true, d1, d2, d3]
  have e52 : Screening.remap_binary64 (2 ^ 52) = 1 := by
    have hgt : (2 : ℚ) ^ 52 > 0.5 := by norm_num
    have d1 : div64 1. ((2 : ℚ) ^ 52) = 1 / 2 ^ 52 := by
      unfold div64
      rw [binary64_eq_normal_pos _ (-52) (2 ^ 52) (by norm_num) (by norm_num) (by norm_num)
        (by apply roundNearestEven_eq; left; norm_num)]
      norm_num
    have d2 : mul64 0.25 (1 / 2 ^ 52) = 1 / 2 ^ 54 := by
      unfold mul64
      rw [binary64_eq_normal_pos _ (-54) (2 ^ 52) (by norm_num) (by norm_num) (by norm_num)
        (by apply roundNearestEven_eq; left; norm_num)]
      norm_num
    have d3 : sub64 1. (1 / 2 ^ 54) = 1 := by
      unfold sub64
      rw [binary64_eq_normal_pos _ (-1) (2 ^ 53) (by norm_num) (by norm_num) (by norm_num)
        (by apply roundNearestEven_eq; right; norm_num [abs_of_neg])]
      norm_num
    simp only [Screening.remap_binary64, hgt, if_true, d1, d2, d3]
  refine ⟨e53, by rw [e53]; exact hzero, e52, by rw [e52]; exact hzero, ?_⟩
  have hgt : (2 : ℝ) ^ 53 > 0.5 := by norm_num
  simp only [Screening.remap, hgt, if_true]
  norm_num

end NonlinearPCMeval
